import Mathlib

/-!
The frame pipeline of go-rnnoise.

A shallow embedding of `rnnoise/audio.go`, `rnnoise/filter.go` and
`rnnoise/core.go`.

Conventions of the embedding:

* `float32` and `float64` values are rationals (`ℚ`).  NaN, the infinities
  and the bounds of the exponent are not represented.
* Rounding to nearest, ties to even, at 24 and 53 significant bits (`float32`,
  `float64`) is applied to every operation whose result decides a length, an
  index or an integer written to bytes: the resampling ratio, the new length
  and the source index (`float64`), the product of a sample with the encode
  scale and the scale constant itself (`float32`), and the conversion
  `float32(sample)` of a decoded integer.  Arithmetic that only yields a sample
  value (interpolation, channel mean, statistics) and scaling by a power of
  two are exact.
* The conversions `float64(n)` of a length, an index or a sample rate are
  exact: these integers are taken below `2 ^ 53`.
* Go `int` is `Int`; `len` of a slice is a `Nat`.
* `int(x)`, `int16(x)`, `int32(x)` applied to a floating point value truncate
  toward zero (`truncToInt`).  When the value is outside the integer type, Go
  leaves the result to the implementation; here the integer is kept and its
  two's-complement bit pattern is what is written, as on amd64.
* A byte is a `Fin 256`.  Fixed-width integers are handled through their
  two's-complement bit pattern, a natural number below `2 ^ w`.
* Slices are lists.  A slice read `s[i]` is `s.getD i 0`.
* A sample rate that is zero or negative makes the resampling ratio an
  infinity or the length passed to `make` negative; neither is represented,
  and the statements that go through resampling assume a positive rate.
* A Go function returning `(T, error)` returns `Except Err T`.
* The definitions whose name ends in `Checked` repeat the format conversion
  with every slice access and every `make` checked: `none` is a run-time panic.
* The native denoiser behind `C.rnnoise_process_frame` is a parameter
  (`RNNoiseLib`): a deterministic transition function on an abstract state.
-/

namespace Rnnoise

/-! ## Data model -/

/-- The errors built with `fmt.Errorf` in the package, by place of origin. -/
inductive Err where
  /-- `GetFrames`: the buffer is not tagged 48000 Hz. -/
  | sampleRate (rate : Int)
  /-- `ProcessFrame`: the frame does not hold 480 samples. -/
  | frameSize (len : Nat)
  /-- `FilterStream`: the frame does not hold 480 samples. -/
  | streamFrameSize (len : Nat)
  /-- `FilterAudio`: wrapped error of `ConvertToRNNoiseFormat`. -/
  | convertFailed (inner : Err)
  /-- `FilterAudio`: wrapped error of `GetFrames`. -/
  | framingFailed (inner : Err)
  /-- `FilterAudio`: wrapped error of `ProcessFrame`. -/
  | frameFailed (inner : Err)
  /-- `FilterAudio`: wrapped error of `convertSampleRate`. -/
  | rateFailed (inner : Err)
deriving DecidableEq, Repr

/-- The struct `AudioData` of `audio.go`. -/
structure AudioData where
  Samples : List ℚ
  SampleRate : Int
  Channels : Int
  BitDepth : Int
deriving DecidableEq, Repr

/-- Conversion `int(x)` of a floating point value: the fraction is discarded. -/
def truncToInt (x : ℚ) : Int :=
  if 0 ≤ x then ⌊x⌋ else ⌈x⌉

/-! ## Floating point rounding -/

/-- Round to the nearest integer, ties to the even one. -/
def roundEven (t : ℚ) : Int :=
  let m : Int := ⌊t⌋
  let r : ℚ := t - (m : ℚ)
  if r < 1 / 2 then m else if 1 / 2 < r then m + 1 else if m % 2 = 0 then m else m + 1

/-- The spacing of the values with `p` significant bits around `x > 0`:
`2^(e - (p - 1))` for `2^e <= x < 2^(e+1)`. -/
def ulp (p : Nat) (x : ℚ) : ℚ := (2 : ℚ) ^ (Int.log 2 x - ((p : Int) - 1))

/-- Rounding of a positive value to `p` significant bits. -/
def roundMag (p : Nat) (x : ℚ) : ℚ := (roundEven (x / ulp p x) : ℚ) * ulp p x

/-- Rounding to `p` significant bits: to nearest, ties to even, the IEEE 754
default.  The exponent range is not bounded. -/
def roundFloat (p : Nat) (x : ℚ) : ℚ :=
  if x = 0 then 0 else if 0 < x then roundMag p x else -roundMag p (-x)

/-- The `float32` nearest to an exact value: the result of a `float32`
operation or of the conversion `float32(x)`. -/
def float32 (x : ℚ) : ℚ := roundFloat 24 x

/-- The `float64` nearest to an exact value: the result of a `float64`
operation or of the conversion `float64(x)`. -/
def float64 (x : ℚ) : ℚ := roundFloat 53 x

/-! ## Framer (`GetFrames`) -/

/-- The constant `frameSize := int(48000 * 0.01)` of `GetFrames`. -/
def frameSize : Nat := 480

/-- The method `AudioProcessor.GetFrames` of `audio.go`. -/
def GetFrames (audioData : AudioData) : Except Err (List (List ℚ)) :=
  if audioData.SampleRate ≠ 48000 then
    .error (.sampleRate audioData.SampleRate)
  else
    let samples := audioData.Samples
    let samples :=
      if samples.length % frameSize ≠ 0 then
        let padding := frameSize - samples.length % frameSize
        samples ++ List.replicate padding (0 : ℚ)
      else samples
    let numFrames := samples.length / frameSize
    .ok ((List.range numFrames).map fun i =>
      let start := i * frameSize
      let stop := start + frameSize
      (samples.drop start).take (stop - start))

/-! ## Format conversion (`ConvertToRNNoiseFormat`, `convertSampleRate`) -/

/-- Slice read `s[i]` with a Go `int` index. -/
def sampleAt (s : List ℚ) (i : Int) : ℚ := s.getD i.toNat 0

/-- The linear-interpolation loop, written out twice in the source with the
same text: `audio.go` lines 181-196 (on `samples`) and `filter.go` lines
242-256 (on `audioData.Samples`).  `ratio` is the `float64` computed just
before the loop.  The length and the source index are `float64` results; the
interpolated sample is computed exactly. -/
def resampleLoop (samples : List ℚ) (ratio : ℚ) : List ℚ :=
  let newLength : Int := truncToInt (float64 ((samples.length : ℚ) * ratio))
  (List.range newLength.toNat).map fun (i : Nat) =>
    let srcIndex : ℚ := float64 ((i : ℚ) / ratio)
    let srcIndexInt : Int := truncToInt srcIndex
    if srcIndexInt ≥ (samples.length : Int) - 1 then
      sampleAt samples ((samples.length : Int) - 1)
    else
      let frac : ℚ := srcIndex - (srcIndexInt : ℚ)
      sampleAt samples srcIndexInt * (1 - frac) + sampleAt samples (srcIndexInt + 1) * frac

/-- The stereo branch of `ConvertToRNNoiseFormat` (`Channels == 2`). -/
def downmixStereo (samples : List ℚ) : List ℚ :=
  (List.range (samples.length / 2)).map fun i =>
    (samples.getD (i * 2) 0 + samples.getD (i * 2 + 1) 0) / 2

/-- The multi-channel branch of `ConvertToRNNoiseFormat` (`Channels > 2`);
`channels` is `audioData.Channels`, which is positive there. -/
def downmixMulti (samples : List ℚ) (channels : Nat) : List ℚ :=
  (List.range (samples.length / channels)).map fun i =>
    (List.range channels).foldl (fun sum ch => sum + samples.getD (i * channels + ch) 0) 0
      / (channels : ℚ)

/-- The method `AudioProcessor.ConvertToRNNoiseFormat` of `audio.go`.  The Go
function has an `error` result and every path returns `nil` for it. -/
def ConvertToRNNoiseFormat (audioData : AudioData) : Except Err AudioData :=
  let samples := audioData.Samples
  let samples :=
    if audioData.Channels = 2 then downmixStereo samples
    else if audioData.Channels > 2 then downmixMulti samples audioData.Channels.toNat
    else samples
  let samples :=
    if audioData.SampleRate ≠ 48000 then
      let ratio : ℚ := float64 ((48000 : ℚ) / (audioData.SampleRate : ℚ))
      resampleLoop samples ratio
    else samples
  .ok { Samples := samples, SampleRate := 48000, Channels := 1, BitDepth := 16 }

/-- The method `NoiseFilter.convertSampleRate` of `filter.go`. -/
def convertSampleRate (audioData : AudioData) (targetSampleRate : Int) : Except Err AudioData :=
  if audioData.SampleRate = targetSampleRate then .ok audioData
  else
    let ratio : ℚ := float64 ((targetSampleRate : ℚ) / (audioData.SampleRate : ℚ))
    .ok { Samples := resampleLoop audioData.Samples ratio
          SampleRate := targetSampleRate
          Channels := audioData.Channels
          BitDepth := audioData.BitDepth }

/-! ## The denoiser (`core.go`) -/

/-- The loaded native library: `rnnoise_process_frame st out inp` returns the
voice probability, fills the 480-float buffer `out` and updates the state
behind `st`. -/
structure RNNoiseLib (σ : Type) where
  rnnoise_process_frame : σ → List ℚ → ℚ × List ℚ × σ
  output_length : ∀ st inp, (rnnoise_process_frame st inp).2.1.length = 480

/-- The part of `RNNoise.ProcessFrame` after the length check: scale the input
by 32768, call the library, scale the output back. -/
def denoise {σ : Type} (lib : RNNoiseLib σ) (state : σ) (frame : List ℚ) : (ℚ × List ℚ) × σ :=
  let rnnoiseInput := frame.map fun sample => sample * 32768
  let r := lib.rnnoise_process_frame state rnnoiseInput
  let output := r.2.1.map fun sample => sample / 32768
  ((r.1, output), r.2.2)

/-- The method `RNNoise.ProcessFrame` of `core.go`. -/
def ProcessFrame {σ : Type} (lib : RNNoiseLib σ) (state : σ) (frame : List ℚ) :
    Except Err (ℚ × List ℚ) × σ :=
  if frame.length ≠ 480 then (.error (.frameSize frame.length), state)
  else
    let r := denoise lib state frame
    (.ok r.1, r.2)

/-! ## Batch filter (`FilterAudio`) -/

/-- The struct `FilterResult` of `filter.go`. -/
structure FilterResult where
  DenoisedAudio : AudioData
  VoiceProbabilities : List ℚ
  ProcessedFrames : Nat
deriving DecidableEq, Repr

/-- The frame loop of `FilterAudio` (step 3): the arguments after the frames
are the denoiser state and the two accumulators `denoisedFrames` and
`voiceProbabilities`. -/
def processFrames {σ : Type} (lib : RNNoiseLib σ) (voiceProbThreshold : ℚ) :
    List (List ℚ) → σ → List (List ℚ) → List ℚ → Except Err (List (List ℚ) × List ℚ) × σ
  | [], state, denoisedFrames, voiceProbabilities =>
    (.ok (denoisedFrames, voiceProbabilities), state)
  | frame :: rest, state, denoisedFrames, voiceProbabilities =>
    match ProcessFrame lib state frame with
    | (.error e, state) => (.error (.frameFailed e), state)
    | (.ok (voiceProb, denoisedFrame), state) =>
      let voiceProbabilities := voiceProbabilities ++ [voiceProb]
      let denoisedFrames :=
        if voiceProb ≥ voiceProbThreshold then denoisedFrames ++ [denoisedFrame]
        else denoisedFrames
      processFrames lib voiceProbThreshold rest state denoisedFrames voiceProbabilities

/-- The method `NoiseFilter.FilterAudio` of `filter.go`. -/
def FilterAudio {σ : Type} (lib : RNNoiseLib σ) (state : σ) (audioData : AudioData)
    (voiceProbThreshold : ℚ) : Except Err FilterResult × σ :=
  match ConvertToRNNoiseFormat audioData with
  | .error e => (.error (.convertFailed e), state)
  | .ok convertedAudio =>
    match GetFrames convertedAudio with
    | .error e => (.error (.framingFailed e), state)
    | .ok frames =>
      match processFrames lib voiceProbThreshold frames state [] [] with
      | (.error e, state) => (.error e, state)
      | (.ok (denoisedFrames, voiceProbabilities), state) =>
        let allSamples := denoisedFrames.foldl (fun allSamples frame => allSamples ++ frame) []
        let denoisedAudio : AudioData :=
          { Samples := allSamples, SampleRate := 48000, Channels := 1, BitDepth := 16 }
        if audioData.SampleRate ≠ 48000 then
          match convertSampleRate denoisedAudio audioData.SampleRate with
          | .error e => (.error (.rateFailed e), state)
          | .ok denoisedAudio =>
            (.ok { DenoisedAudio := denoisedAudio
                   VoiceProbabilities := voiceProbabilities
                   ProcessedFrames := frames.length }, state)
        else
          (.ok { DenoisedAudio := denoisedAudio
                 VoiceProbabilities := voiceProbabilities
                 ProcessedFrames := frames.length }, state)

/-! ## Sample codec (`ConvertBytesToFloat32`, `ConvertFloat32ToBytes`) -/

/-- A byte of a PCM buffer. -/
abbrev Byte := Fin 256

/-- Conversion `byte(x)` of an unsigned bit pattern: the low 8 bits. -/
def toByte (n : Nat) : Byte := ⟨n % 256, Nat.mod_lt _ (by decide)⟩

/-- Slice read `data[i]` of a byte slice, as the unsigned value of the byte. -/
def byteAt (data : List Byte) (i : Nat) : Nat := (data.getD i 0).val

/-- The signed value of a `w`-bit two's-complement pattern (`int16(u)` for a
`uint16`, `int32(u)` for a `uint32`). -/
def toSigned (w : Nat) (u : Nat) : Int :=
  if u % 2 ^ w < 2 ^ (w - 1) then ((u % 2 ^ w : Nat) : Int)
  else ((u % 2 ^ w : Nat) : Int) - ((2 ^ w : Nat) : Int)

/-- The `w`-bit two's-complement pattern of an integer. -/
def bitsOf (w : Nat) (q : Int) : Nat := (q % ((2 ^ w : Nat) : Int)).toNat

/-- The function `binary.LittleEndian.Uint16` on `data[off : off+2]`. -/
def leUint16 (data : List Byte) (off : Nat) : Nat :=
  byteAt data off ||| byteAt data (off + 1) <<< 8

/-- The function `binary.LittleEndian.Uint32` on `data[off : off+4]`. -/
def leUint32 (data : List Byte) (off : Nat) : Nat :=
  byteAt data off ||| byteAt data (off + 1) <<< 8 ||| byteAt data (off + 2) <<< 16
    ||| byteAt data (off + 3) <<< 24

/-- The body of the 24-bit loop of `ConvertBytesToFloat32` on
`bytes := data[off : off+3]`; the `int32` expression is evaluated on bit
patterns, `int32(-16777216)` being `0xFF000000`. -/
def decode24 (data : List Byte) (off : Nat) : Int :=
  let b0 := byteAt data off
  let b1 := byteAt data (off + 1)
  let b2 := byteAt data (off + 2)
  if b2 &&& 0x80 ≠ 0 then
    toSigned 32 (0xFF000000 ||| b2 <<< 16 ||| b1 <<< 8 ||| b0)
  else
    toSigned 32 (b2 <<< 16 ||| b1 <<< 8 ||| b0)

/-- The function `ConvertBytesToFloat32` of `audio.go`.  The conversion
`float32(sample)` of the integer rounds it to 24 significant bits; the
division by a power of two is exact. -/
def ConvertBytesToFloat32 (data : List Byte) (bitDepth : Int) : List ℚ :=
  if bitDepth = 16 then
    (List.range (data.length / 2)).map fun i =>
      let sample : Int := toSigned 16 (leUint16 data (i * 2))
      float32 (sample : ℚ) / 32768
  else if bitDepth = 24 then
    (List.range (data.length / 3)).map fun i =>
      let sample : Int := decode24 data (i * 3)
      float32 (sample : ℚ) / 8388608
  else if bitDepth = 32 then
    (List.range (data.length / 4)).map fun i =>
      let sample : Int := toSigned 32 (leUint32 data (i * 4))
      float32 (sample : ℚ) / 2147483648
  else []

/-- The range limit written before each conversion in `ConvertFloat32ToBytes`:
`if sample > 1.0 { sample = 1.0 } else if sample < -1.0 { sample = -1.0 }`. -/
def clampSample (sample : ℚ) : ℚ :=
  if sample > 1 then 1 else if sample < -1 then -1 else sample

/-- The call `binary.Write(&buf, binary.LittleEndian, v)` for a `w`-byte
integer with bit pattern `u`: the bytes appended to the buffer. -/
def putLE : Nat → Nat → List Byte
  | 0, _ => []
  | w + 1, u => toByte u :: putLE w (u >>> 8)

/-- The three `buf.WriteByte` calls of the 24-bit loop of
`ConvertFloat32ToBytes` on `intSample`; `>>` on the signed `int32` is the
arithmetic shift, `&` acts on the bit pattern. -/
def put24 (intSample : Int) : List Byte :=
  [ toByte (bitsOf 32 intSample &&& 0xFF),
    toByte (bitsOf 32 (intSample >>> (8 : Nat)) &&& 0xFF),
    toByte (bitsOf 32 (intSample >>> (16 : Nat)) &&& 0xFF) ]

/-- The expression `intN(sample * scale)` of `ConvertFloat32ToBytes` after
the range limit: the untyped constant `scale` becomes a `float32`, the product
is a `float32`, and the conversion to the integer type discards the fraction.
When the product is outside the integer type the result of the conversion is
implementation-dependent in Go; here it is the integer itself, whose
two's-complement pattern `bitsOf` then takes. -/
def intSampleOf (scale : ℚ) (sample : ℚ) : Int :=
  truncToInt (float32 (sample * float32 scale))

/-- The function `ConvertFloat32ToBytes` of `audio.go`; the fold carries the
contents of `buf`. -/
def ConvertFloat32ToBytes (samples : List ℚ) (bitDepth : Int) : List Byte :=
  if bitDepth = 16 then
    samples.foldl (fun buf sample =>
      let sample := clampSample sample
      let intSample : Int := intSampleOf 32767 sample
      buf ++ putLE 2 (bitsOf 16 intSample)) []
  else if bitDepth = 24 then
    samples.foldl (fun buf sample =>
      let sample := clampSample sample
      let intSample : Int := intSampleOf 8388607 sample
      buf ++ put24 intSample) []
  else if bitDepth = 32 then
    samples.foldl (fun buf sample =>
      let sample := clampSample sample
      let intSample : Int := intSampleOf 2147483647 sample
      buf ++ putLE 4 (bitsOf 32 intSample)) []
  else []

/-! ## Raw PCM entry point (`FilterAudioBytes`) -/

/-- The method `NoiseFilter.FilterAudioBytes` of `filter.go`. -/
def FilterAudioBytes {σ : Type} (lib : RNNoiseLib σ) (state : σ) (audioBytes : List Byte)
    (sampleRate channels bitDepth : Int) (voiceProbThreshold : ℚ) :
    Except Err (List Byte × List ℚ) × σ :=
  let samples := ConvertBytesToFloat32 audioBytes bitDepth
  let audioData : AudioData :=
    { Samples := samples, SampleRate := sampleRate, Channels := channels, BitDepth := bitDepth }
  match FilterAudio lib state audioData voiceProbThreshold with
  | (.error e, state) => (.error e, state)
  | (.ok result, state) =>
    let denoisedBytes := ConvertFloat32ToBytes result.DenoisedAudio.Samples bitDepth
    (.ok (denoisedBytes, result.VoiceProbabilities), state)

/-! ## Statistics (`AnalyzeFrames`) -/

/-- The struct `FrameStatistics` of `filter.go`. -/
structure FrameStatistics where
  TotalFrames : Int
  VoiceFrames : Int
  NoiseFrames : Int
  AverageVoiceProb : ℚ
  MaxVoiceProb : ℚ
  MinVoiceProb : ℚ
deriving DecidableEq, Repr

/-- The frame loop of `AnalyzeFrames`: the arguments after the frames are the
denoiser state, the statistics under construction and `totalProb`. -/
def analyzeLoop {σ : Type} (lib : RNNoiseLib σ) (voiceProbThreshold : ℚ) :
    List (List ℚ) → σ → FrameStatistics → ℚ → Except Err (FrameStatistics × ℚ) × σ
  | [], state, stats, totalProb => (.ok (stats, totalProb), state)
  | frame :: rest, state, stats, totalProb =>
    match ProcessFrame lib state frame with
    | (.error e, state) => (.error e, state)
    | (.ok (voiceProb, _), state) =>
      let totalProb := totalProb + voiceProb
      let stats :=
        if voiceProb ≥ voiceProbThreshold then { stats with VoiceFrames := stats.VoiceFrames + 1 }
        else { stats with NoiseFrames := stats.NoiseFrames + 1 }
      let stats :=
        if voiceProb > stats.MaxVoiceProb then { stats with MaxVoiceProb := voiceProb }
        else stats
      let stats :=
        if voiceProb < stats.MinVoiceProb then { stats with MinVoiceProb := voiceProb }
        else stats
      analyzeLoop lib voiceProbThreshold rest state stats totalProb

/-- The method `NoiseFilter.AnalyzeFrames` of `filter.go`. -/
def AnalyzeFrames {σ : Type} (lib : RNNoiseLib σ) (state : σ) (audioData : AudioData)
    (voiceProbThreshold : ℚ) : Except Err FrameStatistics × σ :=
  match ConvertToRNNoiseFormat audioData with
  | .error e => (.error e, state)
  | .ok convertedAudio =>
    match GetFrames convertedAudio with
    | .error e => (.error e, state)
    | .ok frames =>
      let stats : FrameStatistics :=
        { TotalFrames := frames.length, VoiceFrames := 0, NoiseFrames := 0
          AverageVoiceProb := 0, MaxVoiceProb := 0, MinVoiceProb := 1 }
      match analyzeLoop lib voiceProbThreshold frames state stats 0 with
      | (.error e, state) => (.error e, state)
      | (.ok (stats, totalProb), state) =>
        if stats.TotalFrames > 0 then
          (.ok { stats with AverageVoiceProb := totalProb / (stats.TotalFrames : ℚ) }, state)
        else (.ok stats, state)

/-! ## Streaming entry point (`FilterStream`) -/

/-- The method `NoiseFilter.FilterStream` of `filter.go`.  The four results
are the frame (`nil` is the empty list), the probability, the keep decision
and the error (`nil` is `none`). -/
def FilterStream {σ : Type} (lib : RNNoiseLib σ) (state : σ) (frame : List ℚ)
    (voiceProbThreshold : ℚ) : (List ℚ × ℚ × Bool × Option Err) × σ :=
  if frame.length ≠ 480 then (([], 0, false, some (.streamFrameSize frame.length)), state)
  else
    match ProcessFrame lib state frame with
    | (.error e, state) => (([], 0, false, some e), state)
    | (.ok (voiceProb, denoisedFrame), state) =>
      let keepFrame : Bool := decide (voiceProb ≥ voiceProbThreshold)
      ((denoisedFrame, voiceProb, keepFrame, none), state)

/-! ## Sample conversion of `WriteWAV` -/

/-- Conversion `uint(x)` of a Go `int` (64 bits). -/
def toUint (x : Int) : Nat := (x % ((2 ^ 64 : Nat) : Int)).toNat

/-- The value `maxVal := float32(int32(1) << uint(audioData.BitDepth-1))` of
`WriteWAV`; the shift is evaluated in `int32`. -/
def wavMaxVal (bitDepth : Int) : ℚ :=
  ((toSigned 32 (1 <<< toUint (bitDepth - 1)) : Int) : ℚ)

/-- The body of the sample loop of `WriteWAV` (`audio.go` lines 119-127): the
integer stored in `intSamples[i]`. -/
def wavSample (bitDepth : Int) (sample : ℚ) : Int :=
  let maxVal := wavMaxVal bitDepth
  let sample := if sample > 1 then 1 else if sample < -1 then -1 else sample
  truncToInt (sample * maxVal)

/-! ## Format conversion with checked slice accesses -/

/-- A slice read `s[i]` as Go executes it: `none` is the run-time panic for an
index outside `0 <= i < len(s)`. -/
def readSample (s : List ℚ) (i : Int) : Option ℚ :=
  if 0 ≤ i ∧ i < (s.length : Int) then s.get? i.toNat else none

/-- The elements of a slice filled in a loop, `none` as soon as one iteration
panics. -/
def collect : List (Option ℚ) → Option (List ℚ)
  | [] => some []
  | none :: _ => none
  | some a :: rest => (collect rest).map fun l => a :: l

/-- The interpolation loop of `resampleLoop` with every slice access and the
`make([]float32, newLength)` checked. -/
def resampleLoopChecked (samples : List ℚ) (ratio : ℚ) : Option (List ℚ) :=
  let newLength : Int := truncToInt (float64 ((samples.length : ℚ) * ratio))
  if newLength < 0 then none
  else
    collect ((List.range newLength.toNat).map fun (i : Nat) =>
      let srcIndex : ℚ := float64 ((i : ℚ) / ratio)
      let srcIndexInt : Int := truncToInt srcIndex
      if srcIndexInt ≥ (samples.length : Int) - 1 then
        readSample samples ((samples.length : Int) - 1)
      else
        let frac : ℚ := srcIndex - (srcIndexInt : ℚ)
        match readSample samples srcIndexInt, readSample samples (srcIndexInt + 1) with
        | some a, some b => some (a * (1 - frac) + b * frac)
        | _, _ => none)

/-- The stereo branch of `ConvertToRNNoiseFormat` with checked accesses. -/
def downmixStereoChecked (samples : List ℚ) : Option (List ℚ) :=
  collect ((List.range (samples.length / 2)).map fun (i : Nat) =>
    match readSample samples ((i : Int) * 2), readSample samples ((i : Int) * 2 + 1) with
    | some a, some b => some ((a + b) / 2)
    | _, _ => none)

/-- The inner loop `for ch := 0; ch < Channels; ch++ { sum += samples[...] }`
with checked accesses. -/
def sumChannelsChecked (samples : List ℚ) (i : Nat) (channels : Int) : Option ℚ :=
  (List.range channels.toNat).foldl
    (fun sum (ch : Nat) =>
      match sum, readSample samples ((i : Int) * channels + (ch : Int)) with
      | some acc, some v => some (acc + v)
      | _, _ => none)
    (some 0)

/-- The multi-channel branch of `ConvertToRNNoiseFormat` with checked
accesses. -/
def downmixMultiChecked (samples : List ℚ) (channels : Int) : Option (List ℚ) :=
  collect ((List.range (samples.length / channels.toNat)).map fun (i : Nat) =>
    (sumChannelsChecked samples i channels).map fun sum => sum / (channels : ℚ))

/-- The method `ConvertToRNNoiseFormat` with checked accesses: `none` is a
panic, `some` the returned buffer. -/
def ConvertToRNNoiseFormatChecked (audioData : AudioData) : Option AudioData :=
  let mono : Option (List ℚ) :=
    if audioData.Channels = 2 then downmixStereoChecked audioData.Samples
    else if audioData.Channels > 2 then downmixMultiChecked audioData.Samples audioData.Channels
    else some audioData.Samples
  match mono with
  | none => none
  | some samples =>
    let resampled : Option (List ℚ) :=
      if audioData.SampleRate ≠ 48000 then
        resampleLoopChecked samples (float64 ((48000 : ℚ) / (audioData.SampleRate : ℚ)))
      else some samples
    resampled.map fun samples =>
      { Samples := samples, SampleRate := 48000, Channels := 1, BitDepth := 16 }

/-- The method `convertSampleRate` with checked accesses. -/
def convertSampleRateChecked (audioData : AudioData) (targetSampleRate : Int) :
    Option AudioData :=
  if audioData.SampleRate = targetSampleRate then some audioData
  else
    (resampleLoopChecked audioData.Samples
        (float64 ((targetSampleRate : ℚ) / (audioData.SampleRate : ℚ)))).map fun samples =>
      { Samples := samples
        SampleRate := targetSampleRate
        Channels := audioData.Channels
        BitDepth := audioData.BitDepth }

/-! ## Specification-side definitions -/

/-- Number of frames for `L` samples: `ceil(L / 480)`. -/
def numFramesOf (L : Nat) : Nat := (L + 479) / 480

/-- The denoiser as a deterministic state-transition function run over a
frame sequence: the `(probability, denoisedFrame)` pair of every frame, in
order, each call starting from the state the previous one left. -/
def runDenoiser {σ : Type} (lib : RNNoiseLib σ) : σ → List (List ℚ) → List (ℚ × List ℚ)
  | _, [] => []
  | state, frame :: rest =>
    let r := denoise lib state frame
    r.1 :: runDenoiser lib r.2 rest

/-- The denoiser state after the frame sequence. -/
def finalState {σ : Type} (lib : RNNoiseLib σ) : σ → List (List ℚ) → σ
  | state, [] => state
  | state, frame :: rest => finalState lib (denoise lib state frame).2 rest

/-- The gate: the pairs whose probability reaches the threshold. -/
def keptPairs (threshold : ℚ) (pairs : List (ℚ × List ℚ)) : List (ℚ × List ℚ) :=
  pairs.filter fun r => decide (r.1 ≥ threshold)

/-- The index sequence of the frames kept under a threshold, from the
per-frame probabilities. -/
def keptIndices (threshold : ℚ) (probs : List ℚ) : List Nat :=
  (List.range probs.length).filter fun i => decide (probs.getD i 0 ≥ threshold)

/-- The encode scale of a bit depth `d`: `2^(d-1) - 1`. -/
def encodeScale (d : Nat) : ℚ := 2 ^ (d - 1) - 1

/-- The unsigned little-endian value of a byte sequence. -/
def leValue : List Byte → Nat
  | [] => 0
  | b :: bs => b.val + 256 * leValue bs

/-- The signed reading of an unsigned `d`-bit value in two's complement. -/
def signedOf (d : Nat) (u : Nat) : Int :=
  if 2 ^ (d - 1) ≤ u then (u : Int) - 2 ^ d else (u : Int)

/-- The reference decoder: `floor(len/k)` samples with `k = d/8`, the `i`-th
being the signed little-endian integer of bytes `[i*k, (i+1)*k)` divided by
`2^(d-1)`. -/
def refDecode (data : List Byte) (d : Nat) : List ℚ :=
  (List.range (data.length / (d / 8))).map fun i =>
    (signedOf d (leValue ((data.drop (i * (d / 8))).take (d / 8))) : ℚ) / 2 ^ (d - 1)

/-- The `k` little-endian two's-complement bytes of an integer. -/
def leBytes (k : Nat) (q : Int) : List Byte :=
  (List.range k).map fun j => toByte ((q % 2 ^ (8 * k)).toNat / 256 ^ j)

/-- The specified linear interpolator, its steps taken in `float64` as the
code takes them: identity for equal rates; otherwise `ratio = dstRate/srcRate`,
`newLength = floor(len * ratio)` samples, the `i`-th interpolated between
`samples[idx]` and `samples[idx+1]` with `srcIndex = i / ratio`,
`idx = floor(srcIndex)` and `frac = srcIndex - idx`, or the last input sample
when `idx >= len - 1`. -/
def refResample (samples : List ℚ) (srcRate dstRate : Nat) : List ℚ :=
  if srcRate = dstRate then samples
  else
    let ratio : ℚ := float64 ((dstRate : ℚ) / (srcRate : ℚ))
    (List.range ⌊float64 ((samples.length : ℚ) * ratio)⌋₊).map fun (i : Nat) =>
      let srcIndex : ℚ := float64 ((i : ℚ) / ratio)
      let idx : Nat := ⌊srcIndex⌋₊
      let frac : ℚ := srcIndex - (idx : ℚ)
      if (idx : Int) ≥ (samples.length : Int) - 1 then samples.getD (samples.length - 1) 0
      else samples.getD idx 0 * (1 - frac) + samples.getD (idx + 1) 0 * frac

/-- The 32-bit decoder as the code computes it: the signed little-endian
integer of every four bytes, rounded to `float32`, over `2^31`. -/
def refDecodeRounded (data : List Byte) : List ℚ :=
  (List.range (data.length / 4)).map fun i =>
    float32 (signedOf 32 (leValue ((data.drop (i * 4)).take 4)) : ℚ) / 2 ^ 31

/-- The specified downmix of `n` interleaved samples with `c` channels:
`floor(n / c)` samples, the `i`-th the arithmetic mean of the input samples
`i*c .. i*c + c - 1`. -/
def refDownmix (samples : List ℚ) (c : Nat) : List ℚ :=
  (List.range (samples.length / c)).map fun i =>
    ((List.range c).map fun ch => samples.getD (i * c + ch) 0).sum / (c : ℚ)

/-- The statistics fold of `AnalyzeFrames` over the per-frame probabilities:
one update of the counters and extrema, and of the running total. -/
def statsStep (threshold : ℚ) (acc : FrameStatistics × ℚ) (p : ℚ) : FrameStatistics × ℚ :=
  let stats := acc.1
  let stats :=
    if p ≥ threshold then { stats with VoiceFrames := stats.VoiceFrames + 1 }
    else { stats with NoiseFrames := stats.NoiseFrames + 1 }
  let stats := if p > stats.MaxVoiceProb then { stats with MaxVoiceProb := p } else stats
  let stats := if p < stats.MinVoiceProb then { stats with MinVoiceProb := p } else stats
  (stats, acc.2 + p)

/-- A library that counts its calls in the state, with probability `p` and
the input returned as output when it has 480 samples. -/
def echoLib (p : ℚ) : RNNoiseLib Nat where
  rnnoise_process_frame := fun st inp =>
    (p, if inp.length = 480 then inp else List.replicate 480 0, st + 1)
  output_length := by
    intro st inp
    by_cases h : inp.length = 480
    · simp only [h, if_true]
    · simp only [h, if_false, List.length_replicate]

/-- A library whose probability is the constant `p`, whose output is silence
and whose state counts the calls. -/
def constLib (p : ℚ) : RNNoiseLib Nat where
  rnnoise_process_frame := fun st _ => (p, List.replicate 480 0, st + 1)
  output_length := fun _ _ => List.length_replicate _ _

/-! ## Lemmas: rounding -/

theorem roundEven_sub_le (t : ℚ) : |(roundEven t : ℚ) - t| ≤ 1 / 2 := by
  have h1 := Int.floor_le t
  have h2 := Int.lt_floor_add_one t
  unfold roundEven
  simp only
  rw [abs_le]
  split_ifs with a b c
  · constructor <;> linarith
  · push_cast; constructor <;> linarith
  · push_neg at a b
    constructor <;> linarith
  · push_neg at a b
    push_cast
    constructor <;> linarith

theorem roundEven_eq_of_close (t : ℚ) (m : Int) (h : |t - (m : ℚ)| < 1 / 2) : roundEven t = m := by
  have h0 := roundEven_sub_le t
  rw [abs_lt] at h
  rw [abs_le] at h0
  have h3 : |((roundEven t - m : Int) : ℚ)| < 1 := by
    push_cast
    rw [abs_lt]
    constructor <;> linarith [h.1, h.2, h0.1, h0.2]
  have h4 : |roundEven t - m| < 1 := by exact_mod_cast h3
  have h5 : roundEven t - m = 0 := Int.abs_lt_one_iff.1 h4
  omega

theorem roundEven_intCast (m : Int) : roundEven (m : ℚ) = m :=
  roundEven_eq_of_close _ m (by simp)

theorem roundEven_le_of_le (t : ℚ) (C : Int) (h : t ≤ C) : roundEven t ≤ C := by
  have hf : ⌊t⌋ ≤ C := by
    have := Int.floor_le t
    have h' : ((⌊t⌋ : Int) : ℚ) ≤ C := le_trans this h
    exact_mod_cast h'
  rcases lt_or_eq_of_le hf with hlt | heq
  · have h1 : roundEven t ≤ ⌊t⌋ + 1 := by
      unfold roundEven
      simp only
      split_ifs <;> omega
    omega
  · have ht : t = (C : ℚ) := by
      have := Int.floor_le t
      rw [heq] at this
      exact le_antisymm h this
    rw [ht, roundEven_intCast]

theorem le_roundEven_of_le (t : ℚ) (C : Int) (h : (C : ℚ) ≤ t) : C ≤ roundEven t := by
  have hf : C ≤ ⌊t⌋ := Int.le_floor.2 h
  have h1 : ⌊t⌋ ≤ roundEven t := by
    unfold roundEven
    simp only
    split_ifs <;> omega
  omega


theorem ulp_pos (p : Nat) (x : ℚ) : 0 < ulp p x := by
  unfold ulp
  positivity

theorem log_bounds (x : ℚ) (hx : 0 < x) :
    (2 : ℚ) ^ Int.log 2 x ≤ x ∧ x < (2 : ℚ) ^ (Int.log 2 x + 1) := by
  have h1 := Int.zpow_log_le_self (b := 2) (r := x) (by norm_num) hx
  have h2 := Int.lt_zpow_succ_log_self (b := 2) (by norm_num) x
  exact ⟨by exact_mod_cast h1, by exact_mod_cast h2⟩

theorem log_eq_of_bounds (x : ℚ) (e : Int) (h1 : (2 : ℚ) ^ e ≤ x) (h2 : x < (2 : ℚ) ^ (e + 1)) :
    Int.log 2 x = e := by
  have hx : 0 < x := lt_of_lt_of_le (by positivity) h1
  have a : e ≤ Int.log 2 x := by
    rw [← Int.zpow_le_iff_le_log (by norm_num) hx]
    exact_mod_cast h1
  have b : Int.log 2 x < e + 1 := by
    rw [← Int.lt_zpow_iff_log_lt (by norm_num) hx]
    exact_mod_cast h2
  omega

theorem log_lt_of_lt (x : ℚ) (k : Int) (hx : 0 < x) (h : x < (2 : ℚ) ^ k) : Int.log 2 x < k := by
  rw [← Int.lt_zpow_iff_log_lt (by norm_num) hx]
  exact_mod_cast h

theorem div_ulp_lower (p : Nat) (x : ℚ) (hx : 0 < x) :
    (2 : ℚ) ^ ((p : Int) - 1) ≤ x / ulp p x := by
  rw [le_div_iff₀ (ulp_pos p x)]
  unfold ulp
  rw [← zpow_add₀ (by norm_num : (2 : ℚ) ≠ 0)]
  have : (p : Int) - 1 + (Int.log 2 x - ((p : Int) - 1)) = Int.log 2 x := by ring
  rw [this]
  exact (log_bounds x hx).1

theorem div_ulp_upper (p : Nat) (x : ℚ) (hx : 0 < x) :
    x / ulp p x < (2 : ℚ) ^ (p : Int) := by
  rw [div_lt_iff₀ (ulp_pos p x)]
  unfold ulp
  rw [← zpow_add₀ (by norm_num : (2 : ℚ) ≠ 0)]
  have : (p : Int) + (Int.log 2 x - ((p : Int) - 1)) = Int.log 2 x + 1 := by ring
  rw [this]
  exact (log_bounds x hx).2

theorem roundMag_pos (p : Nat) (hp : 1 ≤ p) (x : ℚ) (hx : 0 < x) : 0 < roundMag p x := by
  unfold roundMag
  have h1 : (1 : ℚ) ≤ x / ulp p x := by
    refine le_trans ?_ (div_ulp_lower p x hx)
    have : (0 : Int) ≤ (p : Int) - 1 := by omega
    exact one_le_zpow₀ (by norm_num) this
  have h2 : (1 : Int) ≤ roundEven (x / ulp p x) := le_roundEven_of_le _ 1 (by exact_mod_cast h1)
  have h3 : (1 : ℚ) ≤ (roundEven (x / ulp p x) : ℚ) := by exact_mod_cast h2
  have := ulp_pos p x
  positivity

theorem roundFloat_zero (p : Nat) : roundFloat p 0 = 0 := by
  simp [roundFloat]

theorem roundFloat_of_pos (p : Nat) (x : ℚ) (hx : 0 < x) : roundFloat p x = roundMag p x := by
  unfold roundFloat
  rw [if_neg hx.ne', if_pos hx]

theorem roundFloat_neg (p : Nat) (x : ℚ) : roundFloat p (-x) = -roundFloat p x := by
  unfold roundFloat
  rcases lt_trichotomy x 0 with h | h | h
  · have h1 : -x ≠ 0 := by linarith
    have h2 : 0 < -x := by linarith
    have h3 : ¬ 0 < x := by linarith
    rw [if_neg h1, if_pos h2, if_neg h.ne, if_neg h3, neg_neg]
  · subst h
    simp
  · have h1 : -x ≠ 0 := by linarith
    have h2 : ¬ 0 < -x := by linarith
    rw [if_neg h1, if_neg h2, if_neg h.ne', if_pos h, neg_neg]

theorem roundFloat_nonneg (p : Nat) (hp : 1 ≤ p) (x : ℚ) (hx : 0 ≤ x) : 0 ≤ roundFloat p x := by
  rcases eq_or_lt_of_le hx with h | h
  · rw [← h, roundFloat_zero]
  · rw [roundFloat_of_pos p x h]
    exact (roundMag_pos p hp x h).le

theorem roundFloat_pos (p : Nat) (hp : 1 ≤ p) (x : ℚ) (hx : 0 < x) : 0 < roundFloat p x := by
  rw [roundFloat_of_pos p x hx]
  exact roundMag_pos p hp x hx

/-- Evaluation of a rounding: the binade and the nearest multiple of the spacing. -/
theorem roundMag_eq (p : Nat) (x : ℚ) (e m : Int)
    (h1 : (2 : ℚ) ^ e ≤ x) (h2 : x < (2 : ℚ) ^ (e + 1))
    (h3 : |x / (2 : ℚ) ^ (e - ((p : Int) - 1)) - (m : ℚ)| < 1 / 2) :
    roundMag p x = (m : ℚ) * (2 : ℚ) ^ (e - ((p : Int) - 1)) := by
  unfold roundMag ulp
  rw [log_eq_of_bounds x e h1 h2, roundEven_eq_of_close _ m h3]

theorem roundMag_sub_le (p : Nat) (x : ℚ) : |roundMag p x - x| ≤ ulp p x / 2 := by
  have hu := ulp_pos p x
  have h := roundEven_sub_le (x / ulp p x)
  unfold roundMag
  have e : (roundEven (x / ulp p x) : ℚ) * ulp p x - x
      = ((roundEven (x / ulp p x) : ℚ) - x / ulp p x) * ulp p x := by
    field_simp
  rw [e, abs_mul, abs_of_pos hu]
  calc |(roundEven (x / ulp p x) : ℚ) - x / ulp p x| * ulp p x
      ≤ 1 / 2 * ulp p x := mul_le_mul_of_nonneg_right h hu.le
    _ = ulp p x / 2 := by ring

/-- A bound that is a multiple of the spacing is kept by the rounding. -/
theorem roundMag_le_of_multiple (p : Nat) (x : ℚ) (C : Int) (h : x ≤ (C : ℚ) * ulp p x) :
    roundMag p x ≤ (C : ℚ) * ulp p x := by
  have hu := ulp_pos p x
  unfold roundMag
  have h1 : x / ulp p x ≤ (C : ℚ) := by
    rw [div_le_iff₀ hu]; exact h
  have h2 : roundEven (x / ulp p x) ≤ C := roundEven_le_of_le _ C h1
  have h3 : (roundEven (x / ulp p x) : ℚ) ≤ (C : ℚ) := by exact_mod_cast h2
  exact mul_le_mul_of_nonneg_right h3 hu.le

theorem le_roundMag_of_multiple (p : Nat) (x : ℚ) (C : Int) (h : (C : ℚ) * ulp p x ≤ x) :
    (C : ℚ) * ulp p x ≤ roundMag p x := by
  have hu := ulp_pos p x
  unfold roundMag
  have h1 : (C : ℚ) ≤ x / ulp p x := by
    rw [le_div_iff₀ hu]; exact h
  have h2 : C ≤ roundEven (x / ulp p x) := le_roundEven_of_le _ C h1
  have h3 : (C : ℚ) ≤ (roundEven (x / ulp p x) : ℚ) := by exact_mod_cast h2
  exact mul_le_mul_of_nonneg_right h3 hu.le

/-- A value `N * 2^k` is a multiple of the spacing around any `x < 2^(k+p)`. -/
theorem multiple_of_ulp (p : Nat) (x : ℚ) (hx : 0 < x) (N : Int) (k : Int)
    (hlt : x < (2 : ℚ) ^ (k + (p : Int))) :
    ∃ C : Int, (N : ℚ) * (2 : ℚ) ^ k = (C : ℚ) * ulp p x := by
  have hlog := log_lt_of_lt x _ hx hlt
  obtain ⟨j, hj⟩ : ∃ j : Nat, (j : Int) = k - (Int.log 2 x - ((p : Int) - 1)) :=
    ⟨(k - (Int.log 2 x - ((p : Int) - 1))).toNat, Int.toNat_of_nonneg (by omega)⟩
  refine ⟨N * 2 ^ j, ?_⟩
  unfold ulp
  have hk : k = (j : Int) + (Int.log 2 x - ((p : Int) - 1)) := by omega
  push_cast
  conv_lhs => rw [hk, zpow_add₀ (by norm_num : (2 : ℚ) ≠ 0), zpow_natCast]
  ring

theorem roundFloat_le_of_le (p : Nat) (hp : 1 ≤ p) (x : ℚ) (N : Nat) (k : Int)
    (h : x ≤ (N : ℚ) * (2 : ℚ) ^ k) (hN : N < 2 ^ p) :
    roundFloat p x ≤ (N : ℚ) * (2 : ℚ) ^ k := by
  rcases le_or_lt x 0 with hx | hx
  · have h0 : roundFloat p x ≤ 0 := by
      have := roundFloat_nonneg p hp (-x) (by linarith)
      rw [roundFloat_neg] at this
      linarith
    have : (0 : ℚ) ≤ (N : ℚ) * (2 : ℚ) ^ k := by positivity
    linarith
  · have hlt : x < (2 : ℚ) ^ (k + (p : Int)) := by
      have hN' : (N : ℚ) < (2 : ℚ) ^ (p : Int) := by
        rw [zpow_natCast]
        exact_mod_cast hN
      have hk : (0 : ℚ) < (2 : ℚ) ^ k := by positivity
      calc x ≤ (N : ℚ) * (2 : ℚ) ^ k := h
        _ < (2 : ℚ) ^ (p : Int) * (2 : ℚ) ^ k := mul_lt_mul_of_pos_right hN' hk
        _ = (2 : ℚ) ^ (k + (p : Int)) := by
            rw [← zpow_add₀ (by norm_num : (2 : ℚ) ≠ 0), add_comm]
    obtain ⟨C, hC⟩ := multiple_of_ulp p x hx (N : Int) k hlt
    rw [roundFloat_of_pos p x hx]
    have hC' : (N : ℚ) * (2 : ℚ) ^ k = (C : ℚ) * ulp p x := by
      rw [← hC]; push_cast; ring
    rw [hC'] at h ⊢
    exact roundMag_le_of_multiple p x C h

theorem le_roundFloat_of_le (p : Nat) (hp : 1 ≤ p) (x : ℚ) (N : Nat) (k : Int)
    (h : -((N : ℚ) * (2 : ℚ) ^ k) ≤ x) (hN : N < 2 ^ p) :
    -((N : ℚ) * (2 : ℚ) ^ k) ≤ roundFloat p x := by
  have := roundFloat_le_of_le p hp (-x) N k (by linarith) hN
  rw [roundFloat_neg] at this
  linarith


/-- A value `N * 2^k` with `|N| < 2^p` has `p` significant bits: rounding keeps it. -/
theorem roundFloat_exact (p : Nat) (hp : 1 ≤ p) (N : Int) (k : Int) (hN : N.natAbs < 2 ^ p) :
    roundFloat p ((N : ℚ) * (2 : ℚ) ^ k) = (N : ℚ) * (2 : ℚ) ^ k := by
  have hpos : ∀ M : Nat, M < 2 ^ p →
      roundFloat p ((M : ℚ) * (2 : ℚ) ^ k) = (M : ℚ) * (2 : ℚ) ^ k := by
    intro M hM
    apply le_antisymm (roundFloat_le_of_le p hp _ M k le_rfl hM)
    rcases Nat.eq_zero_or_pos M with h0 | h0
    · subst h0
      simp [roundFloat_zero]
    · have hx : (0 : ℚ) < (M : ℚ) * (2 : ℚ) ^ k := by
        have : (0 : ℚ) < (M : ℚ) := by exact_mod_cast h0
        positivity
      have hlt : (M : ℚ) * (2 : ℚ) ^ k < (2 : ℚ) ^ (k + (p : Int)) := by
        have hM' : (M : ℚ) < (2 : ℚ) ^ (p : Int) := by
          rw [zpow_natCast]
          exact_mod_cast hM
        have hk : (0 : ℚ) < (2 : ℚ) ^ k := by positivity
        calc (M : ℚ) * (2 : ℚ) ^ k < (2 : ℚ) ^ (p : Int) * (2 : ℚ) ^ k :=
              mul_lt_mul_of_pos_right hM' hk
          _ = (2 : ℚ) ^ (k + (p : Int)) := by
              rw [← zpow_add₀ (by norm_num : (2 : ℚ) ≠ 0), add_comm]
      obtain ⟨C, hC⟩ := multiple_of_ulp p _ hx (M : Int) k hlt
      rw [roundFloat_of_pos p _ hx]
      have hC' : (M : ℚ) * (2 : ℚ) ^ k = (C : ℚ) * ulp p ((M : ℚ) * (2 : ℚ) ^ k) := by
        rw [← hC]; push_cast; ring
      conv_lhs => rw [hC']
      exact le_roundMag_of_multiple p _ C hC'.ge
  obtain ⟨M, rfl | rfl⟩ := Int.eq_nat_or_neg N
  · have hM : M < 2 ^ p := by simpa using hN
    exact_mod_cast hpos M hM
  · have hM : M < 2 ^ p := by simpa using hN
    have := hpos M hM
    push_cast
    rw [neg_mul, roundFloat_neg, this]

/-- An integer of magnitude below `2^p` is kept by the rounding. -/
theorem roundFloat_intCast (p : Nat) (hp : 1 ≤ p) (n : Int) (hn : n.natAbs < 2 ^ p) :
    roundFloat p (n : ℚ) = (n : ℚ) := by
  have := roundFloat_exact p hp n 0 hn
  simpa using this

/-- Evaluation of a rounding whose spacing is `2^a`. -/
theorem roundFloat_eval_up (p a : Nat) (x : ℚ) (m : Int)
    (h1 : (2 : ℚ) ^ (p - 1 + a) ≤ x) (h2 : x < (2 : ℚ) ^ (p + a)) (hp : 1 ≤ p)
    (h3 : |x / (2 : ℚ) ^ a - (m : ℚ)| < 1 / 2) :
    roundFloat p x = (m : ℚ) * (2 : ℚ) ^ a := by
  have hx : 0 < x := lt_of_lt_of_le (by positivity) h1
  rw [roundFloat_of_pos p x hx]
  have he : (((p - 1 + a : Nat) : Int)) - ((p : Int) - 1) = (a : Int) := by omega
  have := roundMag_eq p x ((p - 1 + a : Nat) : Int) m
    (by rw [zpow_natCast]; exact h1)
    (by
      have : ((p - 1 + a : Nat) : Int) + 1 = ((p + a : Nat) : Int) := by omega
      rw [this, zpow_natCast]; exact h2)
    (by rw [he, zpow_natCast]; exact h3)
  rw [he, zpow_natCast] at this
  exact this

/-- Evaluation of a rounding whose spacing is `1 / 2^j`. -/
theorem roundFloat_eval_down (p j : Nat) (x : ℚ) (m : Int)
    (h1 : (2 : ℚ) ^ (p - 1) ≤ x * (2 : ℚ) ^ j) (h2 : x * (2 : ℚ) ^ j < (2 : ℚ) ^ p) (hp : 1 ≤ p)
    (h3 : |x * (2 : ℚ) ^ j - (m : ℚ)| < 1 / 2) :
    roundFloat p x = (m : ℚ) / (2 : ℚ) ^ j := by
  have hj : (0 : ℚ) < (2 : ℚ) ^ j := by positivity
  have hx : 0 < x := by
    have : (0 : ℚ) < x * (2 : ℚ) ^ j := lt_of_lt_of_le (by positivity) h1
    exact pos_of_mul_pos_left this hj.le |> fun h => h
  rw [roundFloat_of_pos p x hx]
  have hz : (2 : ℚ) ^ (-(j : Int)) = 1 / (2 : ℚ) ^ j := by
    rw [zpow_neg, zpow_natCast, one_div]
  have he : (((p : Int) - 1 - (j : Int))) - ((p : Int) - 1) = -(j : Int) := by ring
  have hb1 : (2 : ℚ) ^ ((p : Int) - 1 - (j : Int)) ≤ x := by
    rw [zpow_sub₀ (by norm_num : (2 : ℚ) ≠ 0), zpow_natCast, div_le_iff₀ hj]
    have : ((p : Int) - 1) = ((p - 1 : Nat) : Int) := by omega
    rw [this, zpow_natCast]
    exact h1
  have hb2 : x < (2 : ℚ) ^ ((p : Int) - 1 - (j : Int) + 1) := by
    have : (p : Int) - 1 - (j : Int) + 1 = (p : Int) - (j : Int) := by ring
    rw [this, zpow_sub₀ (by norm_num : (2 : ℚ) ≠ 0), zpow_natCast, zpow_natCast, lt_div_iff₀ hj]
    exact h2
  have := roundMag_eq p x ((p : Int) - 1 - (j : Int)) m hb1 hb2
    (by
      rw [he, hz]
      have : x / (1 / (2 : ℚ) ^ j) = x * (2 : ℚ) ^ j := by field_simp
      rw [this]; exact h3)
  rw [he, hz] at this
  rw [this]
  ring



theorem truncToInt_neg (w : ℚ) : truncToInt (-w) = -truncToInt w := by
  unfold truncToInt
  rcases lt_trichotomy w 0 with h | h | h
  · rw [if_pos (by linarith), if_neg (by linarith), Int.floor_neg]
  · subst h; simp
  · rw [if_neg (by linarith), if_pos h.le, Int.ceil_neg]

/-- Below `2^(p-1)` the spacing is `1 / 2^j` with `j >= 1`. -/
theorem ulp_small (p : Nat) (z : ℚ) (hz0 : 0 < z) (hz : z < (2 : ℚ) ^ (p - 1)) (hp : 1 ≤ p) :
    ∃ j : Nat, 1 ≤ j ∧ ulp p z = 1 / (2 : ℚ) ^ j := by
  have hlog : Int.log 2 z < ((p - 1 : Nat) : Int) :=
    log_lt_of_lt z _ hz0 (by rw [zpow_natCast]; exact hz)
  refine ⟨(((p : Int) - 1) - Int.log 2 z).toNat, by omega, ?_⟩
  unfold ulp
  have e : Int.log 2 z - ((p : Int) - 1) = -(((((p : Int) - 1) - Int.log 2 z).toNat : Nat) : Int) := by
    rw [Int.toNat_of_nonneg (by omega)]
    ring
  rw [e, zpow_neg, zpow_natCast, one_div]

/-- Truncation of a rounded value is within one of the value, when the
spacing of the rounding divides one. -/
theorem trunc_round_err_pos (p : Nat) (hp : 1 ≤ p) (z : ℚ) (hz0 : 0 < z)
    (hz : z < (2 : ℚ) ^ (p - 1)) :
    |(truncToInt (roundFloat p z) : ℚ) - z| < 1 := by
  obtain ⟨j, hj1, hulp⟩ := ulp_small p z hz0 hz hp
  have hw0 := roundFloat_pos p hp z hz0
  have herr := roundMag_sub_le p z
  rw [← roundFloat_of_pos p z hz0] at herr
  have hwM : roundFloat p z = (roundEven (z / ulp p z) : ℚ) * ulp p z := by
    rw [roundFloat_of_pos p z hz0]; rfl
  have hpow : (2 : ℚ) ≤ (2 : ℚ) ^ j := by
    calc (2 : ℚ) = 2 ^ 1 := by norm_num
      _ ≤ 2 ^ j := pow_le_pow_right₀ (by norm_num) hj1
  have hpow0 : (0 : ℚ) < (2 : ℚ) ^ j := by positivity
  have hq : truncToInt (roundFloat p z) = ⌊roundFloat p z⌋ := by
    unfold truncToInt
    rw [if_pos hw0.le]
  rw [hq]
  have hf1 := Int.floor_le (roundFloat p z)
  have hf2 := Int.lt_floor_add_one (roundFloat p z)
  -- the fractional part of a multiple of the spacing
  have hfrac : roundFloat p z - (⌊roundFloat p z⌋ : ℚ) ≤ 1 - ulp p z := by
    have hA : ((roundEven (z / ulp p z) - ⌊roundFloat p z⌋ * 2 ^ j : Int) : ℚ)
        = (roundFloat p z - (⌊roundFloat p z⌋ : ℚ)) * (2 : ℚ) ^ j := by
      have hM : (roundEven (z / ulp p z) : ℚ) = roundFloat p z * (2 : ℚ) ^ j := by
        rw [hwM, hulp]
        field_simp
      push_cast
      rw [hM]
      ring
    have hlt : ((roundEven (z / ulp p z) - ⌊roundFloat p z⌋ * 2 ^ j : Int) : ℚ)
        < (((2 : Int) ^ j : Int) : ℚ) := by
      rw [hA]
      push_cast
      have : roundFloat p z - (⌊roundFloat p z⌋ : ℚ) < 1 := by linarith
      calc (roundFloat p z - (⌊roundFloat p z⌋ : ℚ)) * (2 : ℚ) ^ j < 1 * (2 : ℚ) ^ j :=
            mul_lt_mul_of_pos_right this hpow0
        _ = (2 : ℚ) ^ j := one_mul _
    have hlt' : roundEven (z / ulp p z) - ⌊roundFloat p z⌋ * 2 ^ j < (2 : Int) ^ j := by
      exact_mod_cast hlt
    have hle' : roundEven (z / ulp p z) - ⌊roundFloat p z⌋ * 2 ^ j ≤ (2 : Int) ^ j - 1 := by
      omega
    have hle : ((roundEven (z / ulp p z) - ⌊roundFloat p z⌋ * 2 ^ j : Int) : ℚ)
        ≤ (2 : ℚ) ^ j - 1 := by
      exact_mod_cast hle'
    rw [hA] at hle
    rw [hulp]
    have : roundFloat p z - (⌊roundFloat p z⌋ : ℚ) ≤ ((2 : ℚ) ^ j - 1) / (2 : ℚ) ^ j := by
      rw [le_div_iff₀ hpow0]; exact hle
    calc roundFloat p z - (⌊roundFloat p z⌋ : ℚ) ≤ ((2 : ℚ) ^ j - 1) / (2 : ℚ) ^ j := this
      _ = 1 - 1 / (2 : ℚ) ^ j := by field_simp
  have hu0 := ulp_pos p z
  have hu1 : ulp p z ≤ 1 / 2 := by
    rw [hulp]
    rw [div_le_div_iff₀ hpow0 (by norm_num)]
    linarith
  rw [abs_le] at herr
  rw [abs_lt]
  constructor <;> linarith [herr.1, herr.2]

theorem trunc_round_err (p : Nat) (hp : 1 ≤ p) (z : ℚ) (hz : |z| < (2 : ℚ) ^ (p - 1)) :
    |(truncToInt (roundFloat p z) : ℚ) - z| < 1 := by
  rcases lt_trichotomy z 0 with h | h | h
  · have hz' : -z < (2 : ℚ) ^ (p - 1) := by rwa [abs_of_neg h] at hz
    have := trunc_round_err_pos p hp (-z) (by linarith) hz'
    rw [roundFloat_neg, truncToInt_neg] at this
    push_cast at this
    rw [abs_lt] at this ⊢
    constructor <;> linarith [this.1, this.2]
  · subst h
    simp [roundFloat_zero, truncToInt]
  · have hz' : z < (2 : ℚ) ^ (p - 1) := by rwa [abs_of_pos h] at hz
    exact trunc_round_err_pos p hp z h hz'

/-! ## Lemmas: framing -/

theorem join_chunks_eq_take (l : List ℚ) (k n : Nat) :
    ((List.range n).map fun i => (l.drop (i * k)).take (i * k + k - i * k)).flatten
      = l.take (n * k) := by
  induction n with
  | zero => simp
  | succ n ih =>
    rw [List.range_succ, List.map_append, List.flatten_append, ih]
    simp only [List.map_cons, List.map_nil, List.flatten_cons, List.flatten_nil,
      List.append_nil, Nat.add_sub_cancel_left]
    rw [Nat.succ_mul, List.take_add]

theorem padded_length (L : Nat) :
    (if L % 480 ≠ 0 then L + (480 - L % 480) else L) = 480 * numFramesOf L := by
  unfold numFramesOf
  split_ifs with h <;> omega

theorem padding_eq (L : Nat) :
    (if L % 480 ≠ 0 then 480 - L % 480 else 0) = 480 * numFramesOf L - L := by
  unfold numFramesOf
  split_ifs with h <;> omega

/-- The samples `GetFrames` splits: the input followed by the zero padding. -/
theorem GetFrames_ok (samples : List ℚ) (ch bd : Int) :
    ∃ frames, GetFrames ⟨samples, 48000, ch, bd⟩ = .ok frames
      ∧ frames.length = numFramesOf samples.length
      ∧ (∀ f ∈ frames, f.length = 480)
      ∧ frames.flatten
          = samples ++ List.replicate (480 * numFramesOf samples.length - samples.length) 0 := by
  have hpad : ∀ (P : List ℚ), P.length = 480 * numFramesOf samples.length →
      ∃ frames, (Except.ok ((List.range (P.length / frameSize)).map fun i =>
          (P.drop (i * frameSize)).take (i * frameSize + frameSize - i * frameSize))
            : Except Err (List (List ℚ))) = .ok frames
        ∧ frames.length = numFramesOf samples.length
        ∧ (∀ f ∈ frames, f.length = 480) ∧ frames.flatten = P := by
    intro P hP
    refine ⟨_, rfl, ?_, ?_, ?_⟩
    · simp [frameSize, hP]
    · intro f hf
      simp only [List.mem_map, List.mem_range, frameSize] at hf
      obtain ⟨i, hi, rfl⟩ := hf
      rw [List.length_take, List.length_drop]
      have : i < numFramesOf samples.length := by
        rw [hP] at hi; simpa using hi
      omega
    · rw [join_chunks_eq_take]
      apply List.take_of_length_le
      simp only [frameSize]
      rw [hP, Nat.mul_div_cancel_left _ (by decide : 0 < 480)]; omega
  unfold GetFrames
  simp only [ne_eq, not_true_eq_false, if_false]
  by_cases h : samples.length % frameSize ≠ 0
  · simp only [h, if_true]
    have h' : samples.length % 480 ≠ 0 := h
    have hp := padding_eq samples.length
    simp only [h', if_true, ne_eq, not_false_eq_true] at hp
    have hl := padded_length samples.length
    simp only [h', if_true, ne_eq, not_false_eq_true] at hl
    obtain ⟨frames, h1, h2, h3, h4⟩ := hpad (samples ++ List.replicate (frameSize - samples.length % frameSize) 0)
      (by simp [frameSize]; exact hl)
    refine ⟨frames, h1, h2, h3, ?_⟩
    rw [h4]; simp only [frameSize]; rw [hp]
  · simp only [h, if_false]
    have h' : ¬ samples.length % 480 ≠ 0 := h
    have hp := padding_eq samples.length
    simp only [h', if_false] at hp
    have hl := padded_length samples.length
    simp only [h', if_false] at hl
    obtain ⟨frames, h1, h2, h3, h4⟩ := hpad samples hl
    refine ⟨frames, h1, h2, h3, ?_⟩
    rw [h4, ← hp]; simp

theorem numFramesOf_eq_ceil (L : Nat) : numFramesOf L = ⌈(L : ℚ) / 480⌉₊ := by
  apply le_antisymm
  · by_contra hlt
    push_neg at hlt
    have h1 : ⌈(L : ℚ) / 480⌉₊ ≤ numFramesOf L - 1 := by omega
    rw [Nat.ceil_le, div_le_iff₀ (by norm_num)] at h1
    have h2 : L ≤ (numFramesOf L - 1) * 480 := by exact_mod_cast h1
    unfold numFramesOf at h2 hlt
    omega
  · rw [Nat.ceil_le, div_le_iff₀ (by norm_num)]
    have h2 : L ≤ numFramesOf L * 480 := by unfold numFramesOf; omega
    exact_mod_cast h2

/-! ## Lemmas: the frame loop -/

theorem ProcessFrame_of_length {σ : Type} (lib : RNNoiseLib σ) (state : σ) (frame : List ℚ)
    (h : frame.length = 480) :
    ProcessFrame lib state frame = (.ok (denoise lib state frame).1, (denoise lib state frame).2) := by
  unfold ProcessFrame
  simp [h]

theorem length_runDenoiser {σ : Type} (lib : RNNoiseLib σ) (frames : List (List ℚ)) :
    ∀ state, (runDenoiser lib state frames).length = frames.length := by
  induction frames with
  | nil => intro state; rfl
  | cons f fs ih => intro state; simp [runDenoiser, ih]

theorem runDenoiser_output_length {σ : Type} (lib : RNNoiseLib σ) (frames : List (List ℚ)) :
    ∀ state, ∀ r ∈ runDenoiser lib state frames, r.2.length = 480 := by
  induction frames with
  | nil => intro state r hr; simp [runDenoiser] at hr
  | cons f fs ih =>
    intro state r hr
    simp only [runDenoiser, List.mem_cons] at hr
    rcases hr with rfl | hr
    · simp [denoise, lib.output_length]
    · exact ih _ r hr

/-- The loop of `FilterAudio` on frames of 480 samples never fails; it appends
the probability of every frame and the denoised frame of every kept one. -/
theorem processFrames_eq {σ : Type} (lib : RNNoiseLib σ) (t : ℚ) (frames : List (List ℚ)) :
    (∀ f ∈ frames, f.length = 480) →
    ∀ (state : σ) (den : List (List ℚ)) (probs : List ℚ),
      processFrames lib t frames state den probs
        = (.ok (den ++ (keptPairs t (runDenoiser lib state frames)).map Prod.snd,
                probs ++ (runDenoiser lib state frames).map Prod.fst),
           finalState lib state frames) := by
  induction frames with
  | nil => intro _ state den probs; simp [processFrames, runDenoiser, finalState, keptPairs]
  | cons f fs ih =>
    intro hlen state den probs
    have hf : f.length = 480 := hlen f (List.mem_cons_self _ _)
    have hfs : ∀ g ∈ fs, g.length = 480 := fun g hg => hlen g (List.mem_cons_of_mem _ hg)
    rw [processFrames, ProcessFrame_of_length lib state f hf]
    simp only
    rw [ih hfs]
    by_cases hp : (denoise lib state f).1.1 ≥ t
    · simp [runDenoiser, finalState, keptPairs, List.filter_cons, hp]
    · simp [runDenoiser, finalState, keptPairs, List.filter_cons, hp]

theorem foldl_append_flatten (frames : List (List ℚ)) :
    ∀ init : List ℚ,
      frames.foldl (fun allSamples frame => allSamples ++ frame) init = init ++ frames.flatten := by
  induction frames with
  | nil => intro init; simp
  | cons f fs ih => intro init; simp [ih]

theorem ConvertToRNNoiseFormat_ok (audioData : AudioData) :
    ∃ samples, ConvertToRNNoiseFormat audioData = .ok ⟨samples, 48000, 1, 16⟩ :=
  ⟨_, rfl⟩

/-- The value of `FilterAudio`, for any input, in terms of the frames of the
converted input and of the denoiser run over them. -/
theorem FilterAudio_eq {σ : Type} (lib : RNNoiseLib σ) (state : σ) (audioData : AudioData)
    (t : ℚ) (conv : AudioData) (frames : List (List ℚ))
    (hc : ConvertToRNNoiseFormat audioData = .ok conv) (hg : GetFrames conv = .ok frames)
    (hlen : ∀ f ∈ frames, f.length = 480) :
    FilterAudio lib state audioData t =
      (.ok { DenoisedAudio :=
               if audioData.SampleRate ≠ 48000 then
                 { Samples := resampleLoop
                     ((keptPairs t (runDenoiser lib state frames)).map Prod.snd).flatten
                     (float64 ((audioData.SampleRate : ℚ) / 48000))
                   SampleRate := audioData.SampleRate, Channels := 1, BitDepth := 16 }
               else
                 { Samples := ((keptPairs t (runDenoiser lib state frames)).map Prod.snd).flatten
                   SampleRate := 48000, Channels := 1, BitDepth := 16 }
             VoiceProbabilities := (runDenoiser lib state frames).map Prod.fst
             ProcessedFrames := frames.length },
       finalState lib state frames) := by
  unfold FilterAudio
  rw [hc]
  simp only
  rw [hg]
  simp only
  rw [processFrames_eq lib t frames hlen]
  simp only [foldl_append_flatten, List.nil_append]
  by_cases hr : audioData.SampleRate = 48000
  · simp [hr]
  · have hr' : (48000 : Int) ≠ audioData.SampleRate := fun h => hr h.symm
    simp [hr, convertSampleRate, hr']

/-- The frames of any input: conversion and framing both succeed. -/
theorem frames_of_input (audioData : AudioData) :
    ∃ conv frames, ConvertToRNNoiseFormat audioData = .ok conv ∧ GetFrames conv = .ok frames
      ∧ (∀ f ∈ frames, f.length = 480) := by
  obtain ⟨samples, hs⟩ := ConvertToRNNoiseFormat_ok audioData
  obtain ⟨frames, h1, _, h3, _⟩ := GetFrames_ok samples 1 16
  exact ⟨_, frames, hs, h1, h3⟩

/-- The loop of `AnalyzeFrames` on frames of 480 samples never fails. -/
theorem analyzeLoop_ok {σ : Type} (lib : RNNoiseLib σ) (t : ℚ) (frames : List (List ℚ)) :
    (∀ f ∈ frames, f.length = 480) →
    ∀ (state : σ) (stats : FrameStatistics) (totalProb : ℚ),
      ∃ r state', analyzeLoop lib t frames state stats totalProb = (.ok r, state') := by
  induction frames with
  | nil => intro _ state stats totalProb; exact ⟨_, _, rfl⟩
  | cons f fs ih =>
    intro hlen state stats totalProb
    have hf : f.length = 480 := hlen f (List.mem_cons_self _ _)
    have hfs : ∀ g ∈ fs, g.length = 480 := fun g hg => hlen g (List.mem_cons_of_mem _ hg)
    rw [analyzeLoop, ProcessFrame_of_length lib state f hf]
    exact ih hfs _ _ _

/-- The method `AnalyzeFrames` returns statistics for every input. -/
theorem AnalyzeFrames_ok {σ : Type} (lib : RNNoiseLib σ) (state : σ) (audioData : AudioData)
    (t : ℚ) : ∃ stats state', AnalyzeFrames lib state audioData t = (.ok stats, state') := by
  obtain ⟨conv, frames, hc, hg, hlen⟩ := frames_of_input audioData
  unfold AnalyzeFrames
  rw [hc]
  simp only
  rw [hg]
  simp only
  obtain ⟨r, state', hr⟩ := analyzeLoop_ok lib t frames hlen state
    { TotalFrames := frames.length, VoiceFrames := 0, NoiseFrames := 0
      AverageVoiceProb := 0, MaxVoiceProb := 0, MinVoiceProb := 1 } 0
  rw [hr]
  simp only
  split_ifs
  · exact ⟨_, _, rfl⟩
  · exact ⟨_, _, rfl⟩

/-! ## Lemmas: the gate -/

theorem length_flatten_of_length (k : Nat) (frames : List (List ℚ)) :
    (∀ f ∈ frames, f.length = k) → frames.flatten.length = k * frames.length := by
  induction frames with
  | nil => intro _; simp
  | cons f fs ih =>
    intro h
    rw [List.flatten_cons, List.length_append, ih (fun g hg => h g (List.mem_cons_of_mem _ hg)),
      h f (List.mem_cons_self _ _), List.length_cons, Nat.mul_succ, Nat.add_comm]

/-- The kept frames are the outputs at the kept indices. -/
theorem keptPairs_eq_keptIndices (t : ℚ) (pairs : List (ℚ × List ℚ)) :
    (keptPairs t pairs).map Prod.snd
      = (keptIndices t (pairs.map Prod.fst)).map fun i => (pairs.map Prod.snd).getD i [] := by
  induction pairs with
  | nil => simp [keptPairs, keptIndices]
  | cons r rs ih =>
    have htail : (List.filter (fun i => decide ((List.map Prod.fst (r :: rs)).getD i 0 ≥ t))
          (List.map Nat.succ (List.range rs.length)))
        = List.map Nat.succ (keptIndices t (rs.map Prod.fst)) := by
      rw [List.filter_map]
      simp [keptIndices, Function.comp_def]
    unfold keptIndices
    rw [List.length_map, List.length_cons, List.range_succ_eq_map, List.filter_cons, htail]
    unfold keptPairs at ih ⊢
    rw [List.filter_cons]
    by_cases hp : r.1 ≥ t
    · simp only [hp, decide_True, if_true, List.map_cons, List.getD_cons_zero, List.map_map]
      rw [ih]
      simp [Function.comp_def]
    · have hp' : ¬ t ≤ r.1 := hp
      simp only [hp, decide_False, Bool.false_eq_true, if_false, List.map_cons, List.map_map]
      rw [ih]
      simp [Function.comp_def, hp']

theorem keptIndices_sublist (t1 t2 : ℚ) (h : t1 < t2) (probs : List ℚ) :
    List.Sublist (keptIndices t2 probs) (keptIndices t1 probs) := by
  unfold keptIndices
  apply List.monotone_filter_right
  intro i hi
  simp only [decide_eq_true_eq] at hi ⊢
  exact le_trans h.le hi

theorem keptPairs_sublist (t1 t2 : ℚ) (h : t1 < t2) (pairs : List (ℚ × List ℚ)) :
    List.Sublist (keptPairs t2 pairs) (keptPairs t1 pairs) := by
  unfold keptPairs
  apply List.monotone_filter_right
  intro r hr
  simp only [decide_eq_true_eq] at hr ⊢
  exact le_trans h.le hr

theorem resampleLoop_nil (ratio : ℚ) : resampleLoop [] ratio = [] := by
  simp [resampleLoop, truncToInt, float64, roundFloat_zero]

/-! ## Lemmas: bytes and bit patterns -/

theorem byteAt_lt (data : List Byte) (i : Nat) : byteAt data i < 256 :=
  (data.getD i 0).isLt

theorem lor_eq_add (a b i : Nat) (hb : b < 2 ^ i) : a * 2 ^ i ||| b = a * 2 ^ i + b := by
  rw [Nat.mul_comm, Nat.mul_add_lt_is_or hb]

theorem lor_shift_eq_add (x b i : Nat) (hx : x < 2 ^ i) : x ||| b <<< i = x + b * 2 ^ i := by
  rw [Nat.shiftLeft_eq, Nat.or_comm, lor_eq_add _ _ _ hx, Nat.add_comm]

theorem leUint16_eq (data : List Byte) (off : Nat) :
    leUint16 data off = byteAt data off + 256 * byteAt data (off + 1) := by
  have h0 := byteAt_lt data off
  unfold leUint16
  rw [lor_shift_eq_add _ _ 8 (by omega)]
  omega

theorem leUint32_eq (data : List Byte) (off : Nat) :
    leUint32 data off = byteAt data off + 256 * byteAt data (off + 1)
      + 65536 * byteAt data (off + 2) + 16777216 * byteAt data (off + 3) := by
  have h0 := byteAt_lt data off
  have h1 := byteAt_lt data (off + 1)
  have h2 := byteAt_lt data (off + 2)
  unfold leUint32
  rw [lor_shift_eq_add _ _ 8 (by omega), lor_shift_eq_add _ _ 16 (by omega),
    lor_shift_eq_add _ _ 24 (by omega)]
  omega

set_option maxRecDepth 100000 in
theorem top_bit_iff (b : Byte) : (b.val &&& 0x80 ≠ 0) ↔ 128 ≤ b.val := by
  revert b
  decide

theorem drop_take_succ (data : List Byte) (off k : Nat) (h : off < data.length) :
    (data.drop off).take (k + 1) = data.getD off 0 :: (data.drop (off + 1)).take k := by
  rw [List.drop_eq_getElem_cons h, List.take_succ_cons, List.getD_eq_getElem _ _ h]

theorem leValue_two (data : List Byte) (off : Nat) (h : off + 2 ≤ data.length) :
    leValue ((data.drop off).take 2) = byteAt data off + 256 * byteAt data (off + 1) := by
  rw [drop_take_succ data off 1 (by omega), drop_take_succ data (off + 1) 0 (by omega)]
  simp [leValue, byteAt]

theorem leValue_three (data : List Byte) (off : Nat) (h : off + 3 ≤ data.length) :
    leValue ((data.drop off).take 3) = byteAt data off + 256 * byteAt data (off + 1)
      + 65536 * byteAt data (off + 2) := by
  rw [drop_take_succ data off 2 (by omega), drop_take_succ data (off + 1) 1 (by omega),
    drop_take_succ data (off + 2) 0 (by omega)]
  simp only [leValue, byteAt, List.take_zero]
  omega

theorem leValue_four (data : List Byte) (off : Nat) (h : off + 4 ≤ data.length) :
    leValue ((data.drop off).take 4) = byteAt data off + 256 * byteAt data (off + 1)
      + 65536 * byteAt data (off + 2) + 16777216 * byteAt data (off + 3) := by
  rw [drop_take_succ data off 3 (by omega), drop_take_succ data (off + 1) 2 (by omega),
    drop_take_succ data (off + 2) 1 (by omega), drop_take_succ data (off + 3) 0 (by omega)]
  simp only [leValue, byteAt, List.take_zero]
  omega

theorem toSigned16_eq (u : Nat) (hu : u < 65536) : toSigned 16 u = signedOf 16 u := by
  unfold toSigned signedOf
  have hm : u % 2 ^ 16 = u := Nat.mod_eq_of_lt (by norm_num; exact hu)
  rw [hm]
  norm_num
  split_ifs <;> omega

theorem toSigned32_eq (u : Nat) (hu : u < 4294967296) : toSigned 32 u = signedOf 32 u := by
  unfold toSigned signedOf
  have hm : u % 2 ^ 32 = u := Nat.mod_eq_of_lt (by norm_num; exact hu)
  rw [hm]
  norm_num
  split_ifs <;> omega

/-- The 24-bit sign extension of the source is the two's-complement reading of
the three bytes. -/
theorem decode24_eq (data : List Byte) (off : Nat) :
    decode24 data off = signedOf 24 (byteAt data off + 256 * byteAt data (off + 1)
      + 65536 * byteAt data (off + 2)) := by
  have h0 := byteAt_lt data off
  have h1 := byteAt_lt data (off + 1)
  have h2 := byteAt_lt data (off + 2)
  have htop := top_bit_iff (data.getD (off + 2) 0)
  have hlow : byteAt data (off + 2) <<< 16 ||| byteAt data (off + 1) <<< 8 ||| byteAt data off
      = byteAt data off + 256 * byteAt data (off + 1) + 65536 * byteAt data (off + 2) := by
    rw [Nat.shiftLeft_eq, Nat.shiftLeft_eq]
    rw [lor_eq_add _ _ 16 (by omega)]
    have e1 : byteAt data (off + 2) * 2 ^ 16 + byteAt data (off + 1) * 2 ^ 8
        = (byteAt data (off + 2) * 2 ^ 8 + byteAt data (off + 1)) * 2 ^ 8 := by ring
    rw [e1, lor_eq_add _ _ 8 (by omega)]
    omega
  have hhigh : 0xFF000000 ||| byteAt data (off + 2) <<< 16 ||| byteAt data (off + 1) <<< 8
        ||| byteAt data off
      = 4278190080 + (byteAt data off + 256 * byteAt data (off + 1)
          + 65536 * byteAt data (off + 2)) := by
    rw [Nat.shiftLeft_eq, Nat.shiftLeft_eq]
    have e0 : (0xFF000000 : Nat) = 255 * 2 ^ 24 := by norm_num
    rw [e0, lor_eq_add _ _ 24 (by omega)]
    have e1 : 255 * 2 ^ 24 + byteAt data (off + 2) * 2 ^ 16
        = (255 * 2 ^ 8 + byteAt data (off + 2)) * 2 ^ 16 := by ring
    rw [e1, lor_eq_add _ _ 16 (by omega)]
    have e2 : (255 * 2 ^ 8 + byteAt data (off + 2)) * 2 ^ 16 + byteAt data (off + 1) * 2 ^ 8
        = ((255 * 2 ^ 8 + byteAt data (off + 2)) * 2 ^ 8 + byteAt data (off + 1)) * 2 ^ 8 := by
      ring
    rw [e2, lor_eq_add _ _ 8 (by omega)]
    omega
  unfold decode24
  simp only
  by_cases hb : byteAt data (off + 2) &&& 0x80 ≠ 0
  · rw [if_pos hb, hhigh]
    have h128 : 128 ≤ byteAt data (off + 2) := htop.1 hb
    unfold toSigned signedOf
    norm_num
    split_ifs <;> omega
  · rw [if_neg hb, hlow]
    have h128 : ¬ 128 ≤ byteAt data (off + 2) := fun h => hb (htop.2 h)
    unfold toSigned signedOf
    norm_num
    split_ifs <;> omega

/-! ## Lemmas: the decoder -/

theorem decode16_sample (data : List Byte) (i : Nat) (h : i < data.length / 2) :
    toSigned 16 (leUint16 data (i * 2))
      = signedOf 16 (leValue ((data.drop (i * 2)).take 2)) := by
  have h0 := byteAt_lt data (i * 2)
  have h1 := byteAt_lt data (i * 2 + 1)
  rw [leValue_two data (i * 2) (by omega), leUint16_eq, toSigned16_eq _ (by omega)]

theorem decode24_sample (data : List Byte) (i : Nat) (h : i < data.length / 3) :
    decode24 data (i * 3) = signedOf 24 (leValue ((data.drop (i * 3)).take 3)) := by
  rw [leValue_three data (i * 3) (by omega), decode24_eq]

theorem decode32_sample (data : List Byte) (i : Nat) (h : i < data.length / 4) :
    toSigned 32 (leUint32 data (i * 4))
      = signedOf 32 (leValue ((data.drop (i * 4)).take 4)) := by
  have h0 := byteAt_lt data (i * 4)
  have h1 := byteAt_lt data (i * 4 + 1)
  have h2 := byteAt_lt data (i * 4 + 2)
  have h3 := byteAt_lt data (i * 4 + 3)
  rw [leValue_four data (i * 4) (by omega), leUint32_eq, toSigned32_eq _ (by omega)]

theorem leValue_lt (bs : List Byte) : leValue bs < 256 ^ bs.length := by
  induction bs with
  | nil => simp [leValue]
  | cons b bs ih =>
    have hb := b.isLt
    rw [leValue, List.length_cons, pow_succ]
    omega

theorem signedOf_bounds (d u : Nat) (hd : 0 < d) (hu : u < 2 ^ d) :
    -(2 ^ (d - 1) : Int) ≤ signedOf d u ∧ signedOf d u < (2 ^ (d - 1) : Int) := by
  have hpow : (2 : Int) ^ d = 2 * 2 ^ (d - 1) := by
    obtain ⟨e, rfl⟩ : ∃ e, d = e + 1 := ⟨d - 1, by omega⟩
    simp [pow_succ, mul_comm]
  have hu' : (u : Int) < 2 ^ d := by exact_mod_cast hu
  unfold signedOf
  split_ifs with h
  · have h' : (2 ^ (d - 1) : Int) ≤ u := by exact_mod_cast h
    constructor <;> linarith
  · have h' : (u : Int) < 2 ^ (d - 1) := by
      push_neg at h
      exact_mod_cast h
    have h0 : (0 : Int) ≤ u := Int.natCast_nonneg u
    have hp : (0 : Int) < 2 ^ (d - 1) := by positivity
    constructor <;> linarith

theorem refDecode_sample_range (d : Nat) (hd : 0 < d) (h8 : d = 8 * (d / 8)) (bs : List Byte)
    (hlen : bs.length ≤ d / 8) :
    -1 ≤ (signedOf d (leValue bs) : ℚ) / 2 ^ (d - 1)
      ∧ (signedOf d (leValue bs) : ℚ) / 2 ^ (d - 1) < 1 := by
  have hlt : leValue bs < 2 ^ d := by
    have h1 := leValue_lt bs
    have h2 : 256 ^ bs.length ≤ 256 ^ (d / 8) := Nat.pow_le_pow_right (by norm_num) hlen
    have h3 : 256 ^ (d / 8) = 2 ^ d := by
      conv_rhs => rw [h8]
      rw [pow_mul]
      norm_num
    omega
  obtain ⟨hlo, hhi⟩ := signedOf_bounds d (leValue bs) hd hlt
  have hp : (0 : ℚ) < 2 ^ (d - 1) := by positivity
  have hlo' : -(2 ^ (d - 1) : ℚ) ≤ (signedOf d (leValue bs) : ℚ) := by exact_mod_cast hlo
  have hhi' : (signedOf d (leValue bs) : ℚ) < 2 ^ (d - 1) := by exact_mod_cast hhi
  constructor
  · rw [le_div_iff₀ hp]; linarith
  · rw [div_lt_iff₀ hp]; linarith

theorem refDecode_range (d : Nat) (hd : 0 < d) (h8 : d = 8 * (d / 8)) (data : List Byte) :
    ∀ y ∈ refDecode data d, -1 ≤ y ∧ y < 1 := by
  intro y hy
  unfold refDecode at hy
  obtain ⟨i, _, rfl⟩ := List.mem_map.1 hy
  apply refDecode_sample_range d hd h8
  rw [List.length_take]
  exact Nat.min_le_left _ _

theorem leValue_take_lt (data : List Byte) (off k : Nat) :
    leValue ((data.drop off).take k) < 2 ^ (8 * k) := by
  have h1 := leValue_lt ((data.drop off).take k)
  have h2 : 256 ^ ((data.drop off).take k).length ≤ 256 ^ k :=
    Nat.pow_le_pow_right (by norm_num) (by rw [List.length_take]; exact Nat.min_le_left _ _)
  have h3 : 256 ^ k = 2 ^ (8 * k) := by
    rw [pow_mul]
    norm_num
  omega

/-- An integer of at most 24 bits is a `float32`. -/
theorem float32_intCast (n : Int) (h : n.natAbs < 2 ^ 24) : float32 (n : ℚ) = (n : ℚ) :=
  roundFloat_intCast 24 (by decide) n h

theorem float32_signedOf_16 (u : Nat) (hu : u < 2 ^ 16) :
    float32 (signedOf 16 u : ℚ) = (signedOf 16 u : ℚ) := by
  obtain ⟨h1, h2⟩ := signedOf_bounds 16 u (by decide) hu
  apply float32_intCast
  norm_num at h1 h2 ⊢
  omega

theorem float32_signedOf_24 (u : Nat) (hu : u < 2 ^ 24) :
    float32 (signedOf 24 u : ℚ) = (signedOf 24 u : ℚ) := by
  obtain ⟨h1, h2⟩ := signedOf_bounds 24 u (by decide) hu
  apply float32_intCast
  norm_num at h1 h2 ⊢
  omega

theorem ConvertBytesToFloat32_16 (data : List Byte) :
    ConvertBytesToFloat32 data 16 = refDecode data 16 := by
  unfold ConvertBytesToFloat32 refDecode
  simp only [if_true]
  apply List.map_congr_left
  intro i hi
  rw [List.mem_range] at hi
  have h := decode16_sample data i hi
  simp only [h]
  rw [float32_signedOf_16 _ (leValue_take_lt data (i * 2) 2)]
  norm_num

theorem ConvertBytesToFloat32_24 (data : List Byte) :
    ConvertBytesToFloat32 data 24 = refDecode data 24 := by
  unfold ConvertBytesToFloat32 refDecode
  simp only [show ¬ ((24 : Int) = 16) by decide, if_false, if_true]
  apply List.map_congr_left
  intro i hi
  rw [List.mem_range] at hi
  have h := decode24_sample data i hi
  simp only [h]
  rw [float32_signedOf_24 _ (leValue_take_lt data (i * 3) 3)]
  norm_num

theorem ConvertBytesToFloat32_32 (data : List Byte) :
    ConvertBytesToFloat32 data 32 = refDecodeRounded data := by
  unfold ConvertBytesToFloat32 refDecodeRounded
  simp only [show ¬ ((32 : Int) = 16) by decide, show ¬ ((32 : Int) = 24) by decide, if_false,
    if_true]
  apply List.map_congr_left
  intro i hi
  rw [List.mem_range] at hi
  have h := decode32_sample data i hi
  simp only [h]
  norm_num

/-- The decoder agrees with the reference decoder at 16 and 24 bits. -/
theorem ConvertBytesToFloat32_eq_refDecode (data : List Byte) (bitDepth : Int)
    (h : bitDepth = 16 ∨ bitDepth = 24) :
    ConvertBytesToFloat32 data bitDepth = refDecode data bitDepth.toNat := by
  rcases h with rfl | rfl
  · exact ConvertBytesToFloat32_16 data
  · exact ConvertBytesToFloat32_24 data

/-- The `float32` nearest to a 32-bit integer is within `[-2^31, 2^31]`. -/
theorem float32_int32_bounds (n : Int) (h1 : -(2 ^ 31 : Int) ≤ n) (h2 : n < (2 ^ 31 : Int)) :
    -(2 ^ 31 : ℚ) ≤ float32 (n : ℚ) ∧ float32 (n : ℚ) ≤ (2 ^ 31 : ℚ) := by
  have hn1 : -(((1 : Nat) : ℚ) * (2 : ℚ) ^ (31 : Int)) ≤ (n : ℚ) := by
    have : ((-(2 ^ 31 : Int) : Int) : ℚ) ≤ (n : ℚ) := by exact_mod_cast h1
    push_cast at this
    norm_num at this ⊢
    exact this
  have hn2 : (n : ℚ) ≤ ((1 : Nat) : ℚ) * (2 : ℚ) ^ (31 : Int) := by
    have : (n : ℚ) < (((2 ^ 31 : Int) : Int) : ℚ) := by exact_mod_cast h2
    push_cast at this
    norm_num at this ⊢
    exact this.le
  have a := le_roundFloat_of_le 24 (by decide) (n : ℚ) 1 31 hn1 (by norm_num)
  have b := roundFloat_le_of_le 24 (by decide) (n : ℚ) 1 31 hn2 (by norm_num)
  unfold float32
  norm_num at a b ⊢
  exact ⟨a, b⟩

theorem refDecodeRounded_range (data : List Byte) :
    ∀ y ∈ refDecodeRounded data, -1 ≤ y ∧ y ≤ 1 := by
  intro y hy
  unfold refDecodeRounded at hy
  obtain ⟨i, _, rfl⟩ := List.mem_map.1 hy
  obtain ⟨h1, h2⟩ := signedOf_bounds 32 _ (by decide) (leValue_take_lt data (i * 4) 4)
  obtain ⟨a, b⟩ := float32_int32_bounds _ (by norm_num at h1 ⊢; exact h1)
    (by norm_num at h2 ⊢; exact h2)
  have hp : (0 : ℚ) < 2 ^ 31 := by positivity
  constructor
  · rw [le_div_iff₀ hp]; linarith
  · rw [div_le_iff₀ hp]; linarith

/-- The `float32` nearest to `2^31 - 1` is `2^31`. -/
theorem float32_maxInt32 : float32 2147483647 = 2147483648 := by
  have := roundFloat_eval_up 24 7 2147483647 16777216 (by norm_num) (by norm_num) (by norm_num)
    (by norm_num [abs_lt])
  unfold float32
  rw [this]
  norm_num

/-! ## Lemmas: the encoder -/

theorem toByte_congr (a b : Nat) (h : a % 256 = b % 256) : toByte a = toByte b := by
  unfold toByte
  exact Fin.ext h

theorem land_255 (x : Nat) : x &&& 0xFF = x % 256 := by
  have := Nat.and_pow_two_sub_one_eq_mod x 8
  simpa using this

theorem putLE_two (q : Int) : putLE 2 (bitsOf 16 q) = leBytes 2 q := by
  simp only [putLE, leBytes, bitsOf, Nat.shiftRight_eq_div_pow, List.range_succ, List.range_zero,
    List.nil_append, List.map_cons, List.map_nil, List.cons_append, List.cons.injEq, and_true]
  refine ⟨?_, ?_⟩ <;> (apply toByte_congr; norm_num)

theorem putLE_four (q : Int) : putLE 4 (bitsOf 32 q) = leBytes 4 q := by
  simp only [putLE, leBytes, bitsOf, Nat.shiftRight_eq_div_pow, List.range_succ, List.range_zero,
    List.nil_append, List.map_cons, List.map_nil, List.cons_append, List.cons.injEq, and_true]
  refine ⟨?_, ?_, ?_, ?_⟩ <;> (apply toByte_congr; norm_num) <;> omega

theorem put24_eq (q : Int) : put24 q = leBytes 3 q := by
  simp only [put24, leBytes, bitsOf, land_255, Int.shiftRight_eq_div_pow, List.range_succ,
    List.range_zero, List.nil_append, List.map_cons, List.map_nil, List.cons_append,
    List.cons.injEq, and_true]
  refine ⟨?_, ?_, ?_⟩ <;> (apply toByte_congr; norm_num) <;> omega

theorem clampSample_eq (x : ℚ) : clampSample x = max (-1) (min 1 x) := by
  unfold clampSample
  split_ifs with h1 h2
  · rw [min_eq_left h1.le, max_eq_right (by norm_num)]
  · rw [min_eq_right (by linarith), max_eq_left h2.le]
  · push_neg at h1 h2
    rw [min_eq_right h1, max_eq_right h2]

theorem clamp_abs_le (x : ℚ) : |max (-1) (min 1 x)| ≤ 1 := by
  rw [abs_le]
  exact ⟨le_max_left _ _, max_le (by norm_num) (min_le_left _ _)⟩

theorem truncToInt_err (z : ℚ) : |(truncToInt z : ℚ) - z| < 1 := by
  unfold truncToInt
  rw [abs_lt]
  split_ifs with h
  · have h1 := Int.floor_le z
    have h2 := Int.lt_floor_add_one z
    constructor <;> linarith
  · have h1 := Int.le_ceil z
    have h2 := Int.ceil_lt_add_one z
    constructor <;> linarith

theorem truncToInt_abs_le (z : ℚ) (S : Int) (h : |z| ≤ S) : |truncToInt z| ≤ S := by
  rw [abs_le] at h ⊢
  unfold truncToInt
  split_ifs with h0
  · constructor
    · have : (0:Int) ≤ ⌊z⌋ := Int.floor_nonneg.2 h0
      have hS : (0 : ℚ) ≤ S := le_trans h0 h.2
      have hS' : (0 : Int) ≤ S := by exact_mod_cast hS
      omega
    · have := Int.floor_le z
      have h3 : ((⌊z⌋ : Int) : ℚ) ≤ S := le_trans this h.2
      exact_mod_cast h3
  · push_neg at h0
    constructor
    · have := Int.le_ceil z
      have h3 : ((-S : Int) : ℚ) ≤ ⌈z⌉ := by push_cast; linarith [h.1]
      exact_mod_cast h3
    · have : ⌈z⌉ ≤ 0 := Int.ceil_le.2 (by simpa using h0.le)
      have hS : ((-S : Int) : ℚ) ≤ 0 := by push_cast; linarith [h.1]
      have hS' : (-S : Int) ≤ 0 := by exact_mod_cast hS
      omega

theorem encodeScale_pos (d : Nat) (hd : 2 ≤ d) : 0 < encodeScale d := by
  unfold encodeScale
  have : (2 : ℚ) ^ 1 ≤ 2 ^ (d - 1) := pow_le_pow_right₀ (by norm_num) (by omega)
  linarith

theorem clampSample_abs_le (x : ℚ) : |clampSample x| ≤ 1 := by
  rw [clampSample_eq]
  exact clamp_abs_le x

theorem clampSample_of_mem (x : ℚ) (h1 : -1 ≤ x) (h2 : x ≤ 1) : clampSample x = x := by
  rw [clampSample_eq, min_eq_right h2, max_eq_right h1]

/-- With a scale of at most 24 bits the quantised value of a sample in
`[-1, 1]` stays within `±scale`. -/
theorem intSampleOf_abs_le (S : Nat) (hS : S < 2 ^ 24) (c : ℚ) (hc : |c| ≤ 1) :
    |intSampleOf (S : ℚ) c| ≤ (S : Int) := by
  have hscale : float32 (S : ℚ) = (S : ℚ) := by
    have := float32_intCast (S : Int) (by simpa using hS)
    exact_mod_cast this
  have hS0 : (0 : ℚ) ≤ (S : ℚ) := Nat.cast_nonneg S
  rw [abs_le] at hc
  have hz1 : c * (S : ℚ) ≤ (S : ℚ) * (2 : ℚ) ^ (0 : Int) := by
    rw [zpow_zero, mul_one]
    nlinarith [hc.2]
  have hz2 : -((S : ℚ) * (2 : ℚ) ^ (0 : Int)) ≤ c * (S : ℚ) := by
    rw [zpow_zero, mul_one]
    nlinarith [hc.1]
  have a := roundFloat_le_of_le 24 (by decide) (c * (S : ℚ)) S 0 hz1 hS
  have b := le_roundFloat_of_le 24 (by decide) (c * (S : ℚ)) S 0 hz2 hS
  rw [zpow_zero, mul_one] at a b
  unfold intSampleOf
  rw [hscale]
  apply truncToInt_abs_le
  rw [abs_le]
  unfold float32
  push_cast
  exact ⟨b, a⟩

theorem foldl_append_flatMap (f : ℚ → List Byte) (samples : List ℚ) :
    ∀ buf : List Byte,
      samples.foldl (fun buf sample => buf ++ f sample) buf = buf ++ samples.flatMap f := by
  induction samples with
  | nil => intro buf; simp
  | cons x xs ih => intro buf; simp [ih]

theorem length_flatMap_leBytes (k : Nat) (g : ℚ → Int) (samples : List ℚ) :
    (samples.flatMap fun x => leBytes k (g x)).length = samples.length * k := by
  induction samples with
  | nil => simp
  | cons x xs ih =>
    rw [List.flatMap_cons, List.length_append, ih]
    simp [leBytes, Nat.succ_mul, Nat.add_comm]

/-- The bytes of the encoder at 16 bits: two little-endian bytes per sample. -/
theorem ConvertFloat32ToBytes_16 (samples : List ℚ) :
    ConvertFloat32ToBytes samples 16
      = samples.flatMap fun x => leBytes 2 (intSampleOf 32767 (clampSample x)) := by
  unfold ConvertFloat32ToBytes
  simp only [if_true]
  rw [foldl_append_flatMap, List.nil_append]
  congr 1
  funext x
  rw [putLE_two]

/-- The bytes of the encoder at 24 bits: three little-endian bytes per sample. -/
theorem ConvertFloat32ToBytes_24 (samples : List ℚ) :
    ConvertFloat32ToBytes samples 24
      = samples.flatMap fun x => leBytes 3 (intSampleOf 8388607 (clampSample x)) := by
  unfold ConvertFloat32ToBytes
  simp only [show ¬ ((24 : Int) = 16) by decide, if_false, if_true]
  rw [foldl_append_flatMap, List.nil_append]
  congr 1
  funext x
  rw [put24_eq]

/-- The bytes of the encoder at 32 bits: four little-endian bytes per sample. -/
theorem ConvertFloat32ToBytes_32 (samples : List ℚ) :
    ConvertFloat32ToBytes samples 32
      = samples.flatMap fun x => leBytes 4 (intSampleOf 2147483647 (clampSample x)) := by
  unfold ConvertFloat32ToBytes
  simp only [show ¬ ((32 : Int) = 16) by decide, show ¬ ((32 : Int) = 24) by decide, if_false,
    if_true]
  rw [foldl_append_flatMap, List.nil_append]
  congr 1
  funext x
  rw [putLE_four]

/-! ## Lemmas: the round trip -/

theorem leValue_leBytes_two (q : Int) : leValue (leBytes 2 q) = (q % 65536).toNat := by
  simp only [leBytes, List.range_succ, List.range_zero, List.nil_append, List.map_cons,
    List.map_nil, List.cons_append, leValue, toByte]
  norm_num
  omega

theorem leValue_leBytes_three (q : Int) : leValue (leBytes 3 q) = (q % 16777216).toNat := by
  simp only [leBytes, List.range_succ, List.range_zero, List.nil_append, List.map_cons,
    List.map_nil, List.cons_append, leValue, toByte]
  norm_num
  omega

theorem leValue_leBytes_four (q : Int) : leValue (leBytes 4 q) = (q % 4294967296).toNat := by
  simp only [leBytes, List.range_succ, List.range_zero, List.nil_append, List.map_cons,
    List.map_nil, List.cons_append, leValue, toByte]
  norm_num
  omega

theorem signedOf_bits16 (q : Int) (h : |q| ≤ 2 ^ (16 - 1) - 1) :
    signedOf 16 (q % 65536).toNat = q := by
  rw [abs_le] at h
  norm_num at h
  unfold signedOf
  norm_num
  split_ifs <;> omega

theorem signedOf_bits24 (q : Int) (h : |q| ≤ 2 ^ (24 - 1) - 1) :
    signedOf 24 (q % 16777216).toNat = q := by
  rw [abs_le] at h
  norm_num at h
  unfold signedOf
  norm_num
  split_ifs <;> omega

theorem signedOf_bits32 (q : Int) (h1 : -2147483648 ≤ q) (h2 : q ≤ 2147483647) :
    signedOf 32 (q % 4294967296).toNat = q := by
  unfold signedOf
  norm_num
  split_ifs <;> omega

theorem refDecode_leBytes (k : Nat) (hk : 0 < k) (q : Int) :
    refDecode (leBytes k q) (8 * k)
      = [(signedOf (8 * k) (leValue (leBytes k q)) : ℚ) / 2 ^ (8 * k - 1)] := by
  have hlen : (leBytes k q).length = k := by simp [leBytes]
  have hdiv : 8 * k / 8 = k := Nat.mul_div_cancel_left k (by decide)
  unfold refDecode
  rw [hdiv, hlen, Nat.div_self hk]
  simp only [List.range_succ, List.range_zero, List.nil_append, List.map_cons, List.map_nil,
    Nat.zero_mul, List.drop_zero]
  rw [List.take_of_length_le (by omega)]

theorem refDecodeRounded_leBytes (q : Int) :
    refDecodeRounded (leBytes 4 q)
      = [float32 (signedOf 32 (leValue (leBytes 4 q)) : ℚ) / 2 ^ 31] := by
  have hlen : (leBytes 4 q).length = 4 := by simp [leBytes]
  unfold refDecodeRounded
  rw [hlen]
  simp only [Nat.div_self, Nat.lt_add_one, List.range_succ, List.range_zero, List.nil_append,
    List.map_cons, List.map_nil, Nat.zero_mul, List.drop_zero]
  rw [List.take_of_length_le (by omega)]

/-- The value of the round trip of one sample at 16 bits. -/
theorem roundtrip_value_16 (x : ℚ) :
    ConvertBytesToFloat32 (ConvertFloat32ToBytes [x] 16) 16
      = [(intSampleOf 32767 (clampSample x) : ℚ) / 32768] := by
  have hq := intSampleOf_abs_le 32767 (by norm_num) (clampSample x) (clampSample_abs_le x)
  rw [ConvertFloat32ToBytes_16, ConvertBytesToFloat32_16]
  have e : ([x].flatMap fun x => leBytes 2 (intSampleOf 32767 (clampSample x)))
      = leBytes 2 (intSampleOf 32767 (clampSample x)) := by simp
  rw [e]
  have := refDecode_leBytes 2 (by decide) (intSampleOf 32767 (clampSample x))
  rw [leValue_leBytes_two, signedOf_bits16 _ (by push_cast at hq; norm_num; exact hq)] at this
  rw [this]
  norm_num

/-- The value of the round trip of one sample at 24 bits. -/
theorem roundtrip_value_24 (x : ℚ) :
    ConvertBytesToFloat32 (ConvertFloat32ToBytes [x] 24) 24
      = [(intSampleOf 8388607 (clampSample x) : ℚ) / 8388608] := by
  have hq := intSampleOf_abs_le 8388607 (by norm_num) (clampSample x) (clampSample_abs_le x)
  rw [ConvertFloat32ToBytes_24, ConvertBytesToFloat32_24]
  have e : ([x].flatMap fun x => leBytes 3 (intSampleOf 8388607 (clampSample x)))
      = leBytes 3 (intSampleOf 8388607 (clampSample x)) := by simp
  rw [e]
  have := refDecode_leBytes 3 (by decide) (intSampleOf 8388607 (clampSample x))
  rw [leValue_leBytes_three, signedOf_bits24 _ (by push_cast at hq; norm_num; exact hq)] at this
  rw [this]
  norm_num

/-- The error of quantising with a scale `S` below `2^23` and reading back
with scale `S + 1`, for a sample in `[-1, 1]`: the rounding of the product to
`float32` does not take the truncated value further than one from it. -/
theorem quantize_error (S : Nat) (hS : S < 2 ^ 23) (x : ℚ) (hx : -1 ≤ x ∧ x ≤ 1) :
    |(intSampleOf (S : ℚ) x : ℚ) / ((S : ℚ) + 1) - x| < 2 / ((S : ℚ) + 1) := by
  have hscale : float32 (S : ℚ) = (S : ℚ) := by
    have := float32_intCast (S : Int) (by simp; omega)
    exact_mod_cast this
  have hS0 : (0 : ℚ) ≤ (S : ℚ) := Nat.cast_nonneg S
  have hP : (0 : ℚ) < (S : ℚ) + 1 := by linarith
  have hxabs : |x| ≤ 1 := abs_le.2 hx
  have hz : |x * (S : ℚ)| < (2 : ℚ) ^ (24 - 1) := by
    have h1 : |x * (S : ℚ)| ≤ (S : ℚ) := by
      rw [abs_mul, abs_of_nonneg hS0]
      calc |x| * (S : ℚ) ≤ 1 * (S : ℚ) := mul_le_mul_of_nonneg_right hxabs hS0
        _ = (S : ℚ) := one_mul _
    have h2 : (S : ℚ) < (2 : ℚ) ^ (24 - 1) := by
      have : ((S : Nat) : ℚ) < ((2 ^ 23 : Nat) : ℚ) := by exact_mod_cast hS
      norm_num at this ⊢
      exact this
    exact lt_of_le_of_lt h1 h2
  have herr := trunc_round_err 24 (by decide) (x * (S : ℚ)) hz
  have hq : (intSampleOf (S : ℚ) x : ℚ) = (truncToInt (roundFloat 24 (x * (S : ℚ))) : ℚ) := by
    unfold intSampleOf
    rw [hscale]
    rfl
  have hform : (intSampleOf (S : ℚ) x : ℚ) / ((S : ℚ) + 1) - x
      = (((intSampleOf (S : ℚ) x : ℚ) - x * (S : ℚ)) - x) / ((S : ℚ) + 1) := by
    field_simp
    ring
  rw [hform, abs_div, abs_of_pos hP, div_lt_div_iff_of_pos_right hP, hq]
  calc |(truncToInt (roundFloat 24 (x * (S : ℚ))) : ℚ) - x * (S : ℚ) - x|
      ≤ |(truncToInt (roundFloat 24 (x * (S : ℚ))) : ℚ) - x * (S : ℚ)| + |x| := abs_sub _ _
    _ < 1 + 1 := add_lt_add_of_lt_of_le herr hxabs
    _ = 2 := by norm_num

/-! ## Lemmas: resampling -/

theorem truncToInt_of_nonneg (x : ℚ) (h : 0 ≤ x) : truncToInt x = ⌊x⌋ := by
  unfold truncToInt
  rw [if_pos h]

theorem truncToInt_natCast_div (n d : Nat) : truncToInt ((n : ℚ) / (d : ℚ)) = ((n / d : Nat) : Int) := by
  rw [truncToInt_of_nonneg _ (by positivity), Rat.floor_natCast_div_natCast]
  simp

theorem sampleAt_natCast (s : List ℚ) (i : Nat) : sampleAt s (i : Int) = s.getD i 0 := by
  simp [sampleAt]

theorem truncToInt_toNat (x : ℚ) : (truncToInt x).toNat = ⌊x⌋₊ := by
  unfold truncToInt
  by_cases h : 0 ≤ x
  · rw [if_pos h, Int.floor_toNat]
  · rw [if_neg h]
    have hx : x < 0 := not_le.1 h
    have h1 : ⌈x⌉ ≤ 0 := Int.ceil_le.2 (by exact_mod_cast hx.le)
    rw [Int.toNat_of_nonpos h1, Nat.floor_of_nonpos hx.le]

theorem truncToInt_eq_natFloor (x : ℚ) (h : 0 ≤ x) : truncToInt x = ((⌊x⌋₊ : Nat) : Int) := by
  rw [truncToInt_of_nonneg x h]
  exact (Int.natCast_floor_eq_floor h).symm

theorem float64_nonneg (x : ℚ) (h : 0 ≤ x) : 0 ≤ float64 x :=
  roundFloat_nonneg 53 (by decide) x h

theorem float64_pos (x : ℚ) (h : 0 < x) : 0 < float64 x :=
  roundFloat_pos 53 (by decide) x h

theorem float64_intCast (n : Int) (h : n.natAbs < 2 ^ 53) : float64 (n : ℚ) = (n : ℚ) :=
  roundFloat_intCast 53 (by decide) n h

theorem float64_natCast (n : Nat) (h : n < 2 ^ 53) : float64 (n : ℚ) = (n : ℚ) := by
  have := float64_intCast (n : Int) (by simpa using h)
  exact_mod_cast this

theorem length_resampleLoop (samples : List ℚ) (ratio : ℚ) :
    (resampleLoop samples ratio).length
      = ⌊float64 ((samples.length : ℚ) * ratio)⌋₊ := by
  simp [resampleLoop, truncToInt_toNat]

/-- The interpolation loop of the source, run with a ratio that is not
negative, in terms of natural indices. -/
theorem resampleLoop_eq (samples : List ℚ) (ratio : ℚ) (hr : 0 ≤ ratio) :
    resampleLoop samples ratio
      = (List.range ⌊float64 ((samples.length : ℚ) * ratio)⌋₊).map fun (i : Nat) =>
          let srcIndex : ℚ := float64 ((i : ℚ) / ratio)
          let idx : Nat := ⌊srcIndex⌋₊
          let frac : ℚ := srcIndex - (idx : ℚ)
          if (idx : Int) ≥ (samples.length : Int) - 1 then samples.getD (samples.length - 1) 0
          else samples.getD idx 0 * (1 - frac) + samples.getD (idx + 1) 0 * frac := by
  unfold resampleLoop
  simp only [truncToInt_toNat]
  apply List.map_congr_left
  intro i _
  have h0 : 0 ≤ float64 ((i : ℚ) / ratio) := float64_nonneg _ (by positivity)
  have hidx := truncToInt_eq_natFloor _ h0
  have hlast : sampleAt samples ((samples.length : Int) - 1)
      = samples.getD (samples.length - 1) 0 := by
    unfold sampleAt
    congr 1
    omega
  have hnext : sampleAt samples (((⌊float64 ((i : ℚ) / ratio)⌋₊ : Nat) : Int) + 1)
      = samples.getD (⌊float64 ((i : ℚ) / ratio)⌋₊ + 1) 0 := by
    have := sampleAt_natCast samples (⌊float64 ((i : ℚ) / ratio)⌋₊ + 1)
    push_cast at this
    exact this
  rw [hidx, hlast, hnext, sampleAt_natCast, Int.cast_natCast]

/-- The interpolation loop of the source with the `float64` ratio of two
positive rates is the specified interpolator. -/
theorem resampleLoop_eq_refResample (samples : List ℚ) (srcRate dstRate : Nat)
    (hs : 0 < srcRate) (hd : 0 < dstRate) (hne : srcRate ≠ dstRate) :
    resampleLoop samples (float64 ((dstRate : ℚ) / (srcRate : ℚ)))
      = refResample samples srcRate dstRate := by
  have hr : 0 ≤ float64 ((dstRate : ℚ) / (srcRate : ℚ)) := float64_nonneg _ (by positivity)
  rw [resampleLoop_eq samples _ hr]
  unfold refResample
  rw [if_neg hne]

theorem ConvertToRNNoiseFormat_mono (samples : List ℚ) (rate : Nat) (hr : 0 < rate) (bd : Int) :
    ConvertToRNNoiseFormat ⟨samples, (rate : Int), 1, bd⟩
      = .ok ⟨refResample samples rate 48000, 48000, 1, 16⟩ := by
  unfold ConvertToRNNoiseFormat
  simp only [show ¬ ((1 : Int) = 2) by decide, show ¬ ((1 : Int) > 2) by decide, if_false]
  by_cases h : rate = 48000
  · subst h
    simp [refResample]
  · have h' : ((rate : Int) ≠ 48000) := by exact_mod_cast h
    simp only [h', ne_eq, not_false_eq_true, if_true, Int.cast_natCast]
    have := resampleLoop_eq_refResample samples rate 48000 hr (by decide) h
    push_cast at this
    rw [this]

theorem convertSampleRate_eq (samples : List ℚ) (srcRate dstRate : Nat)
    (hs : 0 < srcRate) (hd : 0 < dstRate) (ch bd : Int) :
    convertSampleRate ⟨samples, (srcRate : Int), ch, bd⟩ (dstRate : Int)
      = .ok ⟨refResample samples srcRate dstRate, (dstRate : Int), ch, bd⟩ := by
  unfold convertSampleRate
  by_cases h : srcRate = dstRate
  · subst h
    simp [refResample]
  · have h' : ((srcRate : Int) ≠ (dstRate : Int)) := by exact_mod_cast h
    simp only [h', if_false, Int.cast_natCast]
    rw [resampleLoop_eq_refResample samples srcRate dstRate hs hd h]

theorem length_refResample (samples : List ℚ) (srcRate dstRate : Nat) (hne : srcRate ≠ dstRate) :
    (refResample samples srcRate dstRate).length
      = ⌊float64 ((samples.length : ℚ) * float64 ((dstRate : ℚ) / (srcRate : ℚ)))⌋₊ := by
  simp [refResample, hne]

/-- When the target rate is a multiple `m` of the source rate and `len * m`
is below `2^53`, every `float64` step of the length is exact. -/
theorem length_refResample_of_multiple (samples : List ℚ) (src dst m : Nat) (hsrc : 0 < src)
    (hm : dst = m * src) (hlt : samples.length * m < 2 ^ 53) :
    (refResample samples src dst).length = samples.length * m := by
  by_cases hne : src = dst
  · have h1 : m = 1 := by
      have : 1 * src = m * src := by rw [one_mul, ← hm]; exact hne
      exact (Nat.eq_of_mul_eq_mul_right hsrc this).symm
    subst h1
    simp [refResample, hne]
  · rw [length_refResample _ _ _ hne]
    have hsrc' : (src : ℚ) ≠ 0 := by exact_mod_cast hsrc.ne'
    have hq : (dst : ℚ) / (src : ℚ) = (m : ℚ) := by
      rw [hm]
      push_cast
      field_simp
    rw [hq]
    rcases Nat.eq_zero_or_pos samples.length with h0 | hpos
    · rw [h0]
      simp [float64, roundFloat_zero]
    · have hm53 : m < 2 ^ 53 := lt_of_le_of_lt (Nat.le_mul_of_pos_left m hpos) hlt
      rw [float64_natCast m hm53]
      have := float64_natCast (samples.length * m) hlt
      push_cast at this
      rw [this]
      have h2 : ((samples.length : ℚ) * (m : ℚ)) = ((samples.length * m : Nat) : ℚ) := by
        push_cast; rfl
      rw [h2, Nat.floor_natCast]

/-! ## Lemmas: downmix -/

theorem foldl_add_eq_sum (f : Nat → ℚ) (l : List Nat) :
    ∀ init : ℚ, l.foldl (fun sum ch => sum + f ch) init = init + (l.map f).sum := by
  induction l with
  | nil => intro init; simp
  | cons x xs ih => intro init; simp [ih, add_assoc]

theorem downmixMulti_eq_refDownmix (samples : List ℚ) (c : Nat) :
    downmixMulti samples c = refDownmix samples c := by
  unfold downmixMulti refDownmix
  apply List.map_congr_left
  intro i _
  rw [foldl_add_eq_sum (fun ch => samples.getD (i * c + ch) 0), zero_add]

theorem downmixStereo_eq_refDownmix (samples : List ℚ) :
    downmixStereo samples = refDownmix samples 2 := by
  unfold downmixStereo refDownmix
  apply List.map_congr_left
  intro i _
  simp [List.range_succ]

/-! ## Lemmas: statistics -/

/-- The loop of `AnalyzeFrames` on frames of 480 samples is the statistics
fold over the probabilities of the denoiser run. -/
theorem analyzeLoop_eq {σ : Type} (lib : RNNoiseLib σ) (t : ℚ) (frames : List (List ℚ)) :
    (∀ f ∈ frames, f.length = 480) →
    ∀ (state : σ) (stats : FrameStatistics) (totalProb : ℚ),
      analyzeLoop lib t frames state stats totalProb
        = (.ok (((runDenoiser lib state frames).map Prod.fst).foldl (statsStep t)
                  (stats, totalProb)),
           finalState lib state frames) := by
  induction frames with
  | nil => intro _ state stats totalProb; rfl
  | cons f fs ih =>
    intro hlen state stats totalProb
    have hf : f.length = 480 := hlen f (List.mem_cons_self _ _)
    have hfs : ∀ g ∈ fs, g.length = 480 := fun g hg => hlen g (List.mem_cons_of_mem _ hg)
    rw [analyzeLoop, ProcessFrame_of_length lib state f hf]
    simp only
    rw [ih hfs]
    rfl

theorem statsStep_total (t : ℚ) (acc : FrameStatistics × ℚ) (p : ℚ) :
    (statsStep t acc p).1.TotalFrames = acc.1.TotalFrames := by
  unfold statsStep
  simp only
  split_ifs <;> rfl

theorem statsStep_voice (t : ℚ) (acc : FrameStatistics × ℚ) (p : ℚ) :
    (statsStep t acc p).1.VoiceFrames = acc.1.VoiceFrames + (if p ≥ t then 1 else 0) := by
  unfold statsStep
  simp only
  split_ifs <;> simp

theorem statsStep_noise (t : ℚ) (acc : FrameStatistics × ℚ) (p : ℚ) :
    (statsStep t acc p).1.NoiseFrames = acc.1.NoiseFrames + (if p ≥ t then 0 else 1) := by
  unfold statsStep
  simp only
  split_ifs <;> simp

/-- The counters after the statistics fold. -/
theorem statsFold_counts (t : ℚ) (probs : List ℚ) :
    ∀ acc : FrameStatistics × ℚ,
      (probs.foldl (statsStep t) acc).1.TotalFrames = acc.1.TotalFrames
      ∧ (probs.foldl (statsStep t) acc).1.VoiceFrames
          = acc.1.VoiceFrames + (probs.countP fun p => decide (p ≥ t) : Nat)
      ∧ (probs.foldl (statsStep t) acc).1.VoiceFrames
            + (probs.foldl (statsStep t) acc).1.NoiseFrames
          = acc.1.VoiceFrames + acc.1.NoiseFrames + (probs.length : Nat) := by
  induction probs with
  | nil => intro acc; simp
  | cons p ps ih =>
    intro acc
    obtain ⟨h1, h2, h3⟩ := ih (statsStep t acc p)
    rw [List.foldl_cons]
    refine ⟨?_, ?_, ?_⟩
    · rw [h1, statsStep_total]
    · rw [h2, statsStep_voice, List.countP_cons]
      by_cases hp : p ≥ t
      · simp only [hp, if_true, decide_True]
        push_cast
        ring
      · simp only [hp, if_false, decide_False, Bool.false_eq_true]
        push_cast
        ring
    · rw [h3, statsStep_voice, statsStep_noise, List.length_cons]
      by_cases hp : p ≥ t
      · simp only [hp, if_true]
        push_cast
        ring
      · simp only [hp, if_false]
        push_cast
        ring

/-- The statistics of `AnalyzeFrames`, for any input, from the frames of the
converted input and the denoiser run over them. -/
theorem AnalyzeFrames_counts {σ : Type} (lib : RNNoiseLib σ) (state : σ)
    (audioData : AudioData) (t : ℚ) (conv : AudioData) (frames : List (List ℚ))
    (hc : ConvertToRNNoiseFormat audioData = .ok conv) (hg : GetFrames conv = .ok frames)
    (hlen : ∀ f ∈ frames, f.length = 480) :
    ∃ stats, AnalyzeFrames lib state audioData t = (.ok stats, finalState lib state frames)
      ∧ stats.TotalFrames = (frames.length : Nat)
      ∧ stats.VoiceFrames
          = (((runDenoiser lib state frames).map Prod.fst).countP fun p => decide (p ≥ t) : Nat)
      ∧ stats.VoiceFrames + stats.NoiseFrames = (frames.length : Nat) := by
  obtain ⟨h1, h2, h3⟩ := statsFold_counts t ((runDenoiser lib state frames).map Prod.fst)
    ({ TotalFrames := frames.length, VoiceFrames := 0, NoiseFrames := 0
       AverageVoiceProb := 0, MaxVoiceProb := 0, MinVoiceProb := 1 }, 0)
  simp only [List.length_map, length_runDenoiser, zero_add] at h1 h2 h3
  unfold AnalyzeFrames
  rw [hc]
  simp only
  rw [hg]
  simp only
  rw [analyzeLoop_eq lib t frames hlen]
  simp only
  split_ifs
  · exact ⟨_, rfl, h1, h2, h3⟩
  · exact ⟨_, rfl, h1, h2, h3⟩

theorem ConvertToRNNoiseFormat_nil (rate channels bd : Int) :
    ConvertToRNNoiseFormat ⟨[], rate, channels, bd⟩ = .ok ⟨[], 48000, 1, 16⟩ := by
  simp [ConvertToRNNoiseFormat, downmixStereo, downmixMulti, resampleLoop_nil]

theorem GetFrames_nil : GetFrames ⟨[], 48000, 1, 16⟩ = .ok [] := by
  simp [GetFrames, frameSize]

theorem length_keptPairs (t : ℚ) (pairs : List (ℚ × List ℚ)) :
    (keptPairs t pairs).length = (pairs.map Prod.fst).countP fun p => decide (p ≥ t) := by
  unfold keptPairs
  rw [List.countP_map, List.countP_eq_length_filter]
  rfl

theorem runDenoiser_nonneg {σ : Type} (lib : RNNoiseLib σ)
    (hnn : ∀ st inp, 0 ≤ (lib.rnnoise_process_frame st inp).1) (frames : List (List ℚ)) :
    ∀ state, ∀ r ∈ runDenoiser lib state frames, 0 ≤ r.1 := by
  induction frames with
  | nil => intro state r hr; simp [runDenoiser] at hr
  | cons f fs ih =>
    intro state r hr
    simp only [runDenoiser, List.mem_cons] at hr
    rcases hr with rfl | hr
    · exact hnn _ _
    · exact ih _ r hr

theorem keptPairs_zero_of_nonneg (pairs : List (ℚ × List ℚ)) (h : ∀ r ∈ pairs, 0 ≤ r.1) :
    keptPairs 0 pairs = pairs := by
  unfold keptPairs
  rw [List.filter_eq_self]
  intro r hr
  simpa using h r hr

/-! ## Lemmas: checked slice accesses -/

theorem readSample_natCast (s : List ℚ) (n : Nat) (h : n < s.length) :
    readSample s (n : Int) = some (s.getD n 0) := by
  unfold readSample
  rw [if_pos ⟨Int.natCast_nonneg n, by exact_mod_cast h⟩, Int.toNat_ofNat,
    List.getD_eq_getElem _ _ h, List.get?_eq_getElem?, List.getElem?_eq_getElem h]

theorem readSample_of_bounds (s : List ℚ) (i : Int) (h0 : 0 ≤ i) (h1 : i < (s.length : Int)) :
    readSample s i = some (sampleAt s i) := by
  obtain ⟨n, rfl⟩ := Int.eq_ofNat_of_zero_le h0
  rw [readSample_natCast s n (by exact_mod_cast h1), sampleAt_natCast]

theorem collect_map_some (f : Nat → Option ℚ) (g : Nat → ℚ) (l : List Nat)
    (h : ∀ i ∈ l, f i = some (g i)) : collect (l.map f) = some (l.map g) := by
  induction l with
  | nil => rfl
  | cons x xs ih =>
    have hx := h x (List.mem_cons_self _ _)
    have hxs := ih fun i hi => h i (List.mem_cons_of_mem _ hi)
    rw [List.map_cons, hx, collect, hxs]
    rfl

theorem downmixStereoChecked_eq (samples : List ℚ) :
    downmixStereoChecked samples = some (downmixStereo samples) := by
  unfold downmixStereoChecked downmixStereo
  apply collect_map_some
  intro i hi
  rw [List.mem_range] at hi
  have h0 := readSample_natCast samples (i * 2) (by omega)
  have h1 := readSample_natCast samples (i * 2 + 1) (by omega)
  push_cast at h0 h1
  rw [h0, h1]

theorem sumChannelsChecked_upto (samples : List ℚ) (i : Nat) (channels : Int) (n : Nat)
    (h : ∀ ch, ch < n → i * channels.toNat + ch < samples.length) (hc : 0 ≤ channels) :
    (List.range n).foldl
        (fun sum (ch : Nat) =>
          match sum, readSample samples ((i : Int) * channels + (ch : Int)) with
          | some acc, some v => some (acc + v)
          | _, _ => none)
        (some 0)
      = some ((List.range n).foldl
          (fun sum ch => sum + samples.getD (i * channels.toNat + ch) 0) 0) := by
  induction n with
  | zero => rfl
  | succ n ih =>
    rw [List.range_succ, List.foldl_append, List.foldl_append,
      ih fun ch hch => h ch (Nat.lt_succ_of_lt hch)]
    have hread := readSample_natCast samples (i * channels.toNat + n) (h n (Nat.lt_succ_self n))
    have hcast : ((i * channels.toNat + n : Nat) : Int) = (i : Int) * channels + (n : Int) := by
      push_cast
      rw [Int.toNat_of_nonneg hc]
    rw [hcast] at hread
    simp only [List.foldl_cons, List.foldl_nil, hread]

theorem downmixMultiChecked_eq (samples : List ℚ) (channels : Int) (hc : 0 < channels) :
    downmixMultiChecked samples channels = some (downmixMulti samples channels.toNat) := by
  unfold downmixMultiChecked downmixMulti
  apply collect_map_some
  intro i hi
  rw [List.mem_range] at hi
  have hpos : 0 < channels.toNat := by omega
  have hle : (i + 1) * channels.toNat ≤ samples.length :=
    (Nat.le_div_iff_mul_le hpos).1 hi
  unfold sumChannelsChecked
  rw [sumChannelsChecked_upto samples i channels channels.toNat ?_ hc.le]
  · have hcast : ((channels.toNat : Nat) : ℚ) = (channels : ℚ) := by
      have h1 : ((channels.toNat : Nat) : Int) = channels := Int.toNat_of_nonneg hc.le
      rw [← Int.cast_natCast, h1]
    simp only [Option.map_some']
    rw [hcast]
  · intro ch hch
    have : (i + 1) * channels.toNat = i * channels.toNat + channels.toNat := by ring
    omega

theorem truncToInt_nonneg (x : ℚ) (h : 0 ≤ x) : 0 ≤ truncToInt x := by
  rw [truncToInt_of_nonneg x h]
  exact Int.floor_nonneg.2 h

/-- For a positive ratio no access of the interpolation loop is out of range
and the length passed to `make` is not negative. -/
theorem resampleLoopChecked_eq (samples : List ℚ) (ratio : ℚ) (hr : 0 < ratio) :
    resampleLoopChecked samples ratio = some (resampleLoop samples ratio) := by
  have hlen0 : 0 ≤ truncToInt (float64 ((samples.length : ℚ) * ratio)) :=
    truncToInt_nonneg _ (float64_nonneg _ (by positivity))
  unfold resampleLoopChecked resampleLoop
  simp only
  rw [if_neg (by omega)]
  apply collect_map_some
  intro i hi
  rw [List.mem_range] at hi
  have hidx0 : 0 ≤ truncToInt (float64 ((i : ℚ) / ratio)) :=
    truncToInt_nonneg _ (float64_nonneg _ (by positivity))
  have hne : samples.length ≠ 0 := by
    intro h0
    rw [h0] at hi
    simp [truncToInt, float64, roundFloat_zero] at hi
  by_cases hb : truncToInt (float64 ((i : ℚ) / ratio)) ≥ (samples.length : Int) - 1
  · rw [if_pos hb, if_pos hb]
    exact readSample_of_bounds samples _ (by omega) (by omega)
  · rw [if_neg hb, if_neg hb,
      readSample_of_bounds samples _ hidx0 (by omega),
      readSample_of_bounds samples _ (by omega) (by omega)]

theorem ConvertToRNNoiseFormatChecked_eq (audioData : AudioData)
    (hrate : 0 < audioData.SampleRate) :
    ∃ conv, ConvertToRNNoiseFormatChecked audioData = some conv
      ∧ ConvertToRNNoiseFormat audioData = .ok conv := by
  have hratio : (0 : ℚ) < float64 ((48000 : ℚ) / (audioData.SampleRate : ℚ)) := by
    have : (0 : ℚ) < (audioData.SampleRate : ℚ) := by exact_mod_cast hrate
    exact float64_pos _ (by positivity)
  have hmono : (if audioData.Channels = 2 then downmixStereoChecked audioData.Samples
        else if audioData.Channels > 2 then
          downmixMultiChecked audioData.Samples audioData.Channels
        else some audioData.Samples)
      = some (if audioData.Channels = 2 then downmixStereo audioData.Samples
        else if audioData.Channels > 2 then
          downmixMulti audioData.Samples audioData.Channels.toNat
        else audioData.Samples) := by
    split_ifs with h2 hgt
    · exact downmixStereoChecked_eq _
    · exact downmixMultiChecked_eq _ _ (by omega)
    · rfl
  unfold ConvertToRNNoiseFormatChecked ConvertToRNNoiseFormat
  simp only [hmono]
  by_cases h48 : audioData.SampleRate = 48000
  · simp only [h48, ne_eq, not_true_eq_false, if_false, Option.map_some']
    exact ⟨_, rfl, rfl⟩
  · simp only [h48, ne_eq, not_false_eq_true, if_true, resampleLoopChecked_eq _ _ hratio,
      Option.map_some']
    exact ⟨_, rfl, rfl⟩

theorem convertSampleRateChecked_eq (audioData : AudioData) (targetSampleRate : Int)
    (hrate : 0 < audioData.SampleRate) (htarget : 0 < targetSampleRate) :
    ∃ out, convertSampleRateChecked audioData targetSampleRate = some out
      ∧ convertSampleRate audioData targetSampleRate = .ok out := by
  have hratio : (0 : ℚ) < float64 ((targetSampleRate : ℚ) / (audioData.SampleRate : ℚ)) := by
    have h1 : (0 : ℚ) < (audioData.SampleRate : ℚ) := by exact_mod_cast hrate
    have h2 : (0 : ℚ) < (targetSampleRate : ℚ) := by exact_mod_cast htarget
    exact float64_pos _ (by positivity)
  unfold convertSampleRateChecked convertSampleRate
  by_cases h : audioData.SampleRate = targetSampleRate
  · simp only [h, if_true]
    exact ⟨_, rfl, rfl⟩
  · simp only [h, if_false, resampleLoopChecked_eq _ _ hratio, Option.map_some']
    exact ⟨_, rfl, rfl⟩

/-! ## Lemmas: the 32-bit codec -/

/-- The rounding error of a value below `2^k`: at most half the spacing
`2^(k-p)` of the binade under `2^k`. -/
theorem roundFloat_sub_le (p : Nat) (v : ℚ) (k : Int) (h : |v| < (2 : ℚ) ^ k) :
    |roundFloat p v - v| ≤ (2 : ℚ) ^ (k - (p : Int)) / 2 := by
  have key : ∀ w : ℚ, 0 < w → w < (2 : ℚ) ^ k →
      |roundMag p w - w| ≤ (2 : ℚ) ^ (k - (p : Int)) / 2 := by
    intro w hw hwk
    have h1 := roundMag_sub_le p w
    have hlog := log_lt_of_lt w k hw hwk
    have hu : ulp p w ≤ (2 : ℚ) ^ (k - (p : Int)) := by
      unfold ulp
      exact zpow_le_zpow_right₀ (by norm_num) (by omega)
    linarith
  rcases lt_trichotomy v 0 with hv | hv | hv
  · have hk := key (-v) (by linarith) (by rwa [abs_of_neg hv] at h)
    have e : roundFloat p v = -roundMag p (-v) := by
      have := roundFloat_neg p (-v)
      rw [neg_neg] at this
      rw [this, roundFloat_of_pos p (-v) (by linarith)]
    rw [e]
    have e2 : -roundMag p (-v) - v = -(roundMag p (-v) - -v) := by ring
    rw [e2, abs_neg]
    exact hk
  · subst hv
    rw [roundFloat_zero]
    simp only [sub_zero, abs_zero]
    positivity
  · rw [roundFloat_of_pos p v hv]
    exact key v hv (by rwa [abs_of_pos hv] at h)

/-- The `float32` rounding error of a value of magnitude at most `2^31`. -/
theorem float32_err_31 (z : ℚ) (h : |z| ≤ 2147483648) : |float32 z - z| ≤ 64 := by
  rcases lt_or_eq_of_le h with hlt | heq
  · have := roundFloat_sub_le 24 z 31 (by norm_num; exact hlt)
    unfold float32
    norm_num at this ⊢
    exact this
  · have hex : float32 (2147483648 : ℚ) = 2147483648 := by
      have := roundFloat_exact 24 (by decide) 1 31 (by decide)
      unfold float32
      norm_num at this ⊢
      exact this
    rcases abs_eq (by norm_num : (0 : ℚ) ≤ 2147483648) |>.1 heq with e | e
    · rw [e, hex]; norm_num
    · have : float32 (-2147483648 : ℚ) = -2147483648 := by
        unfold float32 at hex ⊢
        rw [roundFloat_neg, hex]
      rw [e, this]; norm_num

theorem truncToInt_le_of_le (z : ℚ) (C : Int) (h : z ≤ (C : ℚ)) : truncToInt z ≤ C := by
  unfold truncToInt
  split_ifs with h0
  · have := Int.floor_le z
    have h' : ((⌊z⌋ : Int) : ℚ) ≤ (C : ℚ) := le_trans this h
    exact_mod_cast h'
  · exact Int.ceil_le.2 h

theorem le_truncToInt_of_le (z : ℚ) (C : Int) (h : (C : ℚ) ≤ z) : C ≤ truncToInt z := by
  unfold truncToInt
  split_ifs with h0
  · exact Int.le_floor.2 h
  · have := Int.le_ceil z
    have h' : (C : ℚ) ≤ ((⌈z⌉ : Int) : ℚ) := le_trans h this
    exact_mod_cast h'

/-- At 32 bits the quantised value of a sample in `[-1, 1 - 2^-24]` is in the
range of `int32`. -/
theorem intSampleOf_32_bounds (x : ℚ) (h1 : -1 ≤ x) (h2 : x ≤ 1 - 1 / 2 ^ 24) :
    -2147483648 ≤ intSampleOf 2147483647 x ∧ intSampleOf 2147483647 x ≤ 2147483520 := by
  unfold intSampleOf
  rw [float32_maxInt32]
  have hz1 : x * 2147483648 ≤ ((16777215 : Nat) : ℚ) * (2 : ℚ) ^ (7 : Int) := by
    norm_num at h2 ⊢
    linarith
  have hz2 : -(((8388608 : Nat) : ℚ) * (2 : ℚ) ^ (8 : Int)) ≤ x * 2147483648 := by
    norm_num
    linarith
  have a := roundFloat_le_of_le 24 (by decide) _ 16777215 7 hz1 (by norm_num)
  have b := le_roundFloat_of_le 24 (by decide) _ 8388608 8 hz2 (by norm_num)
  constructor
  · apply le_truncToInt_of_le
    unfold float32
    norm_num at b ⊢
    exact b
  · apply truncToInt_le_of_le
    unfold float32
    norm_num at a ⊢
    exact a

/-- The value of the round trip of one sample of `[-1, 1 - 2^-24]` at 32 bits. -/
theorem roundtrip_value_32 (x : ℚ) (h1 : -1 ≤ x) (h2 : x ≤ 1 - 1 / 2 ^ 24) :
    ConvertBytesToFloat32 (ConvertFloat32ToBytes [x] 32) 32
      = [float32 (intSampleOf 2147483647 x : ℚ) / 2147483648] := by
  have hx1 : x ≤ 1 := by
    have : (0 : ℚ) < 1 / 2 ^ 24 := by positivity
    linarith
  obtain ⟨hq1, hq2⟩ := intSampleOf_32_bounds x h1 h2
  rw [ConvertFloat32ToBytes_32, ConvertBytesToFloat32_32]
  have e : ([x].flatMap fun x => leBytes 4 (intSampleOf 2147483647 (clampSample x)))
      = leBytes 4 (intSampleOf 2147483647 x) := by
    simp [clampSample_of_mem x h1 hx1]
  rw [e, refDecodeRounded_leBytes, leValue_leBytes_four, signedOf_bits32 _ hq1 (by omega)]
  norm_num

/-- The error of the round trip of one sample of `[-1, 1 - 2^-24]` at 32 bits:
two roundings to `float32` and one truncation. -/
theorem roundtrip_32_error (x : ℚ) (h1 : -1 ≤ x) (h2 : x ≤ 1 - 1 / 2 ^ 24) :
    |float32 (intSampleOf 2147483647 x : ℚ) / 2147483648 - x| < 1 / 2 ^ 23 := by
  obtain ⟨hq1, hq2⟩ := intSampleOf_32_bounds x h1 h2
  have hx1 : x ≤ 1 := by
    have : (0 : ℚ) < 1 / 2 ^ 24 := by positivity
    linarith
  have hz : |x * 2147483648| ≤ 2147483648 := by
    rw [abs_le]
    constructor <;> linarith
  have e1 := float32_err_31 (x * 2147483648) hz
  have e2 := truncToInt_err (float32 (x * 2147483648))
  have hq : |((intSampleOf 2147483647 x : Int) : ℚ)| ≤ 2147483648 := by
    rw [abs_le]
    constructor
    · have : ((-2147483648 : Int) : ℚ) ≤ (intSampleOf 2147483647 x : ℚ) := by exact_mod_cast hq1
      norm_num at this ⊢
      exact this
    · have : (intSampleOf 2147483647 x : ℚ) ≤ ((2147483520 : Int) : ℚ) := by exact_mod_cast hq2
      norm_num at this ⊢
      linarith
  have e3 := float32_err_31 _ hq
  have hdef : intSampleOf 2147483647 x = truncToInt (float32 (x * 2147483648)) := by
    unfold intSampleOf
    rw [float32_maxInt32]
  rw [hdef] at e3 ⊢
  rw [abs_le] at e1 e3
  rw [abs_lt] at e2 ⊢
  have hform : float32 ((truncToInt (float32 (x * 2147483648)) : Int) : ℚ) / 2147483648 - x
      = (float32 ((truncToInt (float32 (x * 2147483648)) : Int) : ℚ) - x * 2147483648)
          / 2147483648 := by
    field_simp
    ring
  rw [hform]
  constructor
  · rw [lt_div_iff₀ (by norm_num)]
    norm_num
    linarith [e1.1, e1.2, e2.1, e2.2, e3.1, e3.2]
  · rw [div_lt_iff₀ (by norm_num)]
    norm_num
    linarith [e1.1, e1.2, e2.1, e2.2, e3.1, e3.2]

theorem float32_32767 : float32 32767 = 32767 := by
  have := float32_intCast 32767 (by decide)
  norm_num at this
  exact this

theorem float32_8388607 : float32 8388607 = 8388607 := by
  have := float32_intCast 8388607 (by decide)
  norm_num at this
  exact this

/-- At 32 bits the decoded sample is within `2^-25` of the signed integer over
`2^31`. -/
theorem ConvertBytesToFloat32_32_near (data : List Byte) (i : Nat) (hi : i < data.length / 4) :
    |(ConvertBytesToFloat32 data 32).getD i 0 - (refDecode data 32).getD i 0| ≤ 1 / 2 ^ 25 := by
  rw [ConvertBytesToFloat32_32]
  unfold refDecodeRounded refDecode
  rw [show 32 / 8 = 4 from rfl]
  rw [List.getD_eq_getElem _ _ (by simpa using hi), List.getD_eq_getElem _ _ (by simpa using hi)]
  simp only [List.getElem_map, List.getElem_range]
  obtain ⟨h1, h2⟩ := signedOf_bounds 32 _ (by decide) (leValue_take_lt data (i * 4) 4)
  have hn : |((signedOf 32 (leValue ((data.drop (i * 4)).take 4)) : Int) : ℚ)| ≤ 2147483648 := by
    rw [abs_le]
    constructor
    · have : ((-(2 ^ (32 - 1)) : Int) : ℚ)
          ≤ ((signedOf 32 (leValue ((data.drop (i * 4)).take 4)) : Int) : ℚ) := by
        exact_mod_cast h1
      norm_num at this ⊢
      exact this
    · have : ((signedOf 32 (leValue ((data.drop (i * 4)).take 4)) : Int) : ℚ)
          < (((2 ^ (32 - 1)) : Int) : ℚ) := by
        exact_mod_cast h2
      norm_num at this ⊢
      exact this.le
  have herr := float32_err_31 _ hn
  rw [abs_le] at herr ⊢
  norm_num
  constructor <;> linarith [herr.1, herr.2]

/-! ## Claims -/

/-- C1: `GetFrames` on a buffer tagged 48000 Hz with `L` samples returns no
error and exactly `ceil(L/480)` frames, each of exactly 480 samples, whose
in-order concatenation is the input followed by `480*ceil(L/480) - L` zero
samples; on a buffer tagged with any other sample rate it returns an error
(and so no frames). -/
theorem GetFrames_segments (audioData : AudioData) :
    (audioData.SampleRate = 48000 →
      ∃ frames, GetFrames audioData = .ok frames
        ∧ frames.length = ⌈(audioData.Samples.length : ℚ) / 480⌉₊
        ∧ (∀ f ∈ frames, f.length = 480)
        ∧ frames.flatten = audioData.Samples ++
            List.replicate
              (480 * ⌈(audioData.Samples.length : ℚ) / 480⌉₊ - audioData.Samples.length) 0)
    ∧ (audioData.SampleRate ≠ 48000 →
      GetFrames audioData = .error (.sampleRate audioData.SampleRate)) := by
  constructor
  · intro h
    obtain ⟨samples, rate, ch, bd⟩ := audioData
    simp only at h
    subst h
    rw [← numFramesOf_eq_ceil]
    exact GetFrames_ok samples ch bd
  · intro h
    unfold GetFrames
    rw [if_pos h]

/-- C1 at concrete inputs: three samples at 48000 Hz, and a buffer tagged 8000 Hz. -/
theorem GetFrames_segments_witness :
    (∃ frames, GetFrames ⟨[1, 2, 3], 48000, 1, 16⟩ = .ok frames
        ∧ frames.length = ⌈(([1, 2, 3] : List ℚ).length : ℚ) / 480⌉₊
        ∧ (∀ f ∈ frames, f.length = 480)
        ∧ frames.flatten = [1, 2, 3] ++
            List.replicate (480 * ⌈(([1, 2, 3] : List ℚ).length : ℚ) / 480⌉₊ - 3) 0)
    ∧ GetFrames ⟨[1, 2, 3], 8000, 1, 16⟩ = .error (.sampleRate 8000) :=
  ⟨(GetFrames_segments ⟨[1, 2, 3], 48000, 1, 16⟩).1 rfl,
   (GetFrames_segments ⟨[1, 2, 3], 8000, 1, 16⟩).2 (by decide)⟩

/-- C2: for every input buffer with a positive sample rate, conversion and
framing succeed, and for every denoiser state and every threshold `FilterAudio`
succeeds with `len(VoiceProbabilities) = ProcessedFrames`, both equal to the
number of frames of `GetFrames(ConvertToRNNoiseFormat(input))`, a number fixed
before the threshold is looked at. -/
theorem FilterAudio_probabilities_length {σ : Type} (lib : RNNoiseLib σ)
    (audioData : AudioData) (_hrate : 0 < audioData.SampleRate) :
    ∃ conv frames, ConvertToRNNoiseFormat audioData = .ok conv ∧ GetFrames conv = .ok frames
      ∧ ∀ (state : σ) (t : ℚ), ∃ result state',
          FilterAudio lib state audioData t = (.ok result, state')
          ∧ result.VoiceProbabilities.length = result.ProcessedFrames
          ∧ result.ProcessedFrames = frames.length := by
  obtain ⟨conv, frames, hc, hg, hlen⟩ := frames_of_input audioData
  refine ⟨conv, frames, hc, hg, fun state t => ⟨_, _, FilterAudio_eq lib state audioData t conv frames hc hg hlen, ?_, rfl⟩⟩
  simp [length_runDenoiser]

/-- C2 at a concrete input: 160 silent samples at 8000 Hz. -/
theorem FilterAudio_probabilities_length_witness :
    (0 : Int) < 8000 ∧
    ∃ conv frames,
      ConvertToRNNoiseFormat ⟨List.replicate 160 0, 8000, 1, 16⟩ = .ok conv
      ∧ GetFrames conv = .ok frames
      ∧ ∀ (state : Nat) (t : ℚ), ∃ result state',
          FilterAudio (constLib (1 / 2)) state ⟨List.replicate 160 0, 8000, 1, 16⟩ t
            = (.ok result, state')
          ∧ result.VoiceProbabilities.length = result.ProcessedFrames
          ∧ result.ProcessedFrames = frames.length :=
  ⟨by decide,
   FilterAudio_probabilities_length (constLib (1 / 2)) ⟨List.replicate 160 0, 8000, 1, 16⟩
     (by decide)⟩

/-- C3: for every input tagged 48000 Hz, every denoiser state and every
threshold `t`, the output samples of `FilterAudio` are the in-order
concatenation of the denoised frames of exactly the frames whose probability
`p` satisfies `p >= t`; with `t = 0` and non-negative probabilities every frame
is kept and the output has `480 * ProcessedFrames` samples. -/
theorem FilterAudio_keeps_voiced {σ : Type} (lib : RNNoiseLib σ) (audioData : AudioData)
    (hrate : audioData.SampleRate = 48000) :
    ∃ conv frames, ConvertToRNNoiseFormat audioData = .ok conv ∧ GetFrames conv = .ok frames
      ∧ ∀ (state : σ) (t : ℚ), ∃ result state',
          FilterAudio lib state audioData t = (.ok result, state')
          ∧ result.DenoisedAudio.Samples
              = (((runDenoiser lib state frames).filter fun r => decide (r.1 ≥ t)).map
                  Prod.snd).flatten
          ∧ (t = 0 → (∀ r ∈ runDenoiser lib state frames, 0 ≤ r.1) →
              ((runDenoiser lib state frames).filter fun r => decide (r.1 ≥ t))
                  = runDenoiser lib state frames
              ∧ result.DenoisedAudio.Samples.length = 480 * result.ProcessedFrames) := by
  obtain ⟨conv, frames, hc, hg, hlen⟩ := frames_of_input audioData
  refine ⟨conv, frames, hc, hg, fun state t => ⟨_, _, FilterAudio_eq lib state audioData t conv frames hc hg hlen, ?_, ?_⟩⟩
  · simp [hrate, keptPairs]
  · intro ht hnn
    have hall : ((runDenoiser lib state frames).filter fun r => decide (r.1 ≥ t))
        = runDenoiser lib state frames := by
      rw [List.filter_eq_self]
      intro r hr
      simpa [ht] using hnn r hr
    refine ⟨hall, ?_⟩
    simp only [hrate, ne_eq, not_true_eq_false, if_false, keptPairs]
    rw [hall, length_flatten_of_length 480, List.length_map, length_runDenoiser]
    intro f hf
    obtain ⟨r, hr, rfl⟩ := List.mem_map.1 hf
    exact runDenoiser_output_length lib frames state r hr

/-- C3 at a concrete input: three samples at 48000 Hz. -/
theorem FilterAudio_keeps_voiced_witness :
    ∃ conv frames, ConvertToRNNoiseFormat ⟨[1, 2, 3], 48000, 1, 16⟩ = .ok conv
      ∧ GetFrames conv = .ok frames
      ∧ ∀ (state : Nat) (t : ℚ), ∃ result state',
          FilterAudio (constLib (1 / 2)) state ⟨[1, 2, 3], 48000, 1, 16⟩ t = (.ok result, state')
          ∧ result.DenoisedAudio.Samples
              = (((runDenoiser (constLib (1 / 2)) state frames).filter
                  fun r => decide (r.1 ≥ t)).map Prod.snd).flatten
          ∧ (t = 0 → (∀ r ∈ runDenoiser (constLib (1 / 2)) state frames, 0 ≤ r.1) →
              ((runDenoiser (constLib (1 / 2)) state frames).filter fun r => decide (r.1 ≥ t))
                  = runDenoiser (constLib (1 / 2)) state frames
              ∧ result.DenoisedAudio.Samples.length = 480 * result.ProcessedFrames) :=
  FilterAudio_keeps_voiced (constLib (1 / 2)) ⟨[1, 2, 3], 48000, 1, 16⟩ rfl

/-- C4: threshold monotonicity of `FilterAudio`.  For every input, every
initial denoiser state and thresholds `t1 < t2`, both runs succeed with the
same per-frame probabilities; the frames the loop keeps are the denoiser
outputs at the indices whose probability reaches the threshold, and the index
sequence kept under `t2` is a subsequence of the one kept under `t1` (and so
are the kept frames). -/
theorem FilterAudio_threshold_monotone {σ : Type} (lib : RNNoiseLib σ) (state : σ)
    (audioData : AudioData) (t1 t2 : ℚ) (h : t1 < t2) :
    ∃ conv frames, ConvertToRNNoiseFormat audioData = .ok conv ∧ GetFrames conv = .ok frames
      ∧ ∃ r1 r2 s1 s2 kept1 kept2 z1 z2,
          FilterAudio lib state audioData t1 = (.ok r1, s1)
          ∧ FilterAudio lib state audioData t2 = (.ok r2, s2)
          ∧ r1.VoiceProbabilities = r2.VoiceProbabilities
          ∧ processFrames lib t1 frames state [] [] = (.ok (kept1, r1.VoiceProbabilities), z1)
          ∧ processFrames lib t2 frames state [] [] = (.ok (kept2, r2.VoiceProbabilities), z2)
          ∧ kept1 = (keptIndices t1 r1.VoiceProbabilities).map
              (fun i => ((runDenoiser lib state frames).map Prod.snd).getD i [])
          ∧ kept2 = (keptIndices t2 r2.VoiceProbabilities).map
              (fun i => ((runDenoiser lib state frames).map Prod.snd).getD i [])
          ∧ List.Sublist (keptIndices t2 r2.VoiceProbabilities)
              (keptIndices t1 r1.VoiceProbabilities)
          ∧ List.Sublist kept2 kept1 := by
  obtain ⟨conv, frames, hc, hg, hlen⟩ := frames_of_input audioData
  refine ⟨conv, frames, hc, hg, _, _, _, _,
    (keptPairs t1 (runDenoiser lib state frames)).map Prod.snd,
    (keptPairs t2 (runDenoiser lib state frames)).map Prod.snd,
    finalState lib state frames, finalState lib state frames,
    FilterAudio_eq lib state audioData t1 conv frames hc hg hlen,
    FilterAudio_eq lib state audioData t2 conv frames hc hg hlen, rfl, ?_, ?_, ?_, ?_, ?_, ?_⟩
  · rw [processFrames_eq lib t1 frames hlen]; simp
  · rw [processFrames_eq lib t2 frames hlen]; simp
  · exact keptPairs_eq_keptIndices t1 _
  · exact keptPairs_eq_keptIndices t2 _
  · exact keptIndices_sublist t1 t2 h _
  · exact (keptPairs_sublist t1 t2 h _).map _

/-- C4 at a concrete input: thresholds 1/4 and 3/4 on three samples at 48000 Hz. -/
theorem FilterAudio_threshold_monotone_witness :
    ((1 : ℚ) / 4 < 3 / 4) ∧
    ∃ conv frames, ConvertToRNNoiseFormat ⟨[1, 2, 3], 48000, 1, 16⟩ = .ok conv
      ∧ GetFrames conv = .ok frames
      ∧ ∃ r1 r2 s1 s2 kept1 kept2 z1 z2,
          FilterAudio (constLib (1 / 2)) 0 ⟨[1, 2, 3], 48000, 1, 16⟩ (1 / 4) = (.ok r1, s1)
          ∧ FilterAudio (constLib (1 / 2)) 0 ⟨[1, 2, 3], 48000, 1, 16⟩ (3 / 4) = (.ok r2, s2)
          ∧ r1.VoiceProbabilities = r2.VoiceProbabilities
          ∧ processFrames (constLib (1 / 2)) (1 / 4) frames 0 [] []
              = (.ok (kept1, r1.VoiceProbabilities), z1)
          ∧ processFrames (constLib (1 / 2)) (3 / 4) frames 0 [] []
              = (.ok (kept2, r2.VoiceProbabilities), z2)
          ∧ kept1 = (keptIndices (1 / 4) r1.VoiceProbabilities).map
              (fun i => ((runDenoiser (constLib (1 / 2)) 0 frames).map Prod.snd).getD i [])
          ∧ kept2 = (keptIndices (3 / 4) r2.VoiceProbabilities).map
              (fun i => ((runDenoiser (constLib (1 / 2)) 0 frames).map Prod.snd).getD i [])
          ∧ List.Sublist (keptIndices (3 / 4) r2.VoiceProbabilities)
              (keptIndices (1 / 4) r1.VoiceProbabilities)
          ∧ List.Sublist kept2 kept1 :=
  ⟨by norm_num,
   FilterAudio_threshold_monotone (constLib (1 / 2)) 0 ⟨[1, 2, 3], 48000, 1, 16⟩ (1 / 4) (3 / 4)
     (by norm_num)⟩

/-- C5: for every input buffer with a positive sample rate (48000 or not),
`FilterAudio` returns no error and one probability per frame; if every frame's
probability is below the threshold, `DenoisedAudio.Samples` has length 0. -/
theorem FilterAudio_all_gated {σ : Type} (lib : RNNoiseLib σ) (state : σ)
    (audioData : AudioData) (t : ℚ) (_hrate : 0 < audioData.SampleRate) :
    ∃ conv frames result state',
      ConvertToRNNoiseFormat audioData = .ok conv ∧ GetFrames conv = .ok frames
      ∧ FilterAudio lib state audioData t = (.ok result, state')
      ∧ result.VoiceProbabilities.length = frames.length
      ∧ ((∀ p ∈ result.VoiceProbabilities, p < t) →
          result.DenoisedAudio.Samples.length = 0) := by
  obtain ⟨conv, frames, hc, hg, hlen⟩ := frames_of_input audioData
  refine ⟨conv, frames, _, _, hc, hg, FilterAudio_eq lib state audioData t conv frames hc hg hlen, ?_, ?_⟩
  · simp [length_runDenoiser]
  · intro hall
    have hnil : keptPairs t (runDenoiser lib state frames) = [] := by
      unfold keptPairs
      rw [List.filter_eq_nil_iff]
      intro r hr
      have := hall r.1 (List.mem_map.2 ⟨r, hr, rfl⟩)
      simpa using this
    by_cases h48 : audioData.SampleRate = 48000
    · simp [h48, hnil]
    · simp [h48, hnil, resampleLoop_nil]

/-- C5 at a concrete input: 160 silent samples at 8000 Hz, threshold 1. -/
theorem FilterAudio_all_gated_witness :
    (0 : Int) < 8000 ∧
    ∃ conv frames result state',
      ConvertToRNNoiseFormat ⟨List.replicate 160 0, 8000, 1, 16⟩ = .ok conv
      ∧ GetFrames conv = .ok frames
      ∧ FilterAudio (constLib (1 / 2)) 0 ⟨List.replicate 160 0, 8000, 1, 16⟩ 1
          = (.ok result, state')
      ∧ result.VoiceProbabilities.length = frames.length
      ∧ ((∀ p ∈ result.VoiceProbabilities, p < 1) →
          result.DenoisedAudio.Samples.length = 0) :=
  ⟨by decide,
   FilterAudio_all_gated (constLib (1 / 2)) 0 ⟨List.replicate 160 0, 8000, 1, 16⟩ 1 (by decide)⟩

/-- C6, as stated, fails: at 16 bits the sample `9/10` comes back as
`14745/16384`, at distance `3/81920`, more than `1/32767`. -/
theorem roundtrip_16_exceeds_bound :
    ((-1 : ℚ) ≤ 9 / 10 ∧ (9 : ℚ) / 10 ≤ 1)
    ∧ ConvertBytesToFloat32 (ConvertFloat32ToBytes [9 / 10] 16) 16 = [14745 / 16384]
    ∧ ¬ (|(14745 : ℚ) / 16384 - 9 / 10| ≤ 1 / encodeScale 16) := by
  refine ⟨by norm_num, ?_, ?_⟩
  · rw [roundtrip_value_16, clampSample_of_mem _ (by norm_num) (by norm_num)]
    have hq : intSampleOf 32767 (9 / 10) = 29490 := by
      have hr : float32 (9 / 10 * 32767) = 15099034 / 2 ^ 9 := by
        have := roundFloat_eval_down 24 9 (9 / 10 * 32767) 15099034 (by norm_num) (by norm_num)
          (by norm_num) (by norm_num [abs_lt])
        unfold float32
        rw [this]
        norm_num
      unfold intSampleOf
      rw [float32_32767, hr, truncToInt_of_nonneg _ (by norm_num), Int.floor_eq_iff]
      norm_num
    rw [hq]
    norm_num
  · unfold encodeScale
    rw [abs_of_neg (by norm_num)]
    norm_num

/-- C6, amended: for every sample `x` in `[-1, 1]` the round trip
`ConvertBytesToFloat32(ConvertFloat32ToBytes([x], d), d)` at `d = 16` and at
`d = 24` is a single sample `y` with `|y - x| < 2 / 2^(d-1)`, hence
`|y - x| < 2 / scale(d)` for the encode scale `scale(d) = 2^(d-1) - 1`.  At
`d = 32` the scale is the `float32` nearest to `2147483647`, which is `2^31`;
for `x <= 1 - 2^-24` (the largest `float32` below 1) the round trip is a single
sample `y` with `|y - x| < 2^-23`. -/
theorem codec_roundtrip_bound (x : ℚ) (hx : -1 ≤ x ∧ x ≤ 1) :
    (∃ y : ℚ, ConvertBytesToFloat32 (ConvertFloat32ToBytes [x] 16) 16 = [y]
        ∧ |y - x| < 2 / 2 ^ (16 - 1) ∧ |y - x| < 2 / encodeScale 16)
    ∧ (∃ y : ℚ, ConvertBytesToFloat32 (ConvertFloat32ToBytes [x] 24) 24 = [y]
        ∧ |y - x| < 2 / 2 ^ (24 - 1) ∧ |y - x| < 2 / encodeScale 24)
    ∧ (x ≤ 1 - 1 / 2 ^ 24 →
        ∃ y : ℚ, ConvertBytesToFloat32 (ConvertFloat32ToBytes [x] 32) 32 = [y]
          ∧ |y - x| < 1 / 2 ^ 23) := by
  have hc := clampSample_of_mem x hx.1 hx.2
  refine ⟨?_, ?_, ?_⟩
  · have herr := quantize_error 32767 (by norm_num) x hx
    have hv := roundtrip_value_16 x
    rw [hc] at hv
    norm_num at herr
    refine ⟨_, hv, ?_, ?_⟩
    · norm_num
      exact herr
    · unfold encodeScale
      norm_num
      linarith
  · have herr := quantize_error 8388607 (by norm_num) x hx
    have hv := roundtrip_value_24 x
    rw [hc] at hv
    norm_num at herr
    refine ⟨_, hv, ?_, ?_⟩
    · norm_num
      exact herr
    · unfold encodeScale
      norm_num
      linarith
  · intro h2
    exact ⟨_, roundtrip_value_32 x hx.1 h2, roundtrip_32_error x hx.1 h2⟩

/-- C6 (amended) at a concrete input: the sample `9/10`. -/
theorem codec_roundtrip_bound_witness :
    ((-1 : ℚ) ≤ 9 / 10 ∧ (9 : ℚ) / 10 ≤ 1) ∧ ((9 : ℚ) / 10 ≤ 1 - 1 / 2 ^ 24)
    ∧ (∃ y : ℚ, ConvertBytesToFloat32 (ConvertFloat32ToBytes [9 / 10] 16) 16 = [y]
        ∧ |y - 9 / 10| < 2 / 2 ^ (16 - 1) ∧ |y - 9 / 10| < 2 / encodeScale 16)
    ∧ (∃ y : ℚ, ConvertBytesToFloat32 (ConvertFloat32ToBytes [9 / 10] 24) 24 = [y]
        ∧ |y - 9 / 10| < 2 / 2 ^ (24 - 1) ∧ |y - 9 / 10| < 2 / encodeScale 24)
    ∧ (∃ y : ℚ, ConvertBytesToFloat32 (ConvertFloat32ToBytes [9 / 10] 32) 32 = [y]
          ∧ |y - 9 / 10| < 1 / 2 ^ 23) :=
  ⟨by norm_num, by norm_num,
   (codec_roundtrip_bound (9 / 10) (by norm_num)).1,
   (codec_roundtrip_bound (9 / 10) (by norm_num)).2.1,
   (codec_roundtrip_bound (9 / 10) (by norm_num)).2.2 (by norm_num)⟩

/-- C7, as stated, fails at 32 bits: the bytes `FF FF FF 7F` hold the integer
`2147483647`, whose conversion to `float32` is `2^31`, and the decoded sample
is `1`, neither `2147483647 / 2^31` nor below 1. -/
theorem ConvertBytesToFloat32_32_reaches_one :
    ConvertBytesToFloat32 [0xFF, 0xFF, 0xFF, 0x7F] 32 = [1]
    ∧ refDecode [0xFF, 0xFF, 0xFF, 0x7F] 32 = [2147483647 / 2147483648]
    ∧ ¬ (∀ y ∈ ConvertBytesToFloat32 [0xFF, 0xFF, 0xFF, 0x7F] 32, -1 ≤ y ∧ y < 1) := by
  have hv : leValue ([0xFF, 0xFF, 0xFF, 0x7F] : List Byte) = 2147483647 := by
    decide
  have hs : signedOf 32 2147483647 = 2147483647 := by
    unfold signedOf
    norm_num
  have h1 : ConvertBytesToFloat32 [0xFF, 0xFF, 0xFF, 0x7F] 32 = [1] := by
    rw [ConvertBytesToFloat32_32]
    unfold refDecodeRounded
    simp only [List.length_cons, List.length_nil, Nat.reduceAdd, Nat.reduceDiv, List.range_succ,
      List.range_zero, List.nil_append, List.map_cons, List.map_nil, Nat.zero_mul, List.drop_zero]
    rw [show List.take 4 ([0xFF, 0xFF, 0xFF, 0x7F] : List Byte) = [0xFF, 0xFF, 0xFF, 0x7F] from rfl,
      hv, hs]
    have := float32_maxInt32
    norm_num at this ⊢
    rw [this]
    norm_num
  refine ⟨h1, ?_, ?_⟩
  · unfold refDecode
    simp only [List.length_cons, List.length_nil, Nat.reduceAdd, Nat.reduceDiv, List.range_succ,
      List.range_zero, List.nil_append, List.map_cons, List.map_nil, Nat.zero_mul, List.drop_zero]
    rw [show List.take 4 ([0xFF, 0xFF, 0xFF, 0x7F] : List Byte) = [0xFF, 0xFF, 0xFF, 0x7F] from rfl,
      hv, hs]
    norm_num
  · rw [h1]
    intro h
    have := (h 1 (by simp)).2
    exact absurd this (by norm_num)

/-- C7, amended.  For the bit depths 16 and 24, with `k = d/8`,
`ConvertBytesToFloat32` is the reference decoder: `floor(len/k)` samples, the
`i`-th being the little-endian two's-complement signed `d`-bit integer of
bytes `[i*k, (i+1)*k)` divided by `2^(d-1)`, every sample in `[-1, 1)`,
trailing bytes ignored.  For the bit depth 32 it returns `floor(len/4)`
samples, the `i`-th being the signed 32-bit integer of bytes `[4i, 4i+4)`
rounded to `float32` (24 significant bits) and divided by `2^31`: every sample
lies in `[-1, 1]` and is within `2^-25` of the integer over `2^31`.  For
24-bit the integer is `b0 + 256*b1 + 65536*b2`, minus `2^24` when the top bit
of `b2` is set; for any other bit depth the result is empty. -/
theorem ConvertBytesToFloat32_reference (data : List Byte) (bitDepth : Int) :
    ((bitDepth = 16 ∨ bitDepth = 24) →
      ConvertBytesToFloat32 data bitDepth = refDecode data bitDepth.toNat
      ∧ (ConvertBytesToFloat32 data bitDepth).length = data.length / (bitDepth.toNat / 8)
      ∧ ∀ y ∈ ConvertBytesToFloat32 data bitDepth, -1 ≤ y ∧ y < 1)
    ∧ (ConvertBytesToFloat32 data 32 = refDecodeRounded data
      ∧ (ConvertBytesToFloat32 data 32).length = data.length / 4
      ∧ (∀ y ∈ ConvertBytesToFloat32 data 32, -1 ≤ y ∧ y ≤ 1)
      ∧ ∀ i, i < data.length / 4 →
          |(ConvertBytesToFloat32 data 32).getD i 0 - (refDecode data 32).getD i 0| ≤ 1 / 2 ^ 25)
    ∧ (∀ i, i < data.length / 3 →
        (ConvertBytesToFloat32 data 24).getD i 0
          = ((((byteAt data (i * 3) + 256 * byteAt data (i * 3 + 1)
                + 65536 * byteAt data (i * 3 + 2) : Nat) : Int)
              - (if byteAt data (i * 3 + 2) &&& 0x80 ≠ 0 then 2 ^ 24 else 0) : Int) : ℚ)
            / 2 ^ 23)
    ∧ (bitDepth ≠ 16 → bitDepth ≠ 24 → bitDepth ≠ 32 →
        ConvertBytesToFloat32 data bitDepth = []) := by
  refine ⟨?_, ⟨?_, ?_, ?_, ?_⟩, ?_, ?_⟩
  · intro h
    have heq := ConvertBytesToFloat32_eq_refDecode data bitDepth h
    refine ⟨heq, ?_, ?_⟩
    · rw [heq]; simp [refDecode]
    · rw [heq]
      rcases h with rfl | rfl
      · exact refDecode_range 16 (by decide) (by decide) data
      · exact refDecode_range 24 (by decide) (by decide) data
  · exact ConvertBytesToFloat32_32 data
  · rw [ConvertBytesToFloat32_32]; simp [refDecodeRounded]
  · rw [ConvertBytesToFloat32_32]; exact refDecodeRounded_range data
  · exact ConvertBytesToFloat32_32_near data
  · intro i hi
    have h0 := byteAt_lt data (i * 3)
    have h1 := byteAt_lt data (i * 3 + 1)
    have h2 := byteAt_lt data (i * 3 + 2)
    have htop := top_bit_iff (data.getD (i * 3 + 2) 0)
    have hget : (ConvertBytesToFloat32 data 24).getD i 0
        = ((decode24 data (i * 3) : Int) : ℚ) / 8388608 := by
      unfold ConvertBytesToFloat32
      simp only [show ¬ ((24 : Int) = 16) by decide, if_false, if_true]
      rw [List.getD_eq_getElem _ _ (by simpa using hi)]
      simp only [List.getElem_map, List.getElem_range]
      rw [decode24_eq, float32_signedOf_24 _ (by norm_num; omega)]
    rw [hget, decode24_eq]
    have hval : signedOf 24 (byteAt data (i * 3) + 256 * byteAt data (i * 3 + 1)
          + 65536 * byteAt data (i * 3 + 2))
        = (((byteAt data (i * 3) + 256 * byteAt data (i * 3 + 1)
                + 65536 * byteAt data (i * 3 + 2) : Nat) : Int)
              - (if byteAt data (i * 3 + 2) &&& 0x80 ≠ 0 then 2 ^ 24 else 0) : Int) := by
      unfold signedOf
      by_cases hb : byteAt data (i * 3 + 2) &&& 0x80 ≠ 0
      · have h128 : 128 ≤ byteAt data (i * 3 + 2) := htop.1 hb
        rw [if_pos hb, if_pos (by norm_num; omega)]
      · have h128 : ¬ 128 ≤ byteAt data (i * 3 + 2) := fun h => hb (htop.2 h)
        rw [if_neg hb, if_neg (by norm_num; omega)]
        simp
    rw [hval]
    norm_num
  · intro h16 h24 h32
    simp [ConvertBytesToFloat32, h16, h24, h32]

/-- C7 (amended) at concrete inputs: the byte lists of the repository's test,
at depths 16 and 8, and the first 24-bit sample of `00 00 80`. -/
theorem ConvertBytesToFloat32_reference_witness :
    ((16 : Int) = 16 ∨ (16 : Int) = 24) ∧ (0 < ([0x00, 0x00, 0x80] : List Byte).length / 3)
    ∧ ((8 : Int) ≠ 16 ∧ (8 : Int) ≠ 24 ∧ (8 : Int) ≠ 32)
    ∧ (ConvertBytesToFloat32 [0x00, 0x01, 0xFF, 0x7F] 16
        = refDecode [0x00, 0x01, 0xFF, 0x7F] (16 : Int).toNat
      ∧ (ConvertBytesToFloat32 [0x00, 0x01, 0xFF, 0x7F] 16).length
          = ([0x00, 0x01, 0xFF, 0x7F] : List Byte).length / ((16 : Int).toNat / 8)
      ∧ ∀ y ∈ ConvertBytesToFloat32 [0x00, 0x01, 0xFF, 0x7F] 16, -1 ≤ y ∧ y < 1)
    ∧ (ConvertBytesToFloat32 [0x00, 0x00, 0x80] 24).getD 0 0
          = ((((byteAt [0x00, 0x00, 0x80] (0 * 3) + 256 * byteAt [0x00, 0x00, 0x80] (0 * 3 + 1)
                + 65536 * byteAt [0x00, 0x00, 0x80] (0 * 3 + 2) : Nat) : Int)
              - (if byteAt [0x00, 0x00, 0x80] (0 * 3 + 2) &&& 0x80 ≠ 0 then 2 ^ 24 else 0) : Int) : ℚ)
            / 2 ^ 23
    ∧ ConvertBytesToFloat32 [0x00, 0x01, 0xFF, 0x7F] 8 = [] :=
  ⟨Or.inl rfl, by decide, by decide,
   (ConvertBytesToFloat32_reference [0x00, 0x01, 0xFF, 0x7F] 16).1 (Or.inl rfl),
   (ConvertBytesToFloat32_reference [0x00, 0x00, 0x80] 24).2.2.1 0 (by decide),
   (ConvertBytesToFloat32_reference [0x00, 0x01, 0xFF, 0x7F] 8).2.2.2
     (by decide) (by decide) (by decide)⟩

/-- C8, the code at the failing input.  At 32 bits the untyped constant
`2147483647` becomes the `float32` value `2^31`, so the sample `+1.0` (and
every sample the range limit brings to `+1.0`) is scaled to `2^31`, one more
than the largest `int32`: the claimed bound `|q| <= 2^31 - 1` fails, the bytes
written are `00 00 00 80`, the pattern of `-2^31`, and they decode to `-1.0`.
At 16 and 24 bits the scale is exact and the bound holds: `|q| <= 2^(d-1) - 1`
for every sample, `q` being the truncation of the `float32` product, written
as `d/8` little-endian two's-complement bytes. -/
theorem ConvertFloat32ToBytes_32_overflows :
    float32 2147483647 = 2147483648
    ∧ intSampleOf 2147483647 (clampSample 1) = 2147483648
    ∧ ¬ (|intSampleOf 2147483647 (clampSample 1)| ≤ 2 ^ (32 - 1) - 1)
    ∧ ConvertFloat32ToBytes [1] 32 = [0x00, 0x00, 0x00, 0x80]
    ∧ ConvertBytesToFloat32 (ConvertFloat32ToBytes [1] 32) 32 = [-1]
    ∧ (∀ samples : List ℚ,
        ConvertFloat32ToBytes samples 16
            = samples.flatMap (fun x => leBytes 2 (intSampleOf 32767 (clampSample x)))
        ∧ (ConvertFloat32ToBytes samples 16).length = samples.length * 2
        ∧ ConvertFloat32ToBytes samples 24
            = samples.flatMap (fun x => leBytes 3 (intSampleOf 8388607 (clampSample x)))
        ∧ (ConvertFloat32ToBytes samples 24).length = samples.length * 3
        ∧ (ConvertFloat32ToBytes samples 32).length = samples.length * 4)
    ∧ (∀ x : ℚ, |intSampleOf 32767 (clampSample x)| ≤ 2 ^ (16 - 1) - 1
        ∧ |intSampleOf 8388607 (clampSample x)| ≤ 2 ^ (24 - 1) - 1) := by
  have hq : intSampleOf 2147483647 (clampSample 1) = 2147483648 := by
    have hc : clampSample 1 = 1 := clampSample_of_mem 1 (by norm_num) (by norm_num)
    have hex : float32 (2147483648 : ℚ) = 2147483648 := by
      have := roundFloat_exact 24 (by decide) 1 31 (by decide)
      unfold float32
      norm_num at this ⊢
      exact this
    unfold intSampleOf
    rw [hc, float32_maxInt32, one_mul, hex, truncToInt_of_nonneg _ (by norm_num), Int.floor_eq_iff]
    norm_num
  have hb : ConvertFloat32ToBytes [1] 32 = [0x00, 0x00, 0x00, 0x80] := by
    rw [ConvertFloat32ToBytes_32]
    simp only [List.flatMap_cons, List.flatMap_nil, List.append_nil]
    rw [hq]
    decide
  have hd : ConvertBytesToFloat32 [0x00, 0x00, 0x00, 0x80] 32 = [-1] := by
    have hv : leValue ([0x00, 0x00, 0x00, 0x80] : List Byte) = 2147483648 := by
      decide
    have hs : signedOf 32 2147483648 = -2147483648 := by
      unfold signedOf
      norm_num
    rw [ConvertBytesToFloat32_32]
    unfold refDecodeRounded
    simp only [List.length_cons, List.length_nil, Nat.reduceAdd, Nat.reduceDiv, List.range_succ,
      List.range_zero, List.nil_append, List.map_cons, List.map_nil, Nat.zero_mul, List.drop_zero]
    rw [show List.take 4 ([0x00, 0x00, 0x00, 0x80] : List Byte) = [0x00, 0x00, 0x00, 0x80] from rfl,
      hv, hs]
    have := roundFloat_exact 24 (by decide) (-1) 31 (by decide)
    unfold float32
    norm_num at this ⊢
    rw [this]
    norm_num
  refine ⟨float32_maxInt32, hq, ?_, hb, ?_, ?_, ?_⟩
  · rw [hq]
    norm_num
  · rw [hb, hd]
  · intro samples
    refine ⟨ConvertFloat32ToBytes_16 samples, ?_, ConvertFloat32ToBytes_24 samples, ?_, ?_⟩
    · rw [ConvertFloat32ToBytes_16]
      exact length_flatMap_leBytes _ _ samples
    · rw [ConvertFloat32ToBytes_24]
      exact length_flatMap_leBytes _ _ samples
    · rw [ConvertFloat32ToBytes_32]
      exact length_flatMap_leBytes _ _ samples
  · intro x
    have a := intSampleOf_abs_le 32767 (by norm_num) (clampSample x) (clampSample_abs_le x)
    have b := intSampleOf_abs_le 8388607 (by norm_num) (clampSample x) (clampSample_abs_le x)
    push_cast at a b
    norm_num
    exact ⟨a, b⟩

/-- C9, as stated, fails: with the unsupported bit depth 8 `FilterAudioBytes`
returns a successful (empty) result, not an error. -/
theorem FilterAudioBytes_depth8_no_error :
    (8 : Int) ≠ 16 ∧ (8 : Int) ≠ 24 ∧ (8 : Int) ≠ 32
    ∧ FilterAudioBytes (constLib 1) 0 [1, 2, 3, 4] 48000 1 8 (1 / 2) = (.ok ([], []), 0)
    ∧ ∀ e s, FilterAudioBytes (constLib 1) 0 [1, 2, 3, 4] 48000 1 8 (1 / 2) ≠ (.error e, s) := by
  have h : FilterAudioBytes (constLib 1) 0 [1, 2, 3, 4] 48000 1 8 (1 / 2) = (.ok ([], []), 0) := by
    rfl
  refine ⟨by decide, by decide, by decide, h, ?_⟩
  intro e s
  rw [h]
  simp

/-- C9, amended: for every bit depth other than 16, 24 and 32, every byte
buffer, every positive sample rate, channel count, threshold and denoiser
state, `ConvertBytesToFloat32` returns no samples and `FilterAudioBytes`
returns no error: its result is the empty byte buffer and the empty
probability list, and the denoiser state is unchanged. -/
theorem FilterAudioBytes_unsupported_depth {σ : Type} (lib : RNNoiseLib σ) (state : σ)
    (audioBytes : List Byte) (sampleRate channels bitDepth : Int) (t : ℚ)
    (h16 : bitDepth ≠ 16) (h24 : bitDepth ≠ 24) (h32 : bitDepth ≠ 32)
    (_hrate : 0 < sampleRate) :
    ConvertBytesToFloat32 audioBytes bitDepth = []
    ∧ FilterAudioBytes lib state audioBytes sampleRate channels bitDepth t
        = (.ok ([], []), state) := by
  have hdec : ConvertBytesToFloat32 audioBytes bitDepth = [] := by
    simp [ConvertBytesToFloat32, h16, h24, h32]
  have henc : ∀ samples, ConvertFloat32ToBytes samples bitDepth = [] := by
    intro samples
    simp [ConvertFloat32ToBytes, h16, h24, h32]
  have hconv : ConvertToRNNoiseFormat ⟨[], sampleRate, channels, bitDepth⟩
      = .ok ⟨[], 48000, 1, 16⟩ := by
    simp [ConvertToRNNoiseFormat, downmixStereo, downmixMulti, resampleLoop_nil]
  have hframes : GetFrames ⟨[], 48000, 1, 16⟩ = .ok [] := by
    simp [GetFrames, frameSize]
  refine ⟨hdec, ?_⟩
  unfold FilterAudioBytes
  simp only [hdec]
  rw [FilterAudio_eq lib state ⟨[], sampleRate, channels, bitDepth⟩ t _ [] hconv hframes
    (by simp)]
  simp [henc, runDenoiser, finalState]

/-- C9 (amended) at a concrete input: bit depth 8 at 8000 Hz. -/
theorem FilterAudioBytes_unsupported_depth_witness :
    ConvertBytesToFloat32 [1, 2, 3, 4] 8 = []
    ∧ FilterAudioBytes (constLib 1) 0 [1, 2, 3, 4] 8000 1 8 (1 / 2) = (.ok ([], []), 0) :=
  FilterAudioBytes_unsupported_depth (constLib 1) 0 [1, 2, 3, 4] 8000 1 8 (1 / 2)
    (by decide) (by decide) (by decide) (by decide)

/-- C10, as stated, fails: for a buffer with channel count 0
`ConvertToRNNoiseFormat` returns the samples unchanged and no error, and
`FilterAudio` and `AnalyzeFrames` succeed. -/
theorem ConvertToRNNoiseFormat_zero_channels_no_error :
    (0 : Int) ≤ 0
    ∧ ConvertToRNNoiseFormat ⟨[1, 2], 48000, 0, 16⟩ = .ok ⟨[1, 2], 48000, 1, 16⟩
    ∧ (∀ e, ConvertToRNNoiseFormat ⟨[1, 2], 48000, 0, 16⟩ ≠ .error e)
    ∧ (∃ result state', FilterAudio (constLib 1) 0 ⟨[1, 2], 48000, 0, 16⟩ (1 / 2)
        = (.ok result, state'))
    ∧ ∃ stats state', AnalyzeFrames (constLib 1) 0 ⟨[1, 2], 48000, 0, 16⟩ (1 / 2)
        = (.ok stats, state') := by
  have h : ConvertToRNNoiseFormat ⟨[1, 2], 48000, 0, 16⟩ = .ok ⟨[1, 2], 48000, 1, 16⟩ := by
    rfl
  refine ⟨le_refl _, h, ?_, ?_, AnalyzeFrames_ok _ _ _ _⟩
  · intro e
    rw [h]
    simp
  · obtain ⟨conv, frames, hc, hg, hlen⟩ := frames_of_input ⟨[1, 2], 48000, 0, 16⟩
    exact ⟨_, _, FilterAudio_eq (constLib 1) 0 _ (1 / 2) conv frames hc hg hlen⟩

/-- C10, amended: for every buffer whose channel count is `<= 0` (positive
sample rate) the downmix step is skipped and nothing fails:
`ConvertToRNNoiseFormat` returns no error and a buffer tagged mono / 48000 Hz /
16-bit holding the input samples, resampled when the rate is not 48000 and
unchanged when it is, and `FilterAudio` and `AnalyzeFrames` return a result. -/
theorem ConvertToRNNoiseFormat_nonpositive_channels {σ : Type} (lib : RNNoiseLib σ)
    (state : σ) (audioData : AudioData) (t : ℚ)
    (hch : audioData.Channels ≤ 0) (_hrate : 0 < audioData.SampleRate) :
    ConvertToRNNoiseFormat audioData
        = .ok { Samples :=
                  if audioData.SampleRate ≠ 48000 then
                    resampleLoop audioData.Samples
                      (float64 (48000 / (audioData.SampleRate : ℚ)))
                  else audioData.Samples
                SampleRate := 48000, Channels := 1, BitDepth := 16 }
    ∧ (∃ result state', FilterAudio lib state audioData t = (.ok result, state'))
    ∧ ∃ stats state', AnalyzeFrames lib state audioData t = (.ok stats, state') := by
  refine ⟨?_, ?_, AnalyzeFrames_ok lib state audioData t⟩
  · have h2 : audioData.Channels ≠ 2 := by omega
    have hgt : ¬ audioData.Channels > 2 := by omega
    simp [ConvertToRNNoiseFormat, h2, hgt]
  · obtain ⟨conv, frames, hc, hg, hlen⟩ := frames_of_input audioData
    exact ⟨_, _, FilterAudio_eq lib state audioData t conv frames hc hg hlen⟩

/-- C10 (amended) at a concrete input: channel count 0 at 48000 Hz. -/
theorem ConvertToRNNoiseFormat_nonpositive_channels_witness :
    ConvertToRNNoiseFormat ⟨[1, 2], 48000, 0, 16⟩
        = .ok { Samples :=
                  if (48000 : Int) ≠ 48000 then
                    resampleLoop [1, 2] (float64 (48000 / ((48000 : Int) : ℚ)))
                  else [1, 2]
                SampleRate := 48000, Channels := 1, BitDepth := 16 }
    ∧ (∃ result state', FilterAudio (constLib 1) 0 ⟨[1, 2], 48000, 0, 16⟩ (1 / 2)
        = (.ok result, state'))
    ∧ ∃ stats state', AnalyzeFrames (constLib 1) 0 ⟨[1, 2], 48000, 0, 16⟩ (1 / 2)
        = (.ok stats, state') :=
  ConvertToRNNoiseFormat_nonpositive_channels (constLib 1) 0 ⟨[1, 2], 48000, 0, 16⟩ (1 / 2)
    (by decide) (by decide)

/-- C11, as stated, fails: for 147 mono samples at 14112 Hz both resamplers
return 499 samples at 48000 Hz, not `floor(147 * 48000 / 14112) = 500`.  The
`float64` ratio `48000/14112` is below `500/147`, and its `float64` product
with 147 is below 500. -/
theorem resample_length_below_floor :
    (∃ r, ConvertToRNNoiseFormat ⟨List.replicate 147 0, 14112, 1, 16⟩ = .ok r
        ∧ r.Samples.length = 499)
    ∧ (∃ r, convertSampleRate ⟨List.replicate 147 0, 14112, 1, 16⟩ 48000 = .ok r
        ∧ r.Samples.length = 499)
    ∧ (List.replicate 147 (0 : ℚ)).length * 48000 / 14112 = 500 := by
  have hratio : float64 ((48000 : ℚ) / 14112) = 7659183039745741 / 2 ^ 51 := by
    have := roundFloat_eval_down 53 51 ((48000 : ℚ) / 14112) 7659183039745741 (by norm_num)
      (by norm_num) (by norm_num) (by norm_num [abs_lt])
    unfold float64
    rw [this]
    norm_num
  have hprod : float64 ((147 : ℚ) * (7659183039745741 / 2 ^ 51)) = 8796093022207999 / 2 ^ 44 := by
    have := roundFloat_eval_down 53 44 ((147 : ℚ) * (7659183039745741 / 2 ^ 51)) 8796093022207999
      (by norm_num) (by norm_num) (by norm_num) (by norm_num [abs_lt])
    unfold float64
    rw [this]
    norm_num
  have hlen : (refResample (List.replicate 147 0) 14112 48000).length = 499 := by
    rw [length_refResample _ _ _ (by decide), List.length_replicate]
    push_cast
    rw [hratio, hprod, Nat.floor_eq_iff (by norm_num)]
    norm_num
  refine ⟨⟨_, ConvertToRNNoiseFormat_mono (List.replicate 147 0) 14112 (by decide) 16, hlen⟩,
    ⟨_, convertSampleRate_eq (List.replicate 147 0) 14112 48000 (by decide) (by decide) 1 16,
      hlen⟩, ?_⟩
  rw [List.length_replicate]

/-- C11, amended: both resamplers compute the specified linear interpolator
with its steps taken in `float64`.  For positive rates, the 48000 Hz step of
`ConvertToRNNoiseFormat` on a mono input and `convertSampleRate` return
`refResample`: the samples unchanged when the rates are equal, otherwise, with
`ratio = float64(dstRate / srcRate)`, `floor(float64(len * ratio))` samples,
output `i` being `samples[idx]*(1-frac) + samples[idx+1]*frac` with
`srcIndex = float64(i / ratio)`, `idx = floor(srcIndex)` and
`frac = srcIndex - idx`, or the last input sample when `idx >= len-1`.  When
`dstRate` is a multiple `m * srcRate` and `len * m < 2^53` the length is
exactly `len * m`; 160 mono samples at 8000 Hz become 960 samples at
48000 Hz. -/
theorem resamplers_interpolate (samples : List ℚ) (srcRate dstRate : Nat) (ch bd : Int)
    (hs : 0 < srcRate) (hd : 0 < dstRate) :
    ConvertToRNNoiseFormat ⟨samples, (srcRate : Int), 1, bd⟩
        = .ok ⟨refResample samples srcRate 48000, 48000, 1, 16⟩
    ∧ convertSampleRate ⟨samples, (srcRate : Int), ch, bd⟩ (dstRate : Int)
        = .ok ⟨refResample samples srcRate dstRate, (dstRate : Int), ch, bd⟩
    ∧ refResample samples srcRate srcRate = samples
    ∧ (srcRate ≠ dstRate →
        (refResample samples srcRate dstRate).length
          = ⌊float64 ((samples.length : ℚ) * float64 ((dstRate : ℚ) / (srcRate : ℚ)))⌋₊)
    ∧ (∀ m : Nat, dstRate = m * srcRate → samples.length * m < 2 ^ 53 →
        (refResample samples srcRate dstRate).length = samples.length * m)
    ∧ (samples.length = 160 →
        ∃ r, ConvertToRNNoiseFormat ⟨samples, 8000, 1, 16⟩ = .ok r ∧ r.Samples.length = 960) := by
  refine ⟨ConvertToRNNoiseFormat_mono samples srcRate hs bd,
    convertSampleRate_eq samples srcRate dstRate hs hd ch bd, ?_,
    length_refResample samples srcRate dstRate, ?_, ?_⟩
  · simp [refResample]
  · intro m hm hlt
    exact length_refResample_of_multiple samples srcRate dstRate m hs hm hlt
  · intro hlen
    refine ⟨_, ConvertToRNNoiseFormat_mono samples 8000 (by decide) 16, ?_⟩
    show (refResample samples 8000 48000).length = 960
    rw [length_refResample_of_multiple samples 8000 48000 6 (by decide) (by decide)
      (by rw [hlen]; norm_num), hlen]

/-- C11 (amended) at a concrete input: 160 silent samples from 8000 Hz, target
16000 Hz. -/
theorem resamplers_interpolate_witness :
    ((0 < 8000 ∧ 0 < 16000) ∧ (8000 : Nat) ≠ 16000 ∧ 16000 = 2 * 8000
      ∧ (List.replicate 160 (0 : ℚ)).length * 2 < 2 ^ 53
      ∧ (List.replicate 160 (0 : ℚ)).length = 160)
    ∧ ConvertToRNNoiseFormat ⟨List.replicate 160 0, ((8000 : Nat) : Int), 1, 16⟩
        = .ok ⟨refResample (List.replicate 160 0) 8000 48000, 48000, 1, 16⟩
    ∧ convertSampleRate ⟨List.replicate 160 0, ((8000 : Nat) : Int), 1, 16⟩ ((16000 : Nat) : Int)
        = .ok ⟨refResample (List.replicate 160 0) 8000 16000, ((16000 : Nat) : Int), 1, 16⟩
    ∧ refResample (List.replicate 160 0) 8000 8000 = List.replicate 160 0
    ∧ (refResample (List.replicate 160 0) 8000 16000).length
          = ⌊float64 (((List.replicate 160 (0 : ℚ)).length : ℚ)
              * float64 (((16000 : Nat) : ℚ) / ((8000 : Nat) : ℚ)))⌋₊
    ∧ (refResample (List.replicate 160 0) 8000 16000).length
          = (List.replicate 160 (0 : ℚ)).length * 2
    ∧ ∃ r, ConvertToRNNoiseFormat ⟨List.replicate 160 0, 8000, 1, 16⟩ = .ok r
          ∧ r.Samples.length = 960 :=
  ⟨⟨⟨by decide, by decide⟩, by decide, by decide, by simp, by simp⟩,
   (resamplers_interpolate (List.replicate 160 0) 8000 16000 1 16 (by decide) (by decide)).1,
   (resamplers_interpolate (List.replicate 160 0) 8000 16000 1 16 (by decide) (by decide)).2.1,
   (resamplers_interpolate (List.replicate 160 0) 8000 16000 1 16 (by decide) (by decide)).2.2.1,
   (resamplers_interpolate (List.replicate 160 0) 8000 16000 1 16 (by decide)
     (by decide)).2.2.2.1 (by decide),
   (resamplers_interpolate (List.replicate 160 0) 8000 16000 1 16 (by decide)
     (by decide)).2.2.2.2.1 2 (by decide) (by simp),
   (resamplers_interpolate (List.replicate 160 0) 8000 16000 1 16 (by decide)
     (by decide)).2.2.2.2.2 (by simp)⟩

/-- C12: `FilterStream` returns an error if and only if the frame length is
not exactly 480; then it returns a nil frame, probability 0 and keep = false,
and the denoiser state is unchanged (the library is not called).  For a frame
of 480 samples it makes one library call (the state after is the state of that
one call) and returns the frame and the probability `p` of `ProcessFrame`
unchanged, with keep = `(p >= threshold)`. -/
theorem FilterStream_contract {σ : Type} (lib : RNNoiseLib σ) (state : σ) (frame : List ℚ)
    (t : ℚ) :
    ((FilterStream lib state frame t).1.2.2.2 ≠ none ↔ frame.length ≠ 480)
    ∧ (frame.length ≠ 480 →
        FilterStream lib state frame t
          = (([], 0, false, some (.streamFrameSize frame.length)), state))
    ∧ (frame.length = 480 →
        ∃ p denoised state',
          lib.rnnoise_process_frame state (frame.map fun sample => sample * 32768)
            = (p, denoised, state')
          ∧ ProcessFrame lib state frame
            = (.ok (p, denoised.map fun sample => sample / 32768), state')
          ∧ FilterStream lib state frame t
            = ((denoised.map fun sample => sample / 32768, p, decide (p ≥ t), none), state')) := by
  have hbad : frame.length ≠ 480 →
      FilterStream lib state frame t
        = (([], 0, false, some (.streamFrameSize frame.length)), state) := by
    intro h
    unfold FilterStream
    rw [if_pos h]
  have hgood : frame.length = 480 →
      FilterStream lib state frame t
        = (((denoise lib state frame).1.2, (denoise lib state frame).1.1,
            decide ((denoise lib state frame).1.1 ≥ t), none), (denoise lib state frame).2) := by
    intro h
    unfold FilterStream
    rw [if_neg (by simp [h]), ProcessFrame_of_length lib state frame h]
  refine ⟨?_, hbad, ?_⟩
  · by_cases h : frame.length = 480
    · rw [hgood h]
      simp [h]
    · rw [hbad h]
      simp [h]
  · intro h
    refine ⟨(lib.rnnoise_process_frame state (frame.map fun sample => sample * 32768)).1,
      (lib.rnnoise_process_frame state (frame.map fun sample => sample * 32768)).2.1,
      (lib.rnnoise_process_frame state (frame.map fun sample => sample * 32768)).2.2,
      rfl, ?_, ?_⟩
    · rw [ProcessFrame_of_length lib state frame h]
      rfl
    · rw [hgood h]
      rfl

/-- C12 at concrete inputs: a frame of 479 samples and a frame of 480 samples
with a library that counts its calls. -/
theorem FilterStream_contract_witness :
    FilterStream (echoLib (1 / 2)) 0 (List.replicate 479 0) (1 / 4)
        = (([], 0, false, some (.streamFrameSize (List.replicate 479 (0 : ℚ)).length)), 0)
    ∧ ∃ p denoised state',
        (echoLib (1 / 2)).rnnoise_process_frame 0
            ((List.replicate 480 (0 : ℚ)).map fun sample => sample * 32768)
          = (p, denoised, state')
        ∧ ProcessFrame (echoLib (1 / 2)) 0 (List.replicate 480 0)
          = (.ok (p, denoised.map fun sample => sample / 32768), state')
        ∧ FilterStream (echoLib (1 / 2)) 0 (List.replicate 480 0) (1 / 4)
          = ((denoised.map fun sample => sample / 32768, p, decide (p ≥ 1 / 4), none), state') :=
  ⟨(FilterStream_contract (echoLib (1 / 2)) 0 (List.replicate 479 0) (1 / 4)).2.1
      (by rw [List.length_replicate]; decide),
   (FilterStream_contract (echoLib (1 / 2)) 0 (List.replicate 480 0) (1 / 4)).2.2
      (List.length_replicate _ _)⟩

/-- C13: for every input buffer (positive sample rate) and threshold,
`AnalyzeFrames` and `FilterAudio` run from the same initial denoiser state both
succeed and agree: `TotalFrames = ProcessedFrames`, and `VoiceFrames` is the
number of probabilities `p` in `VoiceProbabilities` with `p >= threshold`,
which is the number of frames the loop of `FilterAudio` keeps and, for a
48000 Hz input, `len(DenoisedAudio.Samples) / 480`; both leave the denoiser in
the same state. -/
theorem AnalyzeFrames_agrees_with_FilterAudio {σ : Type} (lib : RNNoiseLib σ) (state : σ)
    (audioData : AudioData) (t : ℚ) (_hrate : 0 < audioData.SampleRate) :
    ∃ conv frames stats result s1 s2 kept z,
      ConvertToRNNoiseFormat audioData = .ok conv ∧ GetFrames conv = .ok frames
      ∧ AnalyzeFrames lib state audioData t = (.ok stats, s1)
      ∧ FilterAudio lib state audioData t = (.ok result, s2)
      ∧ s1 = s2
      ∧ stats.TotalFrames = (result.ProcessedFrames : Int)
      ∧ stats.VoiceFrames
          = ((result.VoiceProbabilities.countP fun p => decide (p ≥ t) : Nat) : Int)
      ∧ processFrames lib t frames state [] [] = (.ok (kept, result.VoiceProbabilities), z)
      ∧ stats.VoiceFrames = ((kept.length : Nat) : Int)
      ∧ (audioData.SampleRate = 48000 →
          ((result.DenoisedAudio.Samples.length : Nat) : Int) = 480 * stats.VoiceFrames
          ∧ stats.VoiceFrames = ((result.DenoisedAudio.Samples.length / 480 : Nat) : Int)) := by
  obtain ⟨conv, frames, hc, hg, hlen⟩ := frames_of_input audioData
  obtain ⟨stats, hA, hT, hV, _⟩ := AnalyzeFrames_counts lib state audioData t conv frames hc hg hlen
  have hk := length_keptPairs t (runDenoiser lib state frames)
  refine ⟨conv, frames, stats, _, _, _,
    (keptPairs t (runDenoiser lib state frames)).map Prod.snd, finalState lib state frames,
    hc, hg, hA, FilterAudio_eq lib state audioData t conv frames hc hg hlen, rfl, hT, hV, ?_, ?_, ?_⟩
  · rw [processFrames_eq lib t frames hlen]; simp
  · rw [hV, List.length_map, hk]
  · intro h48
    have hflat : ((keptPairs t (runDenoiser lib state frames)).map Prod.snd).flatten.length
        = 480 * (keptPairs t (runDenoiser lib state frames)).length := by
      rw [length_flatten_of_length 480, List.length_map]
      intro f hf
      obtain ⟨r, hr, rfl⟩ := List.mem_map.1 hf
      exact runDenoiser_output_length lib frames state r (List.mem_of_mem_filter hr)
    simp only [h48, ne_eq, not_true_eq_false, if_false]
    rw [hflat, hV, ← hk]
    constructor
    · push_cast; ring
    · rw [Nat.mul_div_cancel_left _ (by decide : 0 < 480)]

/-- C13 at a concrete input: three samples at 48000 Hz, threshold 1/4. -/
theorem AnalyzeFrames_agrees_with_FilterAudio_witness :
    (0 : Int) < 48000 ∧
    ∃ conv frames stats result s1 s2 kept z,
      ConvertToRNNoiseFormat ⟨[1, 2, 3], 48000, 1, 16⟩ = .ok conv ∧ GetFrames conv = .ok frames
      ∧ AnalyzeFrames (constLib (1 / 2)) 0 ⟨[1, 2, 3], 48000, 1, 16⟩ (1 / 4) = (.ok stats, s1)
      ∧ FilterAudio (constLib (1 / 2)) 0 ⟨[1, 2, 3], 48000, 1, 16⟩ (1 / 4) = (.ok result, s2)
      ∧ s1 = s2
      ∧ stats.TotalFrames = (result.ProcessedFrames : Int)
      ∧ stats.VoiceFrames
          = ((result.VoiceProbabilities.countP fun p => decide (p ≥ 1 / 4) : Nat) : Int)
      ∧ processFrames (constLib (1 / 2)) (1 / 4) frames 0 [] []
          = (.ok (kept, result.VoiceProbabilities), z)
      ∧ stats.VoiceFrames = ((kept.length : Nat) : Int)
      ∧ ((48000 : Int) = 48000 →
          ((result.DenoisedAudio.Samples.length : Nat) : Int) = 480 * stats.VoiceFrames
          ∧ stats.VoiceFrames = ((result.DenoisedAudio.Samples.length / 480 : Nat) : Int)) :=
  ⟨by decide,
   AnalyzeFrames_agrees_with_FilterAudio (constLib (1 / 2)) 0 ⟨[1, 2, 3], 48000, 1, 16⟩ (1 / 4)
     (by decide)⟩

/-- C14: for every input (positive sample rate) and threshold, `AnalyzeFrames`
succeeds and its statistics satisfy `VoiceFrames + NoiseFrames == TotalFrames`,
with `TotalFrames` the number of frames segmented from the converted input. -/
theorem AnalyzeFrames_partition {σ : Type} (lib : RNNoiseLib σ) (state : σ)
    (audioData : AudioData) (t : ℚ) (_hrate : 0 < audioData.SampleRate) :
    ∃ conv frames stats state',
      ConvertToRNNoiseFormat audioData = .ok conv ∧ GetFrames conv = .ok frames
      ∧ AnalyzeFrames lib state audioData t = (.ok stats, state')
      ∧ stats.VoiceFrames + stats.NoiseFrames = stats.TotalFrames
      ∧ stats.TotalFrames = ((frames.length : Nat) : Int) := by
  obtain ⟨conv, frames, hc, hg, hlen⟩ := frames_of_input audioData
  obtain ⟨stats, hA, hT, _, hVN⟩ :=
    AnalyzeFrames_counts lib state audioData t conv frames hc hg hlen
  exact ⟨conv, frames, stats, _, hc, hg, hA, by rw [hVN, hT], hT⟩

/-- C14 at a concrete input: 160 silent samples at 8000 Hz. -/
theorem AnalyzeFrames_partition_witness :
    (0 : Int) < 8000 ∧
    ∃ conv frames stats state',
      ConvertToRNNoiseFormat ⟨List.replicate 160 0, 8000, 1, 16⟩ = .ok conv
      ∧ GetFrames conv = .ok frames
      ∧ AnalyzeFrames (constLib (1 / 2)) 0 ⟨List.replicate 160 0, 8000, 1, 16⟩ (3 / 4)
          = (.ok stats, state')
      ∧ stats.VoiceFrames + stats.NoiseFrames = stats.TotalFrames
      ∧ stats.TotalFrames = ((frames.length : Nat) : Int) :=
  ⟨by decide,
   AnalyzeFrames_partition (constLib (1 / 2)) 0 ⟨List.replicate 160 0, 8000, 1, 16⟩ (3 / 4)
     (by decide)⟩

/-- C15: for an input with zero samples (positive sample rate, any channel
count) and any threshold, the converted input has zero frames and
`AnalyzeFrames` returns no error and the statistics `TotalFrames = 0`,
`VoiceFrames = 0`, `NoiseFrames = 0`, `AverageVoiceProb = 0`, `MaxVoiceProb = 0`
and `MinVoiceProb = 1`, without a call of the denoiser; the same statistics are
returned whenever the converted input has zero frames. -/
theorem AnalyzeFrames_zero_frames {σ : Type} (lib : RNNoiseLib σ) (state : σ)
    (audioData : AudioData) (t : ℚ) (_hrate : 0 < audioData.SampleRate) :
    (audioData.Samples = [] →
      (∃ conv, ConvertToRNNoiseFormat audioData = .ok conv ∧ GetFrames conv = .ok [])
      ∧ AnalyzeFrames lib state audioData t
          = (.ok { TotalFrames := 0, VoiceFrames := 0, NoiseFrames := 0
                   AverageVoiceProb := 0, MaxVoiceProb := 0, MinVoiceProb := 1 }, state))
    ∧ (∀ conv, ConvertToRNNoiseFormat audioData = .ok conv → GetFrames conv = .ok [] →
        AnalyzeFrames lib state audioData t
          = (.ok { TotalFrames := 0, VoiceFrames := 0, NoiseFrames := 0
                   AverageVoiceProb := 0, MaxVoiceProb := 0, MinVoiceProb := 1 }, state)) := by
  have hgen : ∀ conv, ConvertToRNNoiseFormat audioData = .ok conv → GetFrames conv = .ok [] →
      AnalyzeFrames lib state audioData t
        = (.ok { TotalFrames := 0, VoiceFrames := 0, NoiseFrames := 0
                 AverageVoiceProb := 0, MaxVoiceProb := 0, MinVoiceProb := 1 }, state) := by
    intro conv hc hg
    unfold AnalyzeFrames
    rw [hc]
    simp only
    rw [hg]
    simp [analyzeLoop]
  refine ⟨?_, hgen⟩
  intro hs
  obtain ⟨samples, rate, ch, bd⟩ := audioData
  simp only at hs
  subst hs
  exact ⟨⟨_, ConvertToRNNoiseFormat_nil rate ch bd, GetFrames_nil⟩,
    hgen _ (ConvertToRNNoiseFormat_nil rate ch bd) GetFrames_nil⟩

/-- C15 at a concrete input: the empty stereo buffer at 44100 Hz. -/
theorem AnalyzeFrames_zero_frames_witness :
    (∃ conv, ConvertToRNNoiseFormat ⟨[], 44100, 2, 16⟩ = .ok conv ∧ GetFrames conv = .ok [])
    ∧ AnalyzeFrames (constLib (1 / 2)) 7 ⟨[], 44100, 2, 16⟩ (1 / 2)
        = (.ok { TotalFrames := 0, VoiceFrames := 0, NoiseFrames := 0
                 AverageVoiceProb := 0, MaxVoiceProb := 0, MinVoiceProb := 1 }, 7) :=
  (AnalyzeFrames_zero_frames (constLib (1 / 2)) 7 ⟨[], 44100, 2, 16⟩ (1 / 2) (by decide)).1 rfl

/-- C16: for every input buffer with a channel count `>= 1` and a positive
sample rate (any bit depth), `FilterAudio` succeeds and the returned
`DenoisedAudio` is tagged with the input's sample rate and with exactly 1
channel: the sample rate is restored, the channel count is not. -/
theorem FilterAudio_output_format {σ : Type} (lib : RNNoiseLib σ) (state : σ)
    (audioData : AudioData) (t : ℚ)
    (_hch : 1 ≤ audioData.Channels) (_hrate : 0 < audioData.SampleRate) :
    ∃ result state', FilterAudio lib state audioData t = (.ok result, state')
      ∧ result.DenoisedAudio.SampleRate = audioData.SampleRate
      ∧ result.DenoisedAudio.Channels = 1 := by
  obtain ⟨conv, frames, hc, hg, hlen⟩ := frames_of_input audioData
  refine ⟨_, _, FilterAudio_eq lib state audioData t conv frames hc hg hlen, ?_, ?_⟩
  · by_cases h : audioData.SampleRate = 48000
    · simp [h]
    · simp [h]
  · by_cases h : audioData.SampleRate = 48000
    · simp [h]
    · simp [h]

/-- C16 at a concrete input: a stereo buffer at 44100 Hz, 24-bit. -/
theorem FilterAudio_output_format_witness :
    ∃ result state',
      FilterAudio (constLib (1 / 2)) 0 ⟨[1, 2, 3, 4], 44100, 2, 24⟩ (1 / 4) = (.ok result, state')
      ∧ result.DenoisedAudio.SampleRate = (⟨[1, 2, 3, 4], 44100, 2, 24⟩ : AudioData).SampleRate
      ∧ result.DenoisedAudio.Channels = 1 :=
  FilterAudio_output_format (constLib (1 / 2)) 0 ⟨[1, 2, 3, 4], 44100, 2, 24⟩ (1 / 4)
    (by decide) (by decide)

/-- C17: end-to-end example.  For 8000 zero samples tagged 8000 Hz, mono,
16-bit, threshold 0 and any denoiser returning non-negative probabilities, the
converted input has 48000 samples in 100 frames, `FilterAudio` succeeds with
`ProcessedFrames = 100` and 100 probabilities, the loop keeps all 100 frames
(48000 intermediate samples), and the result is tagged 8000 Hz with 8000
samples. -/
theorem FilterAudio_one_second_of_silence {σ : Type} (lib : RNNoiseLib σ) (state : σ)
    (hnn : ∀ st inp, 0 ≤ (lib.rnnoise_process_frame st inp).1) :
    ∃ conv frames result state' kept z,
      ConvertToRNNoiseFormat ⟨List.replicate 8000 0, 8000, 1, 16⟩ = .ok conv
      ∧ conv.Samples.length = 48000
      ∧ GetFrames conv = .ok frames
      ∧ frames.length = 100
      ∧ FilterAudio lib state ⟨List.replicate 8000 0, 8000, 1, 16⟩ 0 = (.ok result, state')
      ∧ result.ProcessedFrames = 100
      ∧ result.VoiceProbabilities.length = 100
      ∧ processFrames lib 0 frames state [] [] = (.ok (kept, result.VoiceProbabilities), z)
      ∧ kept.length = 100
      ∧ kept.flatten.length = 48000
      ∧ result.DenoisedAudio.SampleRate = 8000
      ∧ result.DenoisedAudio.Samples.length = 8000 := by
  have hc : ConvertToRNNoiseFormat ⟨List.replicate 8000 0, 8000, 1, 16⟩
      = .ok ⟨refResample (List.replicate 8000 0) 8000 48000, 48000, 1, 16⟩ :=
    ConvertToRNNoiseFormat_mono (List.replicate 8000 0) 8000 (by decide) 16
  have hclen : (refResample (List.replicate 8000 (0 : ℚ)) 8000 48000).length = 48000 := by
    rw [length_refResample_of_multiple _ 8000 48000 6 (by decide) (by decide)
      (by rw [List.length_replicate]; norm_num), List.length_replicate]
  obtain ⟨frames, hg, hn, hlen, _⟩ :=
    GetFrames_ok (refResample (List.replicate 8000 0) 8000 48000) 1 16
  have hn100 : frames.length = 100 := by
    rw [hn, hclen]
    rfl
  have hkeep := keptPairs_zero_of_nonneg (runDenoiser lib state frames)
    (runDenoiser_nonneg lib hnn frames state)
  have hflat : ((runDenoiser lib state frames).map Prod.snd).flatten.length = 48000 := by
    rw [length_flatten_of_length 480, List.length_map, length_runDenoiser, hn100]
    intro f hf
    obtain ⟨r, hr, rfl⟩ := List.mem_map.1 hf
    exact runDenoiser_output_length lib frames state r hr
  refine ⟨⟨refResample (List.replicate 8000 0) 8000 48000, 48000, 1, 16⟩, frames, _, _,
    (runDenoiser lib state frames).map Prod.snd, finalState lib state frames, hc, ?_, hg, hn100,
    FilterAudio_eq lib state _ 0 _ frames hc hg hlen, hn100, ?_, ?_, ?_, hflat, ?_, ?_⟩
  · dsimp only
    exact hclen
  · simp [length_runDenoiser, hn100]
  · rw [processFrames_eq lib 0 frames hlen, hkeep]; simp
  · rw [List.length_map, length_runDenoiser, hn100]
  · simp
  · simp only [show ((8000 : Int) ≠ 48000) by decide, ne_eq, not_false_eq_true, if_true]
    rw [length_resampleLoop, hkeep, hflat]
    have hratio : float64 ((8000 : ℚ) / 48000) = 6004799503160661 / 2 ^ 55 := by
      have := roundFloat_eval_down 53 55 ((8000 : ℚ) / 48000) 6004799503160661 (by norm_num)
        (by norm_num) (by norm_num) (by norm_num [abs_lt])
      unfold float64
      rw [this]
      norm_num
    have hprod : float64 ((48000 : ℚ) * (6004799503160661 / 2 ^ 55)) = 8000 := by
      have := roundFloat_eval_down 53 40 ((48000 : ℚ) * (6004799503160661 / 2 ^ 55))
        8796093022208000 (by norm_num) (by norm_num) (by norm_num) (by norm_num [abs_lt])
      unfold float64
      rw [this]
      norm_num
    push_cast
    rw [hratio, hprod]
    exact Nat.floor_natCast 8000

/-- C17 with a concrete denoiser: constant probability 1/2. -/
theorem FilterAudio_one_second_of_silence_witness :
    ∃ conv frames result state' kept z,
      ConvertToRNNoiseFormat ⟨List.replicate 8000 0, 8000, 1, 16⟩ = .ok conv
      ∧ conv.Samples.length = 48000
      ∧ GetFrames conv = .ok frames
      ∧ frames.length = 100
      ∧ FilterAudio (constLib (1 / 2)) 0 ⟨List.replicate 8000 0, 8000, 1, 16⟩ 0
          = (.ok result, state')
      ∧ result.ProcessedFrames = 100
      ∧ result.VoiceProbabilities.length = 100
      ∧ processFrames (constLib (1 / 2)) 0 frames 0 [] []
          = (.ok (kept, result.VoiceProbabilities), z)
      ∧ kept.length = 100
      ∧ kept.flatten.length = 48000
      ∧ result.DenoisedAudio.SampleRate = 8000
      ∧ result.DenoisedAudio.Samples.length = 8000 :=
  FilterAudio_one_second_of_silence (constLib (1 / 2)) 0 (by
    intro st inp
    show (0 : ℚ) ≤ 1 / 2
    norm_num)

/-- C18: downmix inside `ConvertToRNNoiseFormat`, for a 48000 Hz input of `n`
interleaved samples with `c` channels.  For `c == 1` the samples are returned
unchanged; for `c >= 2` the output has `floor(n/c)` samples, output `i` being
the arithmetic mean of the input samples `i*c .. i*c+c-1` (for `c == 2` this is
`(s[2i] + s[2i+1]) / 2`); the result is tagged mono / 48000 Hz / 16-bit. -/
theorem ConvertToRNNoiseFormat_downmix (samples : List ℚ) (c bd : Int) :
    (c = 1 → ConvertToRNNoiseFormat ⟨samples, 48000, c, bd⟩ = .ok ⟨samples, 48000, 1, 16⟩)
    ∧ (2 ≤ c →
        ConvertToRNNoiseFormat ⟨samples, 48000, c, bd⟩
          = .ok ⟨refDownmix samples c.toNat, 48000, 1, 16⟩
        ∧ (refDownmix samples c.toNat).length = samples.length / c.toNat)
    ∧ (∀ i, i < samples.length / 2 →
        (refDownmix samples 2).getD i 0
          = (samples.getD (2 * i) 0 + samples.getD (2 * i + 1) 0) / 2) := by
  refine ⟨?_, ?_, ?_⟩
  · intro h1
    subst h1
    simp [ConvertToRNNoiseFormat]
  · intro h2
    refine ⟨?_, by simp [refDownmix]⟩
    by_cases hc : c = 2
    · subst hc
      simp only [ConvertToRNNoiseFormat, if_true, ne_eq, not_true_eq_false, if_false]
      rw [downmixStereo_eq_refDownmix]
      rfl
    · have hgt : c > 2 := by omega
      simp only [ConvertToRNNoiseFormat, hc, hgt, if_false, if_true, ne_eq, not_true_eq_false]
      rw [downmixMulti_eq_refDownmix]
  · intro i hi
    unfold refDownmix
    rw [List.getD_eq_getElem _ _ (by simpa using hi)]
    simp [List.range_succ, Nat.mul_comm]

/-- C18 at concrete inputs: a mono buffer and a three-channel buffer. -/
theorem ConvertToRNNoiseFormat_downmix_witness :
    ConvertToRNNoiseFormat ⟨[1, 2, 3, 4, 5, 6, 7], 48000, 1, 16⟩
        = .ok ⟨[1, 2, 3, 4, 5, 6, 7], 48000, 1, 16⟩
    ∧ ConvertToRNNoiseFormat ⟨[1, 2, 3, 4, 5, 6, 7], 48000, 3, 16⟩
        = .ok ⟨refDownmix [1, 2, 3, 4, 5, 6, 7] (3 : Int).toNat, 48000, 1, 16⟩
    ∧ (refDownmix [1, 2, 3, 4, 5, 6, 7] (3 : Int).toNat).length
        = ([1, 2, 3, 4, 5, 6, 7] : List ℚ).length / (3 : Int).toNat :=
  ⟨(ConvertToRNNoiseFormat_downmix [1, 2, 3, 4, 5, 6, 7] 1 16).1 rfl,
   (ConvertToRNNoiseFormat_downmix [1, 2, 3, 4, 5, 6, 7] 3 16).2.1 (by decide)⟩

/-- C19: index safety of format conversion.  For every sample list (the empty
list and lengths not divisible by the channel count included), every channel
count `>= 1` and all positive source and target rates, the run of
`ConvertToRNNoiseFormat` and of `convertSampleRate` with every slice access
checked (downmix loops, interpolation loop, `samples[len-1]`) and the length
given to `make` checked never panics, and returns the buffer of the unchecked
function. -/
theorem conversion_never_panics (audioData : AudioData) (targetSampleRate : Int)
    (_hch : 1 ≤ audioData.Channels) (hrate : 0 < audioData.SampleRate)
    (htarget : 0 < targetSampleRate) :
    (∃ conv, ConvertToRNNoiseFormatChecked audioData = some conv
      ∧ ConvertToRNNoiseFormat audioData = .ok conv)
    ∧ (∃ out, convertSampleRateChecked audioData targetSampleRate = some out
      ∧ convertSampleRate audioData targetSampleRate = .ok out) :=
  ⟨ConvertToRNNoiseFormatChecked_eq audioData hrate,
   convertSampleRateChecked_eq audioData targetSampleRate hrate htarget⟩

/-- C19 at a concrete input: seven samples in three channels at 44100 Hz,
target 8000 Hz. -/
theorem conversion_never_panics_witness :
    (∃ conv, ConvertToRNNoiseFormatChecked ⟨[1, 2, 3, 4, 5, 6, 7], 44100, 3, 16⟩ = some conv
      ∧ ConvertToRNNoiseFormat ⟨[1, 2, 3, 4, 5, 6, 7], 44100, 3, 16⟩ = .ok conv)
    ∧ (∃ out, convertSampleRateChecked ⟨[1, 2, 3, 4, 5, 6, 7], 44100, 3, 16⟩ 8000 = some out
      ∧ convertSampleRate ⟨[1, 2, 3, 4, 5, 6, 7], 44100, 3, 16⟩ 8000 = .ok out) :=
  conversion_never_panics ⟨[1, 2, 3, 4, 5, 6, 7], 44100, 3, 16⟩ 8000
    (by decide) (by decide) (by decide)

/-- C20, the code at the failing inputs: the scale of `WriteWAV` is `2^(d-1)`
at 16 and 24 bits, so a sample of exactly 1 gives `2^(d-1)`, one more than the
largest signed `d`-bit integer; at 32 bits the shift wraps to `-2^31`, so a
sample of exactly -1 gives `2^31`. -/
theorem wavSample_out_of_range :
    wavMaxVal 16 = 32768 ∧ wavSample 16 1 = 32768 ∧ ¬ (wavSample 16 1 ≤ 2 ^ (16 - 1) - 1)
    ∧ wavMaxVal 24 = 8388608 ∧ wavSample 24 1 = 8388608 ∧ ¬ (wavSample 24 1 ≤ 2 ^ (24 - 1) - 1)
    ∧ wavMaxVal 32 = -2147483648 ∧ wavSample 32 (-1) = 2147483648
    ∧ ¬ (wavSample 32 (-1) ≤ 2 ^ (32 - 1) - 1) := by
  have m16 : wavMaxVal 16 = 32768 := by
    have h : toSigned 32 (1 <<< toUint (16 - 1)) = 32768 := by decide
    unfold wavMaxVal
    rw [h]
    norm_num
  have m24 : wavMaxVal 24 = 8388608 := by
    have h : toSigned 32 (1 <<< toUint (24 - 1)) = 8388608 := by decide
    unfold wavMaxVal
    rw [h]
    norm_num
  have m32 : wavMaxVal 32 = -2147483648 := by
    have h : toSigned 32 (1 <<< toUint (32 - 1)) = -2147483648 := by decide
    unfold wavMaxVal
    rw [h]
    norm_num
  have s16 : wavSample 16 1 = 32768 := by
    unfold wavSample
    simp only [m16]
    have e : (if (1 : ℚ) > 1 then (1 : ℚ) else if (1 : ℚ) < -1 then -1 else 1) * 32768
        = ((32768 : Nat) : ℚ) / ((1 : Nat) : ℚ) := by norm_num
    rw [e, truncToInt_natCast_div]
    rfl
  have s24 : wavSample 24 1 = 8388608 := by
    unfold wavSample
    simp only [m24]
    have e : (if (1 : ℚ) > 1 then (1 : ℚ) else if (1 : ℚ) < -1 then -1 else 1) * 8388608
        = ((8388608 : Nat) : ℚ) / ((1 : Nat) : ℚ) := by norm_num
    rw [e, truncToInt_natCast_div]
    rfl
  have s32 : wavSample 32 (-1) = 2147483648 := by
    unfold wavSample
    simp only [m32]
    have e : (if (-1 : ℚ) > 1 then (1 : ℚ) else if (-1 : ℚ) < -1 then -1 else -1) * -2147483648
        = ((2147483648 : Nat) : ℚ) / ((1 : Nat) : ℚ) := by norm_num
    rw [e, truncToInt_natCast_div]
    rfl
  refine ⟨m16, s16, ?_, m24, s24, ?_, m32, s32, ?_⟩
  · rw [s16]; norm_num
  · rw [s24]; norm_num
  · rw [s32]; norm_num

end Rnnoise
